import Mathlib

/-!
Verification of the supercheck-builder record classification and
reconciliation engine.
Strings are modelled as `List Char` (the type `Str` below); Python string
operations (`strip`, `upper`, `split`, regex matches on the fixed patterns of
the source) are embedded as executable functions on `List Char`.  Python
`dict`s (insertion ordered, unique keys) are modelled as association lists:
lookup finds the first matching key, assignment updates in place, and a fresh
key is appended at the end, which matches CPython's insertion-order semantics.
Only the ASCII case fold is modelled for `str.upper`, which is exact on every
input the claims are about.
-/
abbrev Str : Type := List Char

def strL (s : String) : Str := s.toList

/-- Whitespace characters stripped by Python `str.strip()` (ASCII range). -/
def isWsC (c : Char) : Bool :=
  c.toNat = 32 || c.toNat = 9 || c.toNat = 10 || c.toNat = 13 || c.toNat = 11 || c.toNat = 12

def isDigitC (c : Char) : Bool := 48 ≤ c.toNat && c.toNat ≤ 57

def isUpperC (c : Char) : Bool := 65 ≤ c.toNat && c.toNat ≤ 90

def isLowerC (c : Char) : Bool := 97 ≤ c.toNat && c.toNat ≤ 122

def isQuoteC (c : Char) : Bool := c.toNat = 34

def isSepC (c : Char) : Bool := c.toNat = 44 || c.toNat = 59

/-- ASCII `str.upper`. -/
def toUpperChar (c : Char) : Char :=
  if isLowerC c then Char.ofNat (c.toNat - 32) else c

/-- Python `s.strip(chars)`: drop the characters satisfying `p` from both ends. -/
def stripChars (p : Char → Bool) (s : Str) : Str :=
  ((s.dropWhile p).reverse.dropWhile p).reverse

/-- `_strip_cell`: `s.strip().strip('"').strip()`. -/
def strip_cell (s : Str) : Str :=
  stripChars isWsC (stripChars isQuoteC (stripChars isWsC s))

/-- `_norm_call`: `_strip_cell(s).upper()`. -/
def norm_call (s : Str) : Str := (strip_cell s).map toUpperChar

/-- `_norm_exch`: `_strip_cell(s).upper().strip(",;")`. -/
def norm_exch (s : Str) : Str := stripChars isSepC ((strip_cell s).map toUpperChar)

/-- Boolean membership for lists of strings (Python `in`). -/
def memb (x : Str) (l : List Str) : Bool := l.any (fun y => y = x)

/-- Boolean membership of a character in a string (Python `in`). -/
def membC (c : Char) (s : Str) : Bool := s.any (fun d => d = c)

/-- `_is_callsign`: full match of `[A-Z0-9/]+` containing a letter and a digit. -/
def is_callsign (s : Str) : Bool :=
  !s.isEmpty && s.all (fun c => isUpperC c || isDigitC c || c.toNat = 47)
    && s.any isUpperC && s.any isDigitC

/-- `_is_pref2`: the normalized value matches `^\d{2}$`. -/
def is_pref2 (s : Str) : Bool :=
  let t := norm_exch s
  t.length = 2 && t.all isDigitC

/-- `_DATE_RE`: `^\d{2}/\d{2}/\d{2}$|^\d{4}/\d{2}/\d{2}$`. -/
def dateMatch : Str → Bool
  | [a, b, c, d, e, f, g, h] =>
      isDigitC a && isDigitC b && c.toNat = 47 && isDigitC d && isDigitC e &&
        f.toNat = 47 && isDigitC g && isDigitC h
  | [a, b, c, d, e, f, g, h, i, j] =>
      isDigitC a && isDigitC b && isDigitC c && isDigitC d && e.toNat = 47 &&
        isDigitC f && isDigitC g && h.toNat = 47 && isDigitC i && isDigitC j
  | _ => false

/-- Full match of `_JCCJCG_RE` = `^(?P<num>\d{4,6})(?P<suf>[A-Z]?)$`,
returning the two groups.  The digit group is greedy; since the suffix class
is disjoint from digits no backtracking can occur, so the maximal digit
prefix is the digit group. -/
def jccjcgSplit (s : Str) : Option (Str × Str) :=
  let num := s.takeWhile isDigitC
  let rest := s.dropWhile isDigitC
  if 4 ≤ num.length ∧ num.length ≤ 6 then
    match rest with
    | [] => some (num, [])
    | [c] => if isUpperC c then some (num, [c]) else none
    | _ => none
  else none

/-- `_is_jccjcg`. -/
def is_jccjcg (s : Str) : Bool :=
  if s.isEmpty then false
  else
    let t := norm_exch s
    if dateMatch t then false
    else if membC '/' t || membC ':' t then false
    else
      match jccjcgSplit t with
      | none => false
      | some ns => !(ns.1.all (fun c => c.toNat = 48))

/-- `_split_num_suffix`. -/
def split_num_suffix (exch : Str) : Str × Str :=
  match jccjcgSplit (norm_exch exch) with
  | none => ([], [])
  | some ns => ns

/-- `_normalize_base_digits`: the `PP0NNN -> PPNNN` collapse. -/
def normalize_base_digits (num : Str) : Str :=
  if num.length = 6 ∧ num.get? 2 = some '0' then num.take 2 ++ num.drop 3 else num

/-- Value of a digit string, as computed by Python `int` on it. -/
def digitsToNat (ds : Str) : Nat := ds.foldl (fun a c => a * 10 + (c.toNat - 48)) 0

/-- `_base_key`: `(int(normalized base), suffix)`, `0` when `int` fails. -/
def base_key (exch : Str) : Nat × Str :=
  let ns := split_num_suffix exch
  let base := normalize_base_digits ns.1
  if base ≠ [] ∧ base.all isDigitC then (digitsToNat base, ns.2) else (0, ns.2)

/-- `_detail_score`: length of the normalized base, plus 100 for a suffix. -/
def detail_score (exch : Str) : Nat :=
  let ns := split_num_suffix exch
  let base := normalize_base_digits ns.1
  base.length + (if ns.2.isEmpty then 0 else 100)

/-! ### Association lists modelling Python dicts -/
def alistFind {κ α : Type} [DecidableEq κ] (m : List (κ × α)) (k : κ) : Option α :=
  match m with
  | [] => none
  | kv :: rest => if kv.1 = k then some kv.2 else alistFind rest k

def alistSet {κ α : Type} [DecidableEq κ] (m : List (κ × α)) (k : κ) (v : α) :
    List (κ × α) :=
  match m with
  | [] => [(k, v)]
  | kv :: rest => if kv.1 = k then (k, v) :: rest else kv :: alistSet rest k v

def alistDelete {κ α : Type} [DecidableEq κ] (m : List (κ × α)) (k : κ) :
    List (κ × α) :=
  m.filter (fun kv => kv.1 ≠ k)

def alistKeys {κ α : Type} (m : List (κ × α)) : List κ := m.map Prod.fst

/-- `ExchMap = Dict[str, List[str]]`. -/
abbrev ExchMap : Type := List (Str × List Str)

/-- `_add_exch`: insert `exch` into `mapping[call]` without duplicates,
creating the (normalized) key if needed; an empty normalized exch still
creates the key (`setdefault`) but adds nothing. -/
def add_exch (m : ExchMap) (call exch : Str) : ExchMap :=
  let c := norm_call call
  let e := norm_exch exch
  match alistFind m c with
  | none => if e = [] then alistSet m c [] else alistSet m c [e]
  | some lst => if e = [] then m else if memb e lst then m else alistSet m c (lst ++ [e])

/-- `_stable_unique`. -/
def stable_unique (items : List Str) : List Str :=
  items.foldl (fun out x => if memb x out then out else out ++ [x]) []

/-! ### Incomplete-record cleanup -/
/-- `_only_incomplete`. -/
def only_incomplete (exchs : List Str) : Bool × Str :=
  if exchs = [] then (true, strL "blank")
  else if exchs.any is_jccjcg then (false, [])
  else if exchs.all is_pref2 then (true, strL "pref2")
  else (false, [])

/-- The body of the `cleanup_incomplete_existing` loop for one callsign. -/
def incomplete_step (new_map : ExchMap) (acc : ExchMap × List Str × List Str)
    (call : Str) : ExchMap × List Str × List Str :=
  if (only_incomplete ((alistFind acc.1 call).getD [])).1 = false then acc
  else
    if ((alistFind new_map call).getD []).filter is_jccjcg ≠ [] then
      ((((alistFind new_map call).getD []).filter is_jccjcg).foldl
          (fun mm x => add_exch mm call x) (alistSet acc.1 call []),
       acc.2.1 ++ [call], acc.2.2)
    else
      (alistDelete acc.1 call, acc.2.1, acc.2.2 ++ [call])

/-- `cleanup_incomplete_existing`: returns `(updated, filled, removed)`. -/
def cleanup_incomplete_existing (existing new_map : ExchMap) :
    ExchMap × List Str × List Str :=
  (alistKeys existing).foldl (incomplete_step new_map) (existing, [], [])

/-! ### Detail-priority cleanup -/
def suffixedB (x : Str) : Bool := !(split_num_suffix x).2.isEmpty

/-- Lexicographic comparison on code points (Python `<` on `str`). -/
def strLtB : Str → Str → Bool
  | [], [] => false
  | [], _ :: _ => true
  | _ :: _, [] => false
  | a :: as, b :: bs =>
      if a.toNat < b.toNat then true
      else if b.toNat < a.toNat then false
      else strLtB as bs

/-- Strict order on the sort key `(-detail_score, len, s)` used by
`detail_cleanup_map` to pick the best suffix-less variant. -/
def keyLtB (a b : Str) : Bool :=
  if detail_score a ≠ detail_score b then detail_score b < detail_score a
  else if a.length ≠ b.length then a.length < b.length
  else strLtB a b

/-- `sorted(no_suf, key=...)[0]`: the first-occurring minimum of the key. -/
def pickBest : List Str → Str
  | [] => []
  | x :: xs => xs.foldl (fun best y => if keyLtB y best then y else best) x

/-- `by_base.setdefault(base_int, []).append(x)`. -/
def groupInsert (acc : List (Nat × List Str)) (b : Nat) (x : Str) :
    List (Nat × List Str) :=
  match alistFind acc b with
  | none => alistSet acc b [x]
  | some l => alistSet acc b (l ++ [x])

def groupBases (fulls : List Str) : List (Nat × List Str) :=
  fulls.foldl (fun acc x => groupInsert acc (base_key x).1 x) []

/-- Per-group kept/removed pair of the detail-priority rules. -/
def keptOfGroup (items : List Str) : List Str × List Str :=
  let with_suf := items.filter suffixedB
  let no_suf := items.filter (fun x => !suffixedB x)
  if with_suf ≠ [] then (stable_unique with_suf, no_suf)
  else if no_suf.length ≤ 1 then (no_suf, [])
  else
    let best := pickBest no_suf
    ([best], no_suf.filter (fun x => x ≠ best))

/-- The stable keep-and-dedup rebuild of step 3 of `detail_cleanup_map`:
walk the original list, keeping codes in the keep set, skipping duplicates. -/
def skdFold (f : Str → Bool) (l : List Str) : List Str :=
  l.foldl (fun acc x => if f x = true ∧ memb x acc = false then acc ++ [x] else acc) []

/-- The keep set of `detail_cleanup_map` (`set(pref2s)|set(kept_fulls)|set(others)`)
as a membership test. -/
def keepSetB (pref2sK kept_fulls others : List Str) (x : Str) : Bool :=
  memb x pref2sK || memb x kept_fulls || memb x others

/-- The partial codes surviving rule 1 (`pref2s` after the possible reset). -/
def pref2sKeptOf (exchs : List Str) : List Str :=
  if exchs.filter is_jccjcg ≠ [] ∧ exchs.filter is_pref2 ≠ [] then []
  else exchs.filter is_pref2

/-- `kept_fulls`: concatenation of the kept part of every base group. -/
def kept_fulls_of (F : List Str) : List Str :=
  (groupBases F).foldl (fun acc g => acc ++ (keptOfGroup g.2).1) []

/-- `removed_less_detail`: concatenation of the removed part of every group. -/
def removed_ld_of (F : List Str) : List Str :=
  (groupBases F).foldl (fun acc g => acc ++ (keptOfGroup g.2).2) []

/-- The `others` bucket: codes classifying as neither full nor partial. -/
def othersOf (exchs : List Str) : List Str :=
  exchs.filter (fun x => !is_jccjcg x && !is_pref2 x)

/-- The per-callsign body of `detail_cleanup_map`:
returns `(new_list, removed_pref2, removed_less_detail)`. -/
def detail_cleanup_call (exchs : List Str) : List Str × List Str × List Str :=
  (skdFold (keepSetB (pref2sKeptOf exchs) (kept_fulls_of (exchs.filter is_jccjcg))
      (othersOf exchs)) exchs,
   if exchs.filter is_jccjcg ≠ [] ∧ exchs.filter is_pref2 ≠ [] then
     exchs.filter is_pref2
   else [],
   removed_ld_of (exchs.filter is_jccjcg))

/-- One callsign of the `detail_cleanup_map` loop. -/
def dcm_step (acc : ExchMap × List (Str × (List Str × List Str)))
    (kv : Str × List Str) : ExchMap × List (Str × (List Str × List Str)) :=
  (alistSet acc.1 kv.1 (detail_cleanup_call kv.2).1,
   if (detail_cleanup_call kv.2).2.1 ≠ [] ∨ (detail_cleanup_call kv.2).2.2 ≠ [] then
     alistSet acc.2 kv.1 (detail_cleanup_call kv.2).2
   else acc.2)

/-- `detail_cleanup_map`: returns `(cleaned, changes)` where a changes entry
`(call, (removed_pref2, removed_less_detail))` is recorded iff a removal
happened for that callsign. -/
def detail_cleanup_map (m : ExchMap) : ExchMap × List (Str × (List Str × List Str)) :=
  m.foldl dcm_step ([], [])

/-! ### Overwrite resolver and the merge policies -/
/-- The `consider` closure of `choose_overwrite_call`; the state pairs
`best_by_base` and `src_by_base` (`true` = "csv"). -/
def considerStep (st : List (Nat × (Str × Bool))) (x : Str) (isCsv : Bool) :
    List (Nat × (Str × Bool)) :=
  let b := (base_key x).1
  if b = 0 then st
  else
    match alistFind st b with
    | none => alistSet st b (x, isCsv)
    | some cur =>
      if detail_score cur.1 < detail_score x then alistSet st b (x, isCsv)
      else if detail_score x = detail_score cur.1 ∧ isCsv = true ∧ cur.2 = false then
        alistSet st b (x, isCsv)
      else st

/-- `choose_overwrite_call`. -/
def choose_overwrite_call (existing_exchs csv_exchs : List Str) (protect : Bool) :
    List Str :=
  let csv_fulls := csv_exchs.filter is_jccjcg
  if csv_fulls = [] then existing_exchs
  else if protect = false then stable_unique csv_fulls
  else
    let ex_fulls := existing_exchs.filter is_jccjcg
    let st := ex_fulls.foldl (fun st x => considerStep st x false)
                (csv_fulls.foldl (fun st x => considerStep st x true) [])
    let step1 := csv_fulls.foldl (fun (ou : List Str × List Str) x =>
        match alistFind st (base_key x).1 with
        | some cur =>
            if cur.1 ≠ [] ∧ memb cur.1 ou.2 = false then (ou.1 ++ [cur.1], ou.2 ++ [cur.1])
            else ou
        | none => ou) ([], [])
    let step2 := st.foldl (fun (ou : List Str × List Str) kv =>
        if memb kv.2.1 ou.2 = false then (ou.1 ++ [kv.2.1], ou.2 ++ [kv.2.1]) else ou)
      step1
    step2.1

/-- The `overwrite` branch of `on_run`: `merged` starts as a copy of
`existing` and every incoming callsign is resolved by `choose_overwrite_call`. -/
def merge_overwrite (existing incoming : ExchMap) (protect : Bool) : ExchMap :=
  incoming.foldl (fun merged kv =>
    alistSet merged kv.1
      (choose_overwrite_call ((alistFind merged kv.1).getD []) kv.2 protect)) existing

/-- One incoming entry of the `append` branch of `on_run`: a no-fulls entry
only runs `merged.setdefault(call, merged.get(call, []))`; otherwise an
absent-or-empty existing record is replaced by the incoming full codes. -/
def append_step (merged : ExchMap) (kv : Str × List Str) : ExchMap :=
  if kv.2.filter is_jccjcg = [] then
    match alistFind merged kv.1 with
    | some _ => merged
    | none => alistSet merged kv.1 []
  else
    if (alistFind merged kv.1).getD [] = [] then
      (kv.2.filter is_jccjcg).foldl (fun mm x => add_exch mm kv.1 x)
        (alistSet merged kv.1 [])
    else merged

/-- The `append` branch of `on_run`. -/
def merge_append (existing incoming : ExchMap) : ExchMap :=
  incoming.foldl append_step existing

/-- Fuelled worker for `splitOnP` (structural, so that it reduces in the
kernel); `fuel ≥ s.length` makes the fuel irrelevant. -/
def splitOnPF (p : Char → Bool) : Nat → Str → List Str
  | _, [] => []
  | 0, _ :: _ => []
  | fuel + 1, c :: cs =>
    if p c then splitOnPF p fuel cs
    else (c :: cs.takeWhile (fun d => !p d)) :: splitOnPF p fuel (cs.dropWhile (fun d => !p d))

/-- Nonempty maximal runs of non-`p` characters (used for both `line.split()`
and `re.split(r"[,\s;]+", rest)` with empties filtered). -/
def splitOnP (p : Char → Bool) (s : Str) : List Str := splitOnPF p s.length s

def splitWsL (s : Str) : List Str := splitOnP isWsC s

def splitSepsL (s : Str) : List Str := splitOnP (fun c => isWsC c || isSepC c) s

/-- `" ".join(parts)`. -/
def joinSpace (parts : List Str) : Str :=
  match parts with
  | [] => []
  | p :: ps => ps.foldl (fun acc q => acc ++ ' ' :: q) p

def isCommentLine (line : Str) : Bool :=
  (strL "//").isPrefixOf line || (strL "#").isPrefixOf line || (strL ";").isPrefixOf line

/-- `mapping.setdefault(call, [])`. -/
def setdefaultE (m : ExchMap) (call : Str) : ExchMap :=
  match alistFind m call with
  | some _ => m
  | none => alistSet m call []

/-- One line of the `read_existing_supercheck` loop acting on the mapping
(the header accumulator does not influence the mapping and is omitted). -/
def parse_line (m : ExchMap) (raw : Str) : ExchMap :=
  let line := stripChars isWsC raw
  if line = [] then m
  else if isCommentLine line then m
  else
    match splitWsL line with
    | [] => m
    | p0 :: restParts =>
      let call := norm_call p0
      if is_callsign call = false then m
      else
        let rest := stripChars isWsC (joinSpace restParts)
        if rest = [] then setdefaultE m call
        else
          let tokens := splitSepsL rest
          let picked := (tokens.map norm_exch).filter (fun nt => is_jccjcg nt || is_pref2 nt)
          if picked ≠ [] then picked.foldl (fun mm nt => add_exch mm call nt) m
          else add_exch m call rest

/-- `read_existing_supercheck` on the list of raw lines of the file. -/
def read_existing_supercheck (lines : List Str) : ExchMap :=
  lines.foldl parse_line []

/-- `write_supercheck`'s list of output lines for one callsign. -/
def write_call_lines (call : Str) (exchs : List Str) : List Str :=
  if exchs = [] then [call]
  else exchs.map (fun e =>
    let e2 := stripChars isWsC e
    if e2 ≠ [] then call ++ ' ' :: e2 else call)

def strLeB (a b : Str) : Bool := a = b || strLtB a b

def insertSorted (x : Str) : List Str → List Str
  | [] => [x]
  | y :: ys => if strLeB x y then x :: y :: ys else y :: insertSorted x ys

def sortStrs : List Str → List Str
  | [] => []
  | x :: xs => insertSorted x (sortStrs xs)

/-- `write_supercheck` with empty `header_lines`: the emitted lines,
callsigns sorted ascending, one line per code (or a bare callsign line). -/
def write_supercheck_lines (m : ExchMap) : List Str :=
  ((sortStrs (alistKeys m)).map (fun c => write_call_lines c ((alistFind m c).getD []))).flatten

/-! ### Tabular source parser (`read_hamlog_csv_calls` after the CSV split) -/
def CALL_HEADERS : List Str :=
  [strL "CALL", strL "CALLSIGN", strL "CALLSIGN ", strL "CALLSIGN\t",
   strL "コール", strL "コールサイン", strL "CALLSIGN1"]

def QTH_HEADERS : List Str :=
  [strL "JCC", strL "JCG", strL "JCC/JCG", strL "JCCJCG", strL "QTH",
   strL "市郡", strL "QTH1", strL "QRA", strL "LOC"]

/-- `_header_index`. -/
def header_index (row : List Str) (cands : List Str) : Option Nat :=
  let normR := row.map (fun c => (strip_cell c).map toUpperChar)
  let candU := cands.map (fun c => c.map toUpperChar)
  normR.findIdx? (fun v => memb v candU)

/-- The row-0 header test of `read_hamlog_csv_calls`:
`any(_strip_cell(c).upper() in {"CALL", "CALLSIGN", "コールサイン"} for c in row)`. -/
def hdrDetect (row : List Str) : Bool :=
  row.any (fun c =>
    memb ((strip_cell c).map toUpperChar)
      [strL "CALL", strL "CALLSIGN", strL "コールサイン"])

def classifyCall (c : Str) : Option Str :=
  let cc := norm_call c
  if is_callsign cc then some cc else none

def classifyExch (c : Str) : Option Str :=
  let e := norm_exch c
  if is_jccjcg e then some e else none

/-- The in-row scan for a locator, skipping cells containing `/` or `:`. -/
def scanExch (c : Str) : Option Str :=
  let e := norm_exch c
  if membC '/' e || membC ':' e then none
  else if is_jccjcg e then some e else none

/-- Callsign slot of the row extractor: conventional column 0, then the
header-hinted column, then a left-to-right scan.  `row` holds the already
`_strip_cell`-ed cells. -/
def row_call (row : List Str) (cidx : Option Nat) : Option Str :=
  match (row.get? 0).bind classifyCall with
  | some c => some c
  | none =>
    match cidx.bind (fun i => (row.get? i).bind classifyCall) with
    | some c => some c
    | none => row.findSome? classifyCall

/-- Locator slot of the row extractor: conventional column 7, then the
header-hinted column, then the scan. -/
def row_exch (row : List Str) (qidx : Option Nat) : Option Str :=
  match (row.get? 7).bind classifyExch with
  | some e => some e
  | none =>
    match qidx.bind (fun i => (row.get? i).bind classifyExch) with
    | some e => some e
    | none => row.findSome? scanExch

/-- Processing of one (already stripped) data row: state is
`(out, call_idx, qth_idx)` and only `out` can change. -/
def process_row (domestic : Bool) (st : ExchMap × Option Nat × Option Nat)
    (row : List Str) : ExchMap :=
  match row_call row st.2.1 with
  | none => st.1
  | some call =>
    match row_exch row st.2.2 with
    | none => if domestic then st.1 else setdefaultE st.1 call
    | some exch => add_exch (setdefaultE st.1 call) call exch

/-- One step of the `read_hamlog_csv_calls` row loop (`ir.1` is the
`enumerate` index). -/
def read_rows_step (domestic : Bool) (st : ExchMap × Option Nat × Option Nat)
    (ir : Nat × List Str) : ExchMap × Option Nat × Option Nat :=
  if ir.2 = [] then st
  else
    let row := ir.2.map strip_cell
    if ir.1 = 0 ∧ hdrDetect row then
      (st.1, header_index row CALL_HEADERS, header_index row QTH_HEADERS)
    else
      (process_row domestic st row, st.2)

/-- `read_hamlog_csv_calls` acting on the rows the CSV reader produced. -/
def read_rows (rows : List (List Str)) (domestic : Bool) : ExchMap :=
  (rows.enum.foldl (read_rows_step domestic) ([], none, none)).1

/-! ### Row reader lemmas (C2, C8) -/
/-- Folding the row loop over data rows with a fixed `(call_idx, qth_idx)`
state (what happens to every row after row 0). -/
def data_fold (domestic : Bool) (st : ExchMap × Option Nat × Option Nat)
    (rows : List (List Str)) : ExchMap × Option Nat × Option Nat :=
  rows.foldl (fun s r =>
    if r = [] then s else (process_row domestic s (r.map strip_cell), s.2)) st

/-! ### Spec-side keep and removal predicates for detail cleanup -/
/-- Spec-side test (for the amended C5): does full code `x` survive rule 2,
grouping the full codes `F` by the numeric value of the normalized base, with
suffixed codes beating suffix-less ones and `pickBest` resolving all-unsuffixed
groups? -/
def keepFullB (F : List Str) (x : Str) : Bool :=
  let g := F.filter (fun y => (base_key y).1 = (base_key x).1)
  if g.any suffixedB then suffixedB x else x = pickBest g

/-- Spec-side test: is full code `x` dropped as a less-detailed duplicate? -/
def removedFullB (F : List Str) (x : Str) : Bool :=
  let g := F.filter (fun y => (base_key y).1 = (base_key x).1)
  if g.any suffixedB then !suffixedB x
  else decide (2 ≤ g.length) && decide (x ≠ pickBest g)

/-- Spec-side test: does code `x` of the record survive detail cleanup? -/
def keepSpecB (exchs : List Str) (x : Str) : Bool :=
  if is_pref2 x then decide (exchs.filter is_jccjcg = [])
  else if is_jccjcg x then keepFullB (exchs.filter is_jccjcg) x
  else true

/-! ### The overwrite resolver (C1) -/
/-- One step of the per-base selection of `consider`, value-with-source. -/
def pairStep (fl : Bool) (a : Option (Str × Bool)) (y : Str) : Option (Str × Bool) :=
  match a with
  | none => some (y, fl)
  | some c => if detail_score c.1 < detail_score y then some (y, fl) else a

/-- First element attaining the running strict maximum of `detail_score`,
starting from an optional current best. -/
def famStep (a : Option Str) (y : Str) : Option Str :=
  match a with
  | none => some y
  | some c => if detail_score c < detail_score y then some y else a

def famFrom (acc : Option Str) (l : List Str) : Option Str := l.foldl famStep acc

/-- The first element of `l` attaining the maximal `detail_score`. -/
def firstArgmax (l : List Str) : Option Str := famFrom none l

/-- The `best_by_base`/`src_by_base` store after both `consider` passes. -/
def owStore (csv_fulls ex_fulls : List Str) : List (Nat × (Str × Bool)) :=
  ex_fulls.foldl (fun st x => considerStep st x false)
    (csv_fulls.foldl (fun st x => considerStep st x true) [])

/-- The output loops of `choose_overwrite_call` over a fixed store. -/
def owOut (st : List (Nat × (Str × Bool))) (csv_fulls : List Str) : List Str :=
  (st.foldl (fun (ou : List Str × List Str) kv =>
      if memb kv.2.1 ou.2 = false then (ou.1 ++ [kv.2.1], ou.2 ++ [kv.2.1]) else ou)
    (csv_fulls.foldl (fun (ou : List Str × List Str) x =>
        match alistFind st (base_key x).1 with
        | some cur =>
            if cur.1 ≠ [] ∧ memb cur.1 ou.2 = false then
              (ou.1 ++ [cur.1], ou.2 ++ [cur.1])
            else ou
        | none => ou) ([], []))).1

def owStep1 (st : List (Nat × (Str × Bool))) (ou : List Str × List Str)
    (x : Str) : List Str × List Str :=
  match alistFind st (base_key x).1 with
  | some cur =>
      if cur.1 ≠ [] ∧ memb cur.1 ou.2 = false then (ou.1 ++ [cur.1], ou.2 ++ [cur.1])
      else ou
  | none => ou

def owStep2 (ou : List Str × List Str) (kv : Nat × (Str × Bool)) :
    List Str × List Str :=
  if memb kv.2.1 ou.2 = false then (ou.1 ++ [kv.2.1], ou.2 ++ [kv.2.1]) else ou

/-- Well-formedness of a record for the round trip: either every code
classifies (full or partial) and is normalization-fixed, or the record is a
single opaque normalization-fixed token that survives whitespace splitting
and whose sub-tokens never classify. -/
def goodRecord (exchs : List Str) : Prop :=
  (∀ e ∈ exchs, (is_jccjcg e || is_pref2 e) = true ∧ norm_exch e = e) ∨
  (∃ t, exchs = [t] ∧ t ≠ [] ∧ norm_exch t = t ∧ joinSpace (splitWsL t) = t ∧
    ∀ tok ∈ splitSepsL t, is_jccjcg (norm_exch tok) = false ∧
      is_pref2 (norm_exch tok) = false)

/-! ### Existing-list parser and writer -/
theorem length_dropWhile_le {α : Type} (p : α → Bool) (l : List α) :
    (l.dropWhile p).length ≤ l.length := by
  induction l with
  | nil => simp [List.dropWhile]
  | cons a t ih =>
    simp only [List.dropWhile]
    cases p a
    · exact Nat.le_refl _
    · exact Nat.le_trans ih (Nat.le_succ _)

theorem splitOnPF_fuel {p : Char → Bool} :
    ∀ (f₁ : Nat) (s : Str) (f₂ : Nat), s.length ≤ f₁ → s.length ≤ f₂ →
      splitOnPF p f₁ s = splitOnPF p f₂ s := by
  intro f₁
  induction f₁ with
  | zero =>
    intro s f₂ h₁ _
    cases s with
    | nil => cases f₂ <;> rfl
    | cons c cs => simp at h₁
  | succ f ih =>
    intro s f₂ h₁ h₂
    cases s with
    | nil => cases f₂ <;> rfl
    | cons c cs =>
      cases f₂ with
      | zero => simp at h₂
      | succ f' =>
        simp only [splitOnPF]
        by_cases hp : p c
        · simp only [hp, if_true]
          exact ih cs f' (by simpa using h₁) (by simpa using h₂)
        · have hd : (cs.dropWhile (fun d => !p d)).length ≤ cs.length :=
            length_dropWhile_le _ _
          have h₃ := ih (cs.dropWhile (fun d => !p d)) f'
            (Nat.le_trans hd (by simpa using h₁)) (Nat.le_trans hd (by simpa using h₂))
          simp [hp, h₃]

theorem splitOnP_nil (p : Char → Bool) : splitOnP p [] = [] := rfl

theorem splitOnP_cons_pos (p : Char → Bool) (c : Char) (cs : Str) (h : p c = true) :
    splitOnP p (c :: cs) = splitOnP p cs := by
  simp only [splitOnP, List.length_cons, splitOnPF, h, if_true]

theorem splitOnP_cons_neg (p : Char → Bool) (c : Char) (cs : Str) (h : p c = false) :
    splitOnP p (c :: cs) =
      (c :: cs.takeWhile (fun d => !p d)) :: splitOnP p (cs.dropWhile (fun d => !p d)) := by
  simp only [splitOnP, List.length_cons, splitOnPF, h, if_false, Bool.false_eq_true]
  have := splitOnPF_fuel (p := p) cs.length (cs.dropWhile (fun d => !p d))
    (cs.dropWhile (fun d => !p d)).length (length_dropWhile_le _ _) (Nat.le_refl _)
  rw [this]

/-! ### Basic lemmas about the string model -/
theorem memb_iff {x : Str} {l : List Str} : memb x l = true ↔ x ∈ l := by
  simp [memb]

theorem membC_iff {c : Char} {s : Str} : membC c s = true ↔ c ∈ s := by
  simp [membC]

theorem char_eq_of_toNat {c d : Char} (h : c.toNat = d.toNat) : c = d := by
  have hc := Char.ofNat_toNat c
  rw [← hc, h, Char.ofNat_toNat]

theorem dropWhile_of_forall {p : Char → Bool} {s : Str} (h : ∀ c ∈ s, p c = false) :
    s.dropWhile p = s := by
  cases s with
  | nil => rfl
  | cons a t => simp [List.dropWhile_cons, h a (by simp)]

theorem stripChars_of_forall {p : Char → Bool} {s : Str} (h : ∀ c ∈ s, p c = false) :
    stripChars p s = s := by
  unfold stripChars
  rw [dropWhile_of_forall h, dropWhile_of_forall, List.reverse_reverse]
  intro c hc
  exact h c (by simpa using hc)

theorem mem_dropWhile_of_mem {p : Char → Bool} {c : Char} {s : Str}
    (hc : c ∈ s) (hp : p c = false) : c ∈ s.dropWhile p := by
  induction s with
  | nil => cases hc
  | cons a t ih =>
    rw [List.dropWhile_cons]
    cases ha : p a with
    | true =>
      simp only [ha, if_true]
      rcases List.mem_cons.mp hc with h | h
      · subst h; rw [hp] at ha; cases ha
      · exact ih h
    | false => simpa [ha] using hc

theorem mem_stripChars_of_mem {p : Char → Bool} {c : Char} {s : Str}
    (hc : c ∈ s) (hp : p c = false) : c ∈ stripChars p s := by
  unfold stripChars
  have h1 := mem_dropWhile_of_mem hc hp
  have h2 : c ∈ (s.dropWhile p).reverse := by simpa using h1
  have h3 := mem_dropWhile_of_mem h2 hp
  simpa using h3

theorem takeWhile_append_all {α : Type} {p : α → Bool} {l r : List α}
    (h : ∀ x ∈ l, p x = true) : (l ++ r).takeWhile p = l ++ r.takeWhile p := by
  induction l with
  | nil => simp
  | cons a t ih =>
    simp [List.takeWhile_cons, h a (by simp), ih (fun x hx => h x (by simp [hx]))]

theorem dropWhile_append_all {α : Type} {p : α → Bool} {l r : List α}
    (h : ∀ x ∈ l, p x = true) : (l ++ r).dropWhile p = r.dropWhile p := by
  induction l with
  | nil => simp
  | cons a t ih =>
    simp [List.dropWhile_cons, h a (by simp), ih (fun x hx => h x (by simp [hx]))]

theorem digit_props {c : Char} (h : isDigitC c = true) :
    isWsC c = false ∧ isQuoteC c = false ∧ isSepC c = false ∧ isLowerC c = false ∧
      isUpperC c = false := by
  simp only [isDigitC, Bool.and_eq_true, decide_eq_true_eq] at h
  simp only [isWsC, isQuoteC, isSepC, isLowerC, isUpperC, Bool.or_eq_false_iff,
    Bool.and_eq_false_iff, decide_eq_false_iff_not]
  omega

theorem upper_props {c : Char} (h : isUpperC c = true) :
    isWsC c = false ∧ isQuoteC c = false ∧ isSepC c = false ∧ isLowerC c = false ∧
      isDigitC c = false := by
  simp only [isUpperC, Bool.and_eq_true, decide_eq_true_eq] at h
  simp only [isWsC, isQuoteC, isSepC, isLowerC, isDigitC, Bool.or_eq_false_iff,
    Bool.and_eq_false_iff, decide_eq_false_iff_not]
  omega

theorem toUpperChar_eq_self {c : Char} (h : isLowerC c = false) : toUpperChar c = c := by
  simp [toUpperChar, h]

theorem map_toUpper_id {s : Str} (h : ∀ c ∈ s, isLowerC c = false) :
    s.map toUpperChar = s := by
  induction s with
  | nil => rfl
  | cons a t ih =>
    simp [toUpperChar_eq_self (h a (by simp)), ih (fun c hc => h c (by simp [hc]))]

theorem norm_exch_fixed {s : Str}
    (h : ∀ c ∈ s, isDigitC c = true ∨ isUpperC c = true) : norm_exch s = s := by
  have hws : ∀ c ∈ s, isWsC c = false := by
    intro c hc; rcases h c hc with hd | hu
    · exact (digit_props hd).1
    · exact (upper_props hu).1
  have hq : ∀ c ∈ s, isQuoteC c = false := by
    intro c hc; rcases h c hc with hd | hu
    · exact (digit_props hd).2.1
    · exact (upper_props hu).2.1
  have hsep : ∀ c ∈ s, isSepC c = false := by
    intro c hc; rcases h c hc with hd | hu
    · exact (digit_props hd).2.2.1
    · exact (upper_props hu).2.2.1
  have hl : ∀ c ∈ s, isLowerC c = false := by
    intro c hc; rcases h c hc with hd | hu
    · exact (digit_props hd).2.2.2.1
    · exact (upper_props hu).2.2.2.1
  show stripChars isSepC ((strip_cell s).map toUpperChar) = s
  unfold strip_cell
  rw [stripChars_of_forall hws, stripChars_of_forall hq, stripChars_of_forall hws,
    map_toUpper_id hl, stripChars_of_forall hsep]

theorem mem_norm_exch {c : Char} {s : Str} (hc : c ∈ s) (hws : isWsC c = false)
    (hq : isQuoteC c = false) (hsep : isSepC c = false) (hl : isLowerC c = false) :
    c ∈ norm_exch s := by
  have h3 : c ∈ strip_cell s :=
    mem_stripChars_of_mem (mem_stripChars_of_mem (mem_stripChars_of_mem hc hws) hq) hws
  have h4 : c ∈ (strip_cell s).map toUpperChar :=
    List.mem_map.mpr ⟨c, h3, toUpperChar_eq_self hl⟩
  exact mem_stripChars_of_mem h4 hsep

theorem dateMatch_mem_slash {s : Str} (h : dateMatch s = true) : '/' ∈ s := by
  unfold dateMatch at h
  split at h
  next a b c d e f g h8 =>
    simp only [Bool.and_eq_true, decide_eq_true_eq] at h
    have hc : c = '/' := char_eq_of_toNat (by simpa using h.1.1.1.1.1.2)
    subst hc; simp
  next a b c d e f g h8 i j =>
    simp only [Bool.and_eq_true, decide_eq_true_eq] at h
    have hc : e = '/' := char_eq_of_toNat (by simpa using h.1.1.1.1.1.2)
    subst hc; simp
  next => cases h

theorem jccjcgSplit_shape {num suf : Str} (hnum : ∀ c ∈ num, isDigitC c = true)
    (h4 : 4 ≤ num.length) (h6 : num.length ≤ 6)
    (hsuf : suf = [] ∨ ∃ c, suf = [c] ∧ isUpperC c = true) :
    jccjcgSplit (num ++ suf) = some (num, suf) := by
  have ht : (num ++ suf).takeWhile isDigitC = num := by
    rw [takeWhile_append_all hnum]
    rcases hsuf with rfl | ⟨c, rfl, hc⟩
    · simp
    · simp [List.takeWhile_cons, (upper_props hc).2.2.2.2]
  have hd : (num ++ suf).dropWhile isDigitC = suf := by
    rw [dropWhile_append_all hnum]
    rcases hsuf with rfl | ⟨c, rfl, hc⟩
    · simp
    · simp [List.dropWhile_cons, (upper_props hc).2.2.2.2]
  simp only [jccjcgSplit]
  rw [ht, hd]
  rcases hsuf with rfl | ⟨c, rfl, hc⟩
  · simp [h4, h6]
  · simp [h4, h6, hc]

theorem is_jccjcg_shape {num suf : Str} (hnum : ∀ c ∈ num, isDigitC c = true)
    (h4 : 4 ≤ num.length) (h6 : num.length ≤ 6)
    (hsuf : suf = [] ∨ ∃ c, suf = [c] ∧ isUpperC c = true) :
    is_jccjcg (num ++ suf) = !(num.all (fun c => c.toNat = 48)) := by
  have hall : ∀ c ∈ num ++ suf, isDigitC c = true ∨ isUpperC c = true := by
    intro c hc
    rcases List.mem_append.mp hc with h | h
    · exact Or.inl (hnum c h)
    · rcases hsuf with rfl | ⟨d, rfl, hd⟩
      · cases h
      · rcases List.mem_singleton.mp h with rfl
        exact Or.inr hd
  have hne : (num ++ suf).isEmpty = false := by
    rcases num with _ | ⟨a, t⟩
    · simp at h4
    · simp
  have hfix : norm_exch (num ++ suf) = num ++ suf := norm_exch_fixed hall
  have hdate : dateMatch (num ++ suf) = false := by
    cases hd : dateMatch (num ++ suf) with
    | false => rfl
    | true =>
      exfalso
      have hmem := dateMatch_mem_slash hd
      rcases hall '/' hmem with h | h <;> simp [isDigitC, isUpperC] at h
  have hslash : membC '/' (num ++ suf) = false := by
    cases hm : membC '/' (num ++ suf) with
    | false => rfl
    | true =>
      exfalso
      rcases hall '/' (membC_iff.mp hm) with h | h <;> simp [isDigitC, isUpperC] at h
  have hcolon : membC ':' (num ++ suf) = false := by
    cases hm : membC ':' (num ++ suf) with
    | false => rfl
    | true =>
      exfalso
      rcases hall ':' (membC_iff.mp hm) with h | h <;> simp [isDigitC, isUpperC] at h
  unfold is_jccjcg
  rw [hne]
  simp only [Bool.false_eq_true, if_false, hfix, hdate, hslash, hcolon,
    jccjcgSplit_shape hnum h4 h6 hsuf]
  simp

/-- **C3**: the full-locator classifier accepts every string of 4–6 digits with
an optional uppercase suffix whose digit part is not all zeros; it rejects
every string containing `/` or `:` (hence every date-shaped string) and every
shape string whose digit part is all zeros, in particular `"0000"` and
`"000000A"`. -/
theorem C3_full_locator_classifier :
    (∀ num suf : Str, (∀ c ∈ num, isDigitC c = true) → 4 ≤ num.length →
        num.length ≤ 6 → (suf = [] ∨ ∃ c, suf = [c] ∧ isUpperC c = true) →
        ((∃ c ∈ num, c ≠ '0') → is_jccjcg (num ++ suf) = true) ∧
        ((∀ c ∈ num, c = '0') → is_jccjcg (num ++ suf) = false)) ∧
    (∀ s : Str, membC '/' s = true ∨ membC ':' s = true → is_jccjcg s = false) ∧
    (∀ a b d e g h : Char, is_jccjcg [a, b, '/', d, e, '/', g, h] = false) ∧
    (∀ a b c d f g i j : Char, is_jccjcg [a, b, c, d, '/', f, g, '/', i, j] = false) ∧
    is_jccjcg (strL "0000") = false ∧ is_jccjcg (strL "000000A") = false := by
  have main : ∀ s : Str, membC '/' s = true ∨ membC ':' s = true →
      is_jccjcg s = false := by
    intro s hmem
    rcases s with _ | ⟨a, t⟩
    · rcases hmem with h | h <;> cases h
    · have hne : (a :: t).isEmpty = false := by simp
      have hm : membC '/' (norm_exch (a :: t)) = true ∨
          membC ':' (norm_exch (a :: t)) = true := by
        rcases hmem with h | h
        · exact Or.inl (membC_iff.mpr (mem_norm_exch (membC_iff.mp h) rfl rfl rfl rfl))
        · exact Or.inr (membC_iff.mpr (mem_norm_exch (membC_iff.mp h) rfl rfl rfl rfl))
      unfold is_jccjcg
      rw [hne]
      simp only [Bool.false_eq_true, if_false]
      by_cases hd : dateMatch (norm_exch (a :: t)) = true
      · simp [hd]
      · rcases hm with h | h <;> simp [h, hd]
  refine ⟨?_, main, ?_, ?_, ?_, ?_⟩
  · intro num suf hnum h4 h6 hsuf
    constructor
    · intro ⟨c, hc, hc0⟩
      rw [is_jccjcg_shape hnum h4 h6 hsuf]
      have : num.all (fun c => c.toNat = 48) = false := by
        rw [List.all_eq_false]
        refine ⟨c, hc, ?_⟩
        simp only [decide_eq_true_eq]
        intro h
        exact hc0 (char_eq_of_toNat (by simpa using h))
      simp [this]
    · intro hz
      rw [is_jccjcg_shape hnum h4 h6 hsuf]
      have : num.all (fun c => c.toNat = 48) = true := by
        rw [List.all_eq_true]
        intro c hc
        simp [hz c hc, Char.toNat]
      simp [this]
  · intro a b d e g h
    exact main _ (Or.inl (membC_iff.mpr (by simp)))
  · intro a b c d f g i j
    exact main _ (Or.inl (membC_iff.mpr (by simp)))
  · decide
  · decide

/-- Witness for C3 at concrete inputs. -/
theorem C3_witness :
    is_jccjcg (strL "47003" ++ [] ) = true ∧
    is_jccjcg (strL "0000" ++ [] ) = false ∧
    is_jccjcg (strL "12/34/56") = false :=
  ⟨(C3_full_locator_classifier.1 (strL "47003") [] (by decide) (by decide) (by decide)
      (Or.inl rfl)).1 (by decide),
   (C3_full_locator_classifier.1 (strL "0000") [] (by decide) (by decide) (by decide)
      (Or.inl rfl)).2 (by decide),
   C3_full_locator_classifier.2.1 (strL "12/34/56") (Or.inl (by decide))⟩

/-- **C10**: `_is_pref2` accepts the all-zero string `"00"` (the all-zero
exclusion lives only in `_is_jccjcg`), so `"00"` acts as a valid partial code
in the existing-list parser, in incompleteness classification, and in
detail-priority cleanup, while all-zero full codes are rejected. -/
theorem C10_allzero_partial_accepted :
    is_pref2 (strL "00") = true ∧
    is_jccjcg (strL "0000") = false ∧
    is_jccjcg (strL "000000A") = false ∧
    read_existing_supercheck [strL "JA1AA 00"] = [(strL "JA1AA", [strL "00"])] ∧
    only_incomplete [strL "00"] = (true, strL "pref2") ∧
    detail_cleanup_call [strL "00", strL "1234"] = ([strL "1234"], [strL "00"], []) ∧
    detail_cleanup_call [strL "00"] = ([strL "00"], [], []) := by
  decide

theorem read_rows_aux_pos (domestic : Bool) :
    ∀ (rows : List (List Str)) (n : Nat) (st : ExchMap × Option Nat × Option Nat),
      (List.enumFrom (n + 1) rows).foldl (read_rows_step domestic) st =
        data_fold domestic st rows := by
  intro rows
  induction rows with
  | nil => intro n st; rfl
  | cons r rs ih =>
    intro n st
    simp only [List.enumFrom, List.foldl_cons, data_fold]
    have hstep : read_rows_step domestic st (n + 1, r) =
        if r = [] then st else (process_row domestic st (r.map strip_cell), st.2) := by
      unfold read_rows_step
      by_cases hr : r = []
      · simp [hr]
      · simp [hr]
    rw [hstep]
    by_cases hr : r = []
    · simp only [hr, if_true]
      exact ih (n + 1) st
    · simp only [hr, if_false]
      exact ih (n + 1) _

theorem read_rows_cons (domestic : Bool) (r0 : List Str) (rest : List (List Str)) :
    read_rows (r0 :: rest) domestic =
      (data_fold domestic (read_rows_step domestic ([], none, none) (0, r0)) rest).1 := by
  unfold read_rows
  have henum : (r0 :: rest).enum = (0, r0) :: List.enumFrom 1 rest := by
    simp [List.enum]
  rw [henum]
  simp only [List.foldl_cons]
  rw [read_rows_aux_pos domestic rest 0 _]

/-- **C8** (corrected): counterexample to the claim as stated.  The cell
`"CALLSIGN1"` matches a known callsign-header label (`_CALL_HEADERS`, as used
for the column hints), yet the row `["CALLSIGN1"]` at index 0 is *not*
treated as a header: it is consumed as a data row and contributes the record
`CALLSIGN1 ↦ []`. -/
theorem C8_counterexample :
    header_index [strL "CALLSIGN1"] CALL_HEADERS = some 0 ∧
    read_rows [[strL "CALLSIGN1"]] false = [(strL "CALLSIGN1", [])] := by
  decide

/-- **C8** (amended): row 0 is treated as a header — excluded from the data
rows, with the column hints resolved by `_header_index` against the full
label sets — iff one of its cells, stripped and upper-cased, equals one of
the three detection labels `CALL`, `CALLSIGN`, `コールサイン` (a strict
subset of `_CALL_HEADERS`); otherwise row 0 is processed as a data row with
no hints. -/
theorem C8_header_detection :
    (∀ row : List Str, hdrDetect row = true ↔
      ∃ c ∈ row, (strip_cell c).map toUpperChar ∈
        [strL "CALL", strL "CALLSIGN", strL "コールサイン"]) ∧
    (∀ (domestic : Bool) (r0 : List Str) (rest : List (List Str)),
      r0 ≠ [] → hdrDetect (r0.map strip_cell) = true →
      read_rows (r0 :: rest) domestic =
        (data_fold domestic
          ([], header_index (r0.map strip_cell) CALL_HEADERS,
            header_index (r0.map strip_cell) QTH_HEADERS) rest).1) ∧
    (∀ (domestic : Bool) (r0 : List Str) (rest : List (List Str)),
      r0 ≠ [] → hdrDetect (r0.map strip_cell) = false →
      read_rows (r0 :: rest) domestic =
        (data_fold domestic
          (process_row domestic ([], none, none) (r0.map strip_cell), none, none)
          rest).1) := by
  refine ⟨?_, ?_, ?_⟩
  · intro row
    constructor
    · intro h
      rcases List.any_eq_true.mp h with ⟨c, hc, hm⟩
      exact ⟨c, hc, memb_iff.mp hm⟩
    · intro ⟨c, hc, hm⟩
      exact List.any_eq_true.mpr ⟨c, hc, memb_iff.mpr hm⟩
  · intro domestic r0 rest hne hdet
    rw [read_rows_cons]
    have : read_rows_step domestic ([], none, none) (0, r0) =
        ([], header_index (r0.map strip_cell) CALL_HEADERS,
          header_index (r0.map strip_cell) QTH_HEADERS) := by
      unfold read_rows_step
      simp [hne, hdet]
    rw [this]
  · intro domestic r0 rest hne hdet
    rw [read_rows_cons]
    have : read_rows_step domestic ([], none, none) (0, r0) =
        (process_row domestic ([], none, none) (r0.map strip_cell), none, none) := by
      unfold read_rows_step
      simp [hne, hdet]
    rw [this]

/-- Witness for C8 at a concrete header row. -/
theorem C8_witness :
    read_rows [[strL "CALL"]] true =
      (data_fold true
        ([], header_index ([strL "CALL"].map strip_cell) CALL_HEADERS,
          header_index ([strL "CALL"].map strip_cell) QTH_HEADERS) []).1 :=
  C8_header_detection.2.1 true [strL "CALL"] [] (by decide) (by decide)

/-- **C2**: layered row extraction.  The callsign is cell 0 when its
normalization classifies, else the header-hinted cell when it classifies,
else the first classifying cell of a left-to-right scan; the locator is cell
7 when it classifies, else the header-hinted cell, else the first cell of a
scan that skips any cell whose normalization contains `/` or `:`.  A row with
no extractable callsign contributes nothing; a row with a callsign but no
locator records the callsign (with a fresh empty code list when new) unless
domestic-only mode is on, in which case it is skipped.  The sample headerless
row extracts `("7J1ADJ/6", "47003G")` through the conventional columns. -/
theorem C2_row_extraction :
    (∀ (row : List Str) (ci : Option Nat) (c0 : Str), row.get? 0 = some c0 →
      is_callsign (norm_call c0) = true → row_call row ci = some (norm_call c0)) ∧
    (∀ (row : List Str) (i : Nat) (cH : Str),
      (row.get? 0).bind classifyCall = none → row.get? i = some cH →
      is_callsign (norm_call cH) = true →
      row_call row (some i) = some (norm_call cH)) ∧
    (∀ (row : List Str) (ci : Option Nat),
      (row.get? 0).bind classifyCall = none →
      ci.bind (fun i => (row.get? i).bind classifyCall) = none →
      row_call row ci = row.findSome? classifyCall) ∧
    (∀ (row : List Str) (qi : Option Nat) (c7 : Str), row.get? 7 = some c7 →
      is_jccjcg (norm_exch c7) = true → row_exch row qi = some (norm_exch c7)) ∧
    (∀ (row : List Str) (i : Nat) (cH : Str),
      (row.get? 7).bind classifyExch = none → row.get? i = some cH →
      is_jccjcg (norm_exch cH) = true →
      row_exch row (some i) = some (norm_exch cH)) ∧
    (∀ (row : List Str) (qi : Option Nat),
      (row.get? 7).bind classifyExch = none →
      qi.bind (fun i => (row.get? i).bind classifyExch) = none →
      row_exch row qi = row.findSome? scanExch) ∧
    (∀ c : Str, membC '/' (norm_exch c) = true ∨ membC ':' (norm_exch c) = true →
      scanExch c = none) ∧
    (∀ (domestic : Bool) (st : ExchMap × Option Nat × Option Nat) (row : List Str),
      row_call row st.2.1 = none → process_row domestic st row = st.1) ∧
    (∀ (domestic : Bool) (st : ExchMap × Option Nat × Option Nat) (row : List Str)
        (call : Str), row_call row st.2.1 = some call →
      row_exch row st.2.2 = none →
      process_row domestic st row = if domestic then st.1 else setdefaultE st.1 call) ∧
    (read_rows [[strL "7J1ADJ/6", strL "...", strL "...", strL "...", strL "...",
        strL "...", strL "...", strL "47003G"]] true
      = [(strL "7J1ADJ/6", [strL "47003G"])] ∧
     classifyCall (strL "7J1ADJ/6") = some (strL "7J1ADJ/6") ∧
     classifyExch (strL "47003G") = some (strL "47003G")) := by
  refine ⟨?_, ?_, ?_, ?_, ?_, ?_, ?_, ?_, ?_, by decide⟩
  · intro row ci c0 h0 hcls
    unfold row_call
    rw [h0]
    simp [classifyCall, hcls]
  · intro row i cH h0 hH hcls
    unfold row_call
    rw [h0]
    simp only [Option.bind_some, Option.some_bind, hH]
    simp [classifyCall, hcls]
  · intro row ci h0 hH
    unfold row_call
    rw [h0, hH]
  · intro row qi c7 h7 hcls
    unfold row_exch
    rw [h7]
    simp [classifyExch, hcls]
  · intro row i cH h7 hH hcls
    unfold row_exch
    rw [h7]
    simp only [Option.bind_some, Option.some_bind, hH]
    simp [classifyExch, hcls]
  · intro row qi h7 hH
    unfold row_exch
    rw [h7, hH]
  · intro c hmem
    unfold scanExch
    rcases hmem with h | h <;> simp [h]
  · intro domestic st row hnone
    unfold process_row
    rw [hnone]
  · intro domestic st row call hc he
    unfold process_row
    rw [hc, he]

/-- Witness for C2 at a concrete row. -/
theorem C2_witness :
    row_call [strL "JA1XYZ", strL "x"] none = some (strL "JA1XYZ") ∧
    row_exch [strL "47003G"] none = some (strL "47003G") ∧
    scanExch (strL "12:00") = none :=
  ⟨by
      have := C2_row_extraction.1 [strL "JA1XYZ", strL "x"] none (strL "JA1XYZ")
        (by decide) (by decide)
      simpa using this,
   by
      have := C2_row_extraction.2.2.2.2.2.1 [strL "47003G"] none (by decide) (by decide)
      rw [this]; decide,
   C2_row_extraction.2.2.2.2.2.2.1 (strL "12:00") (Or.inr (by decide))⟩

/-! ### Association list and `_add_exch` lemmas -/
theorem alistFind_set_self {κ α : Type} [DecidableEq κ] (m : List (κ × α)) (k : κ)
    (v : α) : alistFind (alistSet m k v) k = some v := by
  induction m with
  | nil => simp [alistSet, alistFind]
  | cons kv rest ih =>
    by_cases h : kv.1 = k
    · simp [alistSet, h, alistFind]
    · simp [alistSet, h, alistFind, ih]

theorem alistFind_set_ne {κ α : Type} [DecidableEq κ] (m : List (κ × α)) (k c : κ)
    (v : α) (h : c ≠ k) : alistFind (alistSet m k v) c = alistFind m c := by
  have hkc : ¬ (k = c) := fun hh => h hh.symm
  induction m with
  | nil => simp [alistSet, alistFind, hkc]
  | cons kv rest ih =>
    by_cases hk : kv.1 = k
    · subst hk
      simp [alistSet, alistFind, hkc]
    · simp only [alistSet, hk, if_false]
      by_cases hc : kv.1 = c
      · simp [alistFind, hc]
      · simp [alistFind, hc, ih]

theorem alistFind_delete_self {κ α : Type} [DecidableEq κ] (m : List (κ × α)) (k : κ) :
    alistFind (alistDelete m k) k = none := by
  induction m with
  | nil => rfl
  | cons kv rest ih =>
    by_cases h : kv.1 = k
    · simpa [alistDelete, h] using ih
    · simpa [alistDelete, alistFind, h] using ih

theorem alistFind_delete_ne {κ α : Type} [DecidableEq κ] (m : List (κ × α)) (k c : κ)
    (h : c ≠ k) : alistFind (alistDelete m k) c = alistFind m c := by
  induction m with
  | nil => rfl
  | cons kv rest ih =>
    by_cases hk : kv.1 = k
    · have h1 : alistDelete (kv :: rest) k = alistDelete rest k := by
        simp [alistDelete, List.filter_cons, hk]
      have hc : ¬ (kv.1 = c) := by rw [hk]; exact fun hh => h hh.symm
      rw [h1, ih]
      simp [alistFind, hc]
    · have h1 : alistDelete (kv :: rest) k = kv :: alistDelete rest k := by
        simp [alistDelete, List.filter_cons, hk]
      rw [h1]
      by_cases hc : kv.1 = c
      · simp [alistFind, hc]
      · simp [alistFind, hc, ih]

theorem is_jccjcg_ne_nil {x : Str} (h : is_jccjcg x = true) : x ≠ [] := by
  intro hx
  rw [hx] at h
  simp [is_jccjcg] at h

theorem add_exch_find_ne {m : ExchMap} {call exch c : Str} (h : c ≠ norm_call call) :
    alistFind (add_exch m call exch) c = alistFind m c := by
  simp only [add_exch]
  cases hf : alistFind m (norm_call call) with
  | none =>
    by_cases he : norm_exch exch = [] <;> simp [he, alistFind_set_ne _ _ _ _ h]
  | some lst =>
    by_cases he : norm_exch exch = []
    · simp [he]
    · by_cases hm : memb (norm_exch exch) lst <;>
        simp [he, hm, alistFind_set_ne _ _ _ _ h]

theorem add_exch_find_self {m : ExchMap} {call exch : Str} (hcall : norm_call call = call)
    (hexch : norm_exch exch = exch) (hne : exch ≠ []) {v : List Str}
    (hv : alistFind m call = some v) :
    alistFind (add_exch m call exch) call =
      some (if memb exch v then v else v ++ [exch]) := by
  simp only [add_exch]
  rw [hcall, hexch, hv]
  by_cases hm : memb exch v
  · simp [hne, hm, hv]
  · simp [hne, hm, alistFind_set_self]

/-- Effect on `mapping[call]` of folding `_add_exch` over a list of nonempty
normalization-fixed codes. -/
theorem addAll_find_self {l : List Str} :
    ∀ {m : ExchMap} {call : Str} {v : List Str}, norm_call call = call →
      (∀ x ∈ l, norm_exch x = x ∧ x ≠ []) → alistFind m call = some v →
      alistFind (l.foldl (fun mm x => add_exch mm call x) m) call =
        some (l.foldl (fun acc x => if memb x acc then acc else acc ++ [x]) v) := by
  induction l with
  | nil => intro m call v _ _ hv; simpa using hv
  | cons x xs ih =>
    intro m call v hcall hl hv
    simp only [List.foldl_cons]
    have hx := hl x (by simp)
    have hstep := add_exch_find_self hcall hx.1 hx.2 hv
    exact ih hcall (fun y hy => hl y (by simp [hy])) hstep

theorem addAll_find_ne {l : List Str} {m : ExchMap} {call c : Str}
    (h : c ≠ norm_call call) :
    alistFind (l.foldl (fun mm x => add_exch mm call x) m) c = alistFind m c := by
  induction l generalizing m with
  | nil => rfl
  | cons x xs ih => simp only [List.foldl_cons]; rw [ih, add_exch_find_ne h]

theorem alistFind_eq_none {κ α : Type} [DecidableEq κ] {m : List (κ × α)} {k : κ} :
    alistFind m k = none ↔ k ∉ alistKeys m := by
  induction m with
  | nil => simp [alistFind, alistKeys]
  | cons kv rest ih =>
    by_cases h : kv.1 = k
    · simp [alistFind, alistKeys, h]
    · have hk : ¬ (k = kv.1) := fun hh => h hh.symm
      simp [alistFind, alistKeys, h, hk, ih]

/-! ### The append merge policy (C4) -/
theorem append_step_find_ne {merged : ExchMap} {kv : Str × List Str} {c : Str}
    (hk : norm_call kv.1 = kv.1) (h : c ≠ kv.1) :
    alistFind (append_step merged kv) c = alistFind merged c := by
  unfold append_step
  by_cases hf : kv.2.filter is_jccjcg = []
  · simp only [hf, if_true]
    cases hm : alistFind merged kv.1 <;> simp [alistFind_set_ne _ _ _ _ h]
  · simp only [hf, if_false]
    by_cases hg : (alistFind merged kv.1).getD [] = []
    · simp only [hg, if_true]
      rw [addAll_find_ne (by rw [hk]; exact h)]
      exact alistFind_set_ne _ _ _ _ h
    · simp [hg]

theorem append_step_find_self {merged : ExchMap} {kv : Str × List Str}
    (hk : norm_call kv.1 = kv.1) (hv : ∀ x ∈ kv.2, norm_exch x = x) :
    alistFind (append_step merged kv) kv.1 =
      (if kv.2.filter is_jccjcg = [] then some ((alistFind merged kv.1).getD [])
       else if (alistFind merged kv.1).getD [] = [] then
         some (stable_unique (kv.2.filter is_jccjcg))
       else alistFind merged kv.1) := by
  unfold append_step
  by_cases hf : kv.2.filter is_jccjcg = []
  · simp only [hf, if_true]
    cases hm : alistFind merged kv.1 with
    | none => simp [alistFind_set_self]
    | some l => simpa using hm
  · simp only [hf, if_false]
    by_cases hg : (alistFind merged kv.1).getD [] = []
    · simp only [hg, if_true]
      have hset : alistFind (alistSet merged kv.1 []) kv.1 = some [] :=
        alistFind_set_self _ _ _
      have hl : ∀ x ∈ kv.2.filter is_jccjcg, norm_exch x = x ∧ x ≠ [] := by
        intro x hx
        exact ⟨hv x (List.mem_of_mem_filter hx), is_jccjcg_ne_nil (List.of_mem_filter hx)⟩
      rw [addAll_find_self hk hl hset]
      rfl
    · simp [hg]

/-- Full description of a lookup in the result of the append merge, for an
incoming store with distinct, normalization-fixed keys and normalized code
values. -/
theorem merge_append_find :
    ∀ (incoming existing : ExchMap), (alistKeys incoming).Nodup →
      (∀ kv ∈ incoming, norm_call kv.1 = kv.1) →
      (∀ kv ∈ incoming, ∀ x ∈ kv.2, norm_exch x = x) →
      ∀ c, alistFind (merge_append existing incoming) c =
        match alistFind incoming c with
        | none => alistFind existing c
        | some exchs =>
          if exchs.filter is_jccjcg = [] then some ((alistFind existing c).getD [])
          else if (alistFind existing c).getD [] = [] then
            some (stable_unique (exchs.filter is_jccjcg))
          else alistFind existing c := by
  intro incoming
  induction incoming with
  | nil => intro existing _ _ _ c; rfl
  | cons kv rest ih =>
    intro existing hnd hkeys hvals c
    have hk : norm_call kv.1 = kv.1 := hkeys kv (by simp)
    have hnd0 : (kv.1 :: alistKeys rest).Nodup := hnd
    have hnd' : (alistKeys rest).Nodup := (List.nodup_cons.mp hnd0).2
    have hkmem : kv.1 ∉ alistKeys rest := (List.nodup_cons.mp hnd0).1
    have hmerge : merge_append existing (kv :: rest) =
        merge_append (append_step existing kv) rest := rfl
    rw [hmerge, ih (append_step existing kv) hnd'
      (fun x hx => hkeys x (by simp [hx])) (fun x hx => hvals x (by simp [hx])) c]
    by_cases hkc : kv.1 = c
    · subst hkc
      have hrest : alistFind rest kv.1 = none := alistFind_eq_none.mpr hkmem
      rw [hrest]
      have hfind : alistFind (kv :: rest) kv.1 = some kv.2 := by simp [alistFind]
      rw [hfind]
      exact append_step_find_self hk (hvals kv (by simp))
    · have hfind : alistFind (kv :: rest) c = alistFind rest c := by
        simp [alistFind, hkc]
      rw [hfind]
      have hstep := @append_step_find_ne existing kv c hk
        (fun hh => hkc hh.symm)
      cases hr : alistFind rest c with
      | none => simpa using hstep
      | some ex => simp only [hstep]

/-- **C4** (corrected): counterexample to the claim as stated.  An incoming
callsign with no full locator codes that is absent from the existing store
does *not* produce "no change": `merged.setdefault(call, merged.get(call, []))`
inserts the callsign with an empty code list. -/
theorem C4_counterexample :
    alistFind ([] : ExchMap) (strL "JA1ABC") = none ∧
    alistFind (merge_append [] [(strL "JA1ABC", [])]) (strL "JA1ABC") = some [] := by
  decide

/-- **C4** (amended): under the append policy, an incoming callsign with full
codes backfills an absent-or-empty existing record with exactly the distinct
incoming full codes (in incoming order) and leaves a non-empty existing
record untouched; an incoming callsign with no full codes leaves a present
record unchanged but *inserts an empty record when the callsign is absent*;
callsigns absent from the incoming store are carried through unchanged.
Scenario: existing `{JA1ABC: []}` with incoming `{JA1ABC: [55001]}` yields
`{JA1ABC: [55001]}`. -/
theorem C4_append_policy :
    (∀ (existing incoming : ExchMap), (alistKeys incoming).Nodup →
      (∀ kv ∈ incoming, norm_call kv.1 = kv.1) →
      (∀ kv ∈ incoming, ∀ x ∈ kv.2, norm_exch x = x) →
      ∀ c exchs, alistFind incoming c = some exchs →
        (exchs.filter is_jccjcg ≠ [] →
          ((alistFind existing c = none ∨ alistFind existing c = some []) →
            alistFind (merge_append existing incoming) c =
              some (stable_unique (exchs.filter is_jccjcg))) ∧
          (∀ l, alistFind existing c = some l → l ≠ [] →
            alistFind (merge_append existing incoming) c = some l)) ∧
        (exchs.filter is_jccjcg = [] →
          alistFind (merge_append existing incoming) c =
            some ((alistFind existing c).getD []))) ∧
    (∀ (existing incoming : ExchMap), (alistKeys incoming).Nodup →
      (∀ kv ∈ incoming, norm_call kv.1 = kv.1) →
      (∀ kv ∈ incoming, ∀ x ∈ kv.2, norm_exch x = x) →
      ∀ c, alistFind incoming c = none →
        alistFind (merge_append existing incoming) c = alistFind existing c) ∧
    merge_append [(strL "JA1ABC", [])] [(strL "JA1ABC", [strL "55001"])] =
      [(strL "JA1ABC", [strL "55001"])] := by
  refine ⟨?_, ?_, by decide⟩
  · intro existing incoming hnd hkeys hvals c exchs hc
    have hfind := merge_append_find incoming existing hnd hkeys hvals c
    rw [hc] at hfind
    constructor
    · intro hfne
      constructor
      · intro habs
        have hg : (alistFind existing c).getD [] = [] := by
          rcases habs with h | h <;> simp [h]
        rw [hfind]
        simp [hfne, hg]
      · intro l hl hlne
        have hg : ¬ ((alistFind existing c).getD [] = []) := by
          rw [hl]; simpa using hlne
        rw [hfind]
        simp only [hfne, hg, hl, if_false]
        simp [hlne]
    · intro hfe
      rw [hfind]
      simp [hfe]
  · intro existing incoming hnd hkeys hvals c hc
    have hfind := merge_append_find incoming existing hnd hkeys hvals c
    rw [hc] at hfind
    exact hfind

/-- Witness for C4 at concrete stores. -/
theorem C4_witness :
    alistFind (merge_append [(strL "JA1ABC", [])] [(strL "JA1ABC", [strL "55001"])])
        (strL "JA1ABC") =
      some (stable_unique ([strL "55001"].filter is_jccjcg)) :=
  ((C4_append_policy.1 [(strL "JA1ABC", [])] [(strL "JA1ABC", [strL "55001"])]
      (by decide) (by decide) (by decide) (strL "JA1ABC") [strL "55001"]
      (by decide)).1 (by decide)).1 (Or.inr (by decide))

/-! ### Incomplete-record cleanup lemmas (C6) -/
theorem alistFind_mem {κ α : Type} [DecidableEq κ] {m : List (κ × α)} {k : κ} {v : α}
    (h : alistFind m k = some v) : (k, v) ∈ m := by
  induction m with
  | nil => cases h
  | cons kv rest ih =>
    by_cases hk : kv.1 = k
    · simp only [alistFind, hk, if_true] at h
      have hv : kv.2 = v := Option.some.inj h
      have hkv : (k, v) = kv := by rw [← hk, ← hv]
      rw [hkv]
      exact List.mem_cons_self _ _
    · simp only [alistFind, hk, if_false] at h
      exact List.mem_cons_of_mem _ (ih h)

theorem incomplete_step_filled_mono {new_map : ExchMap}
    {acc : ExchMap × List Str × List Str} {call c : Str} (h : c ∈ acc.2.1) :
    c ∈ (incomplete_step new_map acc call).2.1 := by
  unfold incomplete_step
  by_cases h1 : (only_incomplete ((alistFind acc.1 call).getD [])).1 = false
  · simpa [h1] using h
  · by_cases h2 : ((alistFind new_map call).getD []).filter is_jccjcg ≠ [] <;>
      simp [h1, h2, List.mem_append, h]

theorem incomplete_step_removed_mono {new_map : ExchMap}
    {acc : ExchMap × List Str × List Str} {call c : Str} (h : c ∈ acc.2.2) :
    c ∈ (incomplete_step new_map acc call).2.2 := by
  unfold incomplete_step
  by_cases h1 : (only_incomplete ((alistFind acc.1 call).getD [])).1 = false
  · simpa [h1] using h
  · by_cases h2 : ((alistFind new_map call).getD []).filter is_jccjcg ≠ [] <;>
      simp [h1, h2, List.mem_append, h]

theorem incomplete_step_find_ne {new_map : ExchMap}
    {acc : ExchMap × List Str × List Str} {call c : Str}
    (hnorm : norm_call call = call) (h : c ≠ call) :
    alistFind (incomplete_step new_map acc call).1 c = alistFind acc.1 c := by
  unfold incomplete_step
  by_cases h1 : (only_incomplete ((alistFind acc.1 call).getD [])).1 = false
  · simp [h1]
  · by_cases h2 : ((alistFind new_map call).getD []).filter is_jccjcg ≠ []
    · rw [if_neg h1, if_pos h2]
      dsimp only
      rw [addAll_find_ne (by rw [hnorm]; exact h)]
      exact alistFind_set_ne _ _ _ _ h
    · rw [if_neg h1, if_neg h2]
      dsimp only
      exact alistFind_delete_ne _ _ _ h

theorem incomplete_fold_untouched {new_map : ExchMap} :
    ∀ (ks : List Str) (acc : ExchMap × List Str × List Str) (c : Str),
      (∀ k ∈ ks, norm_call k = k) → c ∉ ks →
      alistFind (ks.foldl (incomplete_step new_map) acc).1 c = alistFind acc.1 c := by
  intro ks
  induction ks with
  | nil => intro acc c _ _; rfl
  | cons k ks' ih =>
    intro acc c hnorm hc
    simp only [List.foldl_cons]
    have hne : c ≠ k := fun hh => hc (by simp [hh])
    rw [ih _ c (fun x hx => hnorm x (by simp [hx])) (fun hh => hc (by simp [hh]))]
    exact incomplete_step_find_ne (hnorm k (by simp)) hne

theorem incomplete_fold_filled_mono {new_map : ExchMap} :
    ∀ (ks : List Str) (acc : ExchMap × List Str × List Str) (c : Str),
      c ∈ acc.2.1 → c ∈ (ks.foldl (incomplete_step new_map) acc).2.1 := by
  intro ks
  induction ks with
  | nil => intro acc c h; exact h
  | cons k ks' ih =>
    intro acc c h
    simp only [List.foldl_cons]
    exact ih _ c (incomplete_step_filled_mono h)

theorem incomplete_fold_removed_mono {new_map : ExchMap} :
    ∀ (ks : List Str) (acc : ExchMap × List Str × List Str) (c : Str),
      c ∈ acc.2.2 → c ∈ (ks.foldl (incomplete_step new_map) acc).2.2 := by
  intro ks
  induction ks with
  | nil => intro acc c h; exact h
  | cons k ks' ih =>
    intro acc c h
    simp only [List.foldl_cons]
    exact ih _ c (incomplete_step_removed_mono h)

theorem incomplete_step_self {new_map : ExchMap}
    {acc : ExchMap × List Str × List Str} {call : Str} {exchs : List Str}
    (hnorm : norm_call call = call)
    (hvals : ∀ x ∈ (alistFind new_map call).getD [], norm_exch x = x)
    (hacc : alistFind acc.1 call = some exchs) :
    ((only_incomplete exchs).1 = false → incomplete_step new_map acc call = acc) ∧
    ((only_incomplete exchs).1 = true →
      ((alistFind new_map call).getD []).filter is_jccjcg ≠ [] →
      alistFind (incomplete_step new_map acc call).1 call =
        some (stable_unique (((alistFind new_map call).getD []).filter is_jccjcg)) ∧
      (incomplete_step new_map acc call).2.1 = acc.2.1 ++ [call]) ∧
    ((only_incomplete exchs).1 = true →
      ((alistFind new_map call).getD []).filter is_jccjcg = [] →
      alistFind (incomplete_step new_map acc call).1 call = none ∧
      (incomplete_step new_map acc call).2.2 = acc.2.2 ++ [call]) := by
  refine ⟨?_, ?_, ?_⟩
  · intro hoi
    unfold incomplete_step
    rw [hacc]
    simp [hoi]
  · intro hoi hfne
    unfold incomplete_step
    rw [hacc]
    have h1 : ¬ ((only_incomplete ((some exchs).getD [])).1 = false) := by
      simp [hoi]
    rw [if_neg h1, if_pos hfne]
    dsimp only
    constructor
    · have hset : alistFind (alistSet acc.1 call []) call = some [] :=
        alistFind_set_self _ _ _
      have hl : ∀ x ∈ ((alistFind new_map call).getD []).filter is_jccjcg,
          norm_exch x = x ∧ x ≠ [] := by
        intro x hx
        exact ⟨hvals x (List.mem_of_mem_filter hx),
          is_jccjcg_ne_nil (List.of_mem_filter hx)⟩
      rw [addAll_find_self hnorm hl hset]
      rfl
    · rfl
  · intro hoi hfe
    unfold incomplete_step
    rw [hacc]
    have h1 : ¬ ((only_incomplete ((some exchs).getD [])).1 = false) := by
      simp [hoi]
    have h2 : ¬ (((alistFind new_map call).getD []).filter is_jccjcg ≠ []) := by
      simp [hfe]
    rw [if_neg h1, if_neg h2]
    dsimp only
    exact ⟨alistFind_delete_self _ _, rfl⟩

/-- Effect of the incomplete-cleanup fold at a key occurring in the
(distinct, normalized) key list. -/
theorem incomplete_fold_find {new_map : ExchMap} :
    ∀ (ks : List Str) (acc : ExchMap × List Str × List Str) (c : Str),
      (∀ k ∈ ks, norm_call k = k) → ks.Nodup → c ∈ ks →
      (∀ x ∈ (alistFind new_map c).getD [], norm_exch x = x) →
      ∀ exchs, alistFind acc.1 c = some exchs →
      (((only_incomplete exchs).1 = false →
        alistFind (ks.foldl (incomplete_step new_map) acc).1 c = some exchs) ∧
       ((only_incomplete exchs).1 = true →
        ((alistFind new_map c).getD []).filter is_jccjcg ≠ [] →
        alistFind (ks.foldl (incomplete_step new_map) acc).1 c =
          some (stable_unique (((alistFind new_map c).getD []).filter is_jccjcg)) ∧
        c ∈ (ks.foldl (incomplete_step new_map) acc).2.1) ∧
       ((only_incomplete exchs).1 = true →
        ((alistFind new_map c).getD []).filter is_jccjcg = [] →
        alistFind (ks.foldl (incomplete_step new_map) acc).1 c = none ∧
        c ∈ (ks.foldl (incomplete_step new_map) acc).2.2)) := by
  intro ks
  induction ks with
  | nil => intro acc c _ _ hc; cases hc
  | cons k ks' ih =>
    intro acc c hnorm hnd hc hvals exchs hacc
    have hnormk : norm_call k = k := hnorm k (by simp)
    have hnorm' : ∀ x ∈ ks', norm_call x = x := fun x hx => hnorm x (by simp [hx])
    simp only [List.foldl_cons]
    by_cases hck : c = k
    · subst hck
      have hcnot : c ∉ ks' := (List.nodup_cons.mp hnd).1
      have hself := @incomplete_step_self new_map acc c exchs hnormk hvals hacc
      refine ⟨?_, ?_, ?_⟩
      · intro hoi
        rw [hself.1 hoi]
        rw [incomplete_fold_untouched ks' acc c hnorm' hcnot, hacc]
      · intro hoi hfne
        have h1 := (hself.2.1 hoi hfne).1
        have h2 := (hself.2.1 hoi hfne).2
        constructor
        · rw [incomplete_fold_untouched ks' _ c hnorm' hcnot, h1]
        · refine incomplete_fold_filled_mono ks' _ c ?_
          rw [h2]
          simp
      · intro hoi hfe
        have h1 := (hself.2.2 hoi hfe).1
        have h2 := (hself.2.2 hoi hfe).2
        constructor
        · rw [incomplete_fold_untouched ks' _ c hnorm' hcnot, h1]
        · refine incomplete_fold_removed_mono ks' _ c ?_
          rw [h2]
          simp
    · have hc' : c ∈ ks' := by
        rcases List.mem_cons.mp hc with h | h
        · exact absurd h hck
        · exact h
      have hacc' : alistFind (incomplete_step new_map acc k).1 c = some exchs := by
        rw [incomplete_step_find_ne hnormk hck, hacc]
      exact ih _ c hnorm' (List.nodup_cons.mp hnd).2 hc' hvals exchs hacc'

/-- **C6**: a record is incomplete iff it has no full code and its codes are
empty or all two-digit partials; an incomplete record with incoming full
codes is replaced by exactly those (deduplicated, in order) and reported as
filled; one with no incoming full code is deleted and reported as removed;
other records are unchanged.  Scenario: existing `{JA1ABC: [10, 11]}` with no
incoming entry removes `JA1ABC` and reports it removed. -/
theorem C6_incomplete_cleanup :
    (∀ exchs : List Str, (only_incomplete exchs).1 = true ↔
      (exchs.filter is_jccjcg = [] ∧ (exchs = [] ∨ ∀ x ∈ exchs, is_pref2 x = true))) ∧
    (∀ existing new_map : ExchMap, (alistKeys existing).Nodup →
      (∀ kv ∈ existing, norm_call kv.1 = kv.1) →
      (∀ kv ∈ new_map, ∀ x ∈ kv.2, norm_exch x = x) →
      ∀ c exchs, alistFind existing c = some exchs →
        ((only_incomplete exchs).1 = false →
          alistFind (cleanup_incomplete_existing existing new_map).1 c = some exchs) ∧
        ((only_incomplete exchs).1 = true →
          ((alistFind new_map c).getD []).filter is_jccjcg ≠ [] →
          alistFind (cleanup_incomplete_existing existing new_map).1 c =
            some (stable_unique (((alistFind new_map c).getD []).filter is_jccjcg)) ∧
          c ∈ (cleanup_incomplete_existing existing new_map).2.1) ∧
        ((only_incomplete exchs).1 = true →
          ((alistFind new_map c).getD []).filter is_jccjcg = [] →
          alistFind (cleanup_incomplete_existing existing new_map).1 c = none ∧
          c ∈ (cleanup_incomplete_existing existing new_map).2.2)) ∧
    cleanup_incomplete_existing [(strL "JA1ABC", [strL "10", strL "11"])] [] =
      ([], [], [strL "JA1ABC"]) := by
  refine ⟨?_, ?_, by decide⟩
  · intro exchs
    unfold only_incomplete
    by_cases he : exchs = []
    · simp [he]
    · simp only [he, if_false, false_or]
      by_cases ha : exchs.any is_jccjcg = true
      · rcases List.any_eq_true.mp ha with ⟨x, hx, hj⟩
        have hne : exchs.filter is_jccjcg ≠ [] := by
          intro hnil
          have : is_jccjcg x = false := by
            have := List.filter_eq_nil_iff.mp hnil x hx
            simpa using this
          rw [hj] at this
          cases this
        simp [ha, hne]
      · have hfil : exchs.filter is_jccjcg = [] := by
          rw [List.filter_eq_nil_iff]
          intro x hx
          intro hj
          exact ha (List.any_eq_true.mpr ⟨x, hx, hj⟩)
        by_cases hall : exchs.all is_pref2 = true
        · rw [if_neg ha, if_pos hall]
          constructor
          · intro _
            exact ⟨hfil, List.all_eq_true.mp hall⟩
          · intro _
            rfl
        · rw [if_neg ha, if_neg hall]
          constructor
          · intro hfalse
            exact Bool.noConfusion hfalse
          · rintro ⟨-, hp⟩
            exact absurd (List.all_eq_true.mpr hp) hall
  · intro existing new_map hnd hkeys hvals c exchs hfind
    have hckeys : c ∈ alistKeys existing := by
      by_contra hcn
      rw [alistFind_eq_none.mpr hcn] at hfind
      cases hfind
    have hknorm : ∀ k ∈ alistKeys existing, norm_call k = k := by
      intro k hk
      rcases List.mem_map.mp hk with ⟨kv, hkv, rfl⟩
      exact hkeys kv hkv
    have hv : ∀ x ∈ (alistFind new_map c).getD [], norm_exch x = x := by
      cases hn : alistFind new_map c with
      | none => intro x hx; simp at hx
      | some l =>
        intro x hx
        exact hvals _ (alistFind_mem hn) x (by simpa using hx)
    exact incomplete_fold_find (alistKeys existing) (existing, [], []) c hknorm hnd
      hckeys hv exchs hfind

/-- Witness for C6 at concrete stores. -/
theorem C6_witness :
    alistFind (cleanup_incomplete_existing [(strL "JA1ABC", [strL "10"])]
        [(strL "JA1ABC", [strL "100115"])]).1 (strL "JA1ABC") =
      some (stable_unique (((alistFind [(strL "JA1ABC", [strL "100115"])]
        (strL "JA1ABC")).getD []).filter is_jccjcg)) ∧
    strL "JA1ABC" ∈ (cleanup_incomplete_existing [(strL "JA1ABC", [strL "10"])]
        [(strL "JA1ABC", [strL "100115"])]).2.1 :=
  ((C6_incomplete_cleanup.2.1 [(strL "JA1ABC", [strL "10"])]
      [(strL "JA1ABC", [strL "100115"])] (by decide) (by decide) (by decide)
      (strL "JA1ABC") [strL "10"] (by decide)).2.1 (by decide) (by decide))

/-! ### Lemmas on `stable_unique` and `skdFold` -/
theorem su_aux_mem {x : Str} :
    ∀ (l acc : List Str),
      (x ∈ l.foldl (fun out y => if memb y out then out else out ++ [y]) acc ↔
        x ∈ acc ∨ x ∈ l) := by
  intro l
  induction l with
  | nil => intro acc; simp
  | cons y ys ih =>
    intro acc
    simp only [List.foldl_cons]
    by_cases hm : memb y acc
    · rw [if_pos hm, ih]
      constructor
      · rintro (h | h)
        · exact Or.inl h
        · exact Or.inr (by simp [h])
      · rintro (h | h)
        · exact Or.inl h
        · rcases List.mem_cons.mp h with rfl | h
          · exact Or.inl (memb_iff.mp hm)
          · exact Or.inr h
    · rw [if_neg hm, ih]
      constructor
      · rintro (h | h)
        · rcases List.mem_append.mp h with h | h
          · exact Or.inl h
          · exact Or.inr (by simp [List.mem_singleton.mp h])
        · exact Or.inr (by simp [h])
      · rintro (h | h)
        · exact Or.inl (by simp [h])
        · rcases List.mem_cons.mp h with rfl | h
          · exact Or.inl (by simp)
          · exact Or.inr h

theorem mem_stable_unique {x : Str} {l : List Str} :
    x ∈ stable_unique l ↔ x ∈ l := by
  unfold stable_unique
  rw [su_aux_mem l []]
  simp

theorem su_aux_nodup :
    ∀ (l acc : List Str), acc.Nodup →
      (l.foldl (fun out y => if memb y out then out else out ++ [y]) acc).Nodup := by
  intro l
  induction l with
  | nil => intro acc h; exact h
  | cons y ys ih =>
    intro acc h
    simp only [List.foldl_cons]
    by_cases hm : memb y acc
    · rw [if_pos hm]; exact ih acc h
    · rw [if_neg hm]
      refine ih _ ?_
      rw [List.nodup_append]
      refine ⟨h, List.nodup_singleton y, ?_⟩
      intro a ha hb
      rcases List.mem_singleton.mp hb with rfl
      exact hm (memb_iff.mpr ha)

theorem stable_unique_nodup (l : List Str) : (stable_unique l).Nodup :=
  su_aux_nodup l [] List.nodup_nil

theorem skd_aux_mem {f : Str → Bool} {x : Str} :
    ∀ (l acc : List Str), (∀ y ∈ acc, f y = true) →
      (x ∈ l.foldl (fun acc y => if f y = true ∧ memb y acc = false then acc ++ [y] else acc) acc ↔
        x ∈ acc ∨ (x ∈ l ∧ f x = true)) := by
  intro l
  induction l with
  | nil => intro acc _; simp
  | cons y ys ih =>
    intro acc hacc
    simp only [List.foldl_cons]
    by_cases hc : f y = true ∧ memb y acc = false
    · rw [if_pos hc, ih _ (by
        intro z hz
        rcases List.mem_append.mp hz with h | h
        · exact hacc z h
        · rcases List.mem_singleton.mp h with rfl
          exact hc.1)]
      constructor
      · rintro (h | h)
        · rcases List.mem_append.mp h with h | h
          · exact Or.inl h
          · rcases List.mem_singleton.mp h with rfl
            exact Or.inr ⟨by simp, hc.1⟩
        · exact Or.inr ⟨by simp [h.1], h.2⟩
      · rintro (h | ⟨h1, h2⟩)
        · exact Or.inl (by simp [h])
        · rcases List.mem_cons.mp h1 with rfl | h1
          · exact Or.inl (by simp)
          · exact Or.inr ⟨h1, h2⟩
    · rw [if_neg hc, ih _ hacc]
      constructor
      · rintro (h | h)
        · exact Or.inl h
        · exact Or.inr ⟨by simp [h.1], h.2⟩
      · rintro (h | ⟨h1, h2⟩)
        · exact Or.inl h
        · rcases List.mem_cons.mp h1 with rfl | h1
          · rcases Classical.em (memb x acc = false) with hm | hm
            · exact absurd ⟨h2, hm⟩ hc
            · have : memb x acc = true := by
                cases hq : memb x acc
                · exact absurd hq hm
                · rfl
              exact Or.inl (memb_iff.mp this)
          · exact Or.inr ⟨h1, h2⟩

theorem skdFold_mem {f : Str → Bool} {x : Str} {l : List Str} :
    x ∈ skdFold f l ↔ x ∈ l ∧ f x = true := by
  unfold skdFold
  rw [skd_aux_mem l [] (by intro y hy; cases hy)]
  simp

theorem skd_aux_nodup {f : Str → Bool} :
    ∀ (l acc : List Str), acc.Nodup →
      (l.foldl (fun acc y => if f y = true ∧ memb y acc = false then acc ++ [y] else acc) acc).Nodup := by
  intro l
  induction l with
  | nil => intro acc h; exact h
  | cons y ys ih =>
    intro acc h
    simp only [List.foldl_cons]
    by_cases hc : f y = true ∧ memb y acc = false
    · rw [if_pos hc]
      refine ih _ ?_
      rw [List.nodup_append]
      refine ⟨h, List.nodup_singleton y, ?_⟩
      intro a ha hb
      rcases List.mem_singleton.mp hb with rfl
      rw [memb_iff.mpr ha] at hc
      exact Bool.noConfusion hc.2
    · rw [if_neg hc]; exact ih acc h

theorem skdFold_nodup (f : Str → Bool) (l : List Str) : (skdFold f l).Nodup :=
  skd_aux_nodup l [] List.nodup_nil

theorem skd_aux_sublist {f : Str → Bool} :
    ∀ (l acc : List Str),
      (l.foldl (fun acc y => if f y = true ∧ memb y acc = false then acc ++ [y] else acc) acc).Sublist (acc ++ l) := by
  intro l
  induction l with
  | nil => intro acc; simp
  | cons y ys ih =>
    intro acc
    simp only [List.foldl_cons]
    by_cases hc : f y = true ∧ memb y acc = false
    · rw [if_pos hc]
      have := ih (acc ++ [y])
      simpa using this
    · rw [if_neg hc]
      have h1 := ih acc
      have h2 : (acc ++ ys).Sublist (acc ++ y :: ys) :=
        List.Sublist.append_left (List.sublist_cons_self y ys) acc
      exact h1.trans h2

theorem skdFold_sublist (f : Str → Bool) (l : List Str) : (skdFold f l).Sublist l := by
  have := skd_aux_sublist (f := f) l []
  simpa using this

theorem skd_aux_eq_self {f : Str → Bool} :
    ∀ (l acc : List Str), l.Nodup → (∀ x ∈ l, f x = true) → (∀ x ∈ l, x ∉ acc) →
      l.foldl (fun acc y => if f y = true ∧ memb y acc = false then acc ++ [y] else acc) acc = acc ++ l := by
  intro l
  induction l with
  | nil => intro acc _ _ _; simp
  | cons y ys ih =>
    intro acc hnd hf hdisj
    simp only [List.foldl_cons]
    have hm : memb y acc = false := by
      cases hq : memb y acc
      · rfl
      · exact absurd (memb_iff.mp hq) (hdisj y (by simp))
    rw [if_pos ⟨hf y (by simp), hm⟩]
    rw [ih (acc ++ [y]) (List.nodup_cons.mp hnd).2 (fun x hx => hf x (by simp [hx]))
      (by
        intro x hx hxm
        rcases List.mem_append.mp hxm with h | h
        · exact hdisj x (by simp [hx]) h
        · rcases List.mem_singleton.mp h with rfl
          exact (List.nodup_cons.mp hnd).1 hx)]
    simp

theorem skdFold_eq_self {f : Str → Bool} {l : List Str} (hnd : l.Nodup)
    (hf : ∀ x ∈ l, f x = true) : skdFold f l = l := by
  unfold skdFold
  rw [skd_aux_eq_self l [] hnd hf (by intro x _ hx; cases hx)]
  simp

/-! ### Inversion lemmas for the full-locator classifier -/
theorem jccjcgSplit_inv {t num suf : Str} (h : jccjcgSplit t = some (num, suf)) :
    num = t.takeWhile isDigitC ∧ 4 ≤ num.length ∧ num.length ≤ 6 ∧
      (∀ c ∈ num, isDigitC c = true) ∧ t = num ++ suf ∧
      (suf = [] ∨ ∃ c, suf = [c] ∧ isUpperC c = true) := by
  simp only [jccjcgSplit] at h
  by_cases hlen : 4 ≤ (t.takeWhile isDigitC).length ∧ (t.takeWhile isDigitC).length ≤ 6
  · rw [if_pos hlen] at h
    have hdig : ∀ c ∈ t.takeWhile isDigitC, isDigitC c = true := by
      intro c hc
      exact List.mem_takeWhile_imp hc
    cases hd : t.dropWhile isDigitC with
    | nil =>
      rw [hd] at h
      have h1 : num = t.takeWhile isDigitC ∧ suf = [] := by
        have := Option.some.inj h
        exact ⟨congrArg Prod.fst this.symm, congrArg Prod.snd this.symm⟩
      refine ⟨h1.1, by rw [h1.1]; exact hlen.1, by rw [h1.1]; exact hlen.2,
        by rw [h1.1]; exact hdig, ?_, Or.inl h1.2⟩
      rw [h1.1, h1.2, List.append_nil]
      have := List.takeWhile_append_dropWhile (p := isDigitC) (l := t)
      rw [hd, List.append_nil] at this
      exact this.symm
    | cons c cs =>
      rw [hd] at h
      cases cs with
      | nil =>
        dsimp only at h
        by_cases hu : isUpperC c = true
        · rw [if_pos hu] at h
          have h1 : num = t.takeWhile isDigitC ∧ suf = [c] := by
            have := Option.some.inj h
            exact ⟨congrArg Prod.fst this.symm, congrArg Prod.snd this.symm⟩
          refine ⟨h1.1, by rw [h1.1]; exact hlen.1, by rw [h1.1]; exact hlen.2,
            by rw [h1.1]; exact hdig, ?_, Or.inr ⟨c, h1.2, hu⟩⟩
          rw [h1.1, h1.2]
          have := List.takeWhile_append_dropWhile (p := isDigitC) (l := t)
          rw [hd] at this
          exact this.symm
        · rw [if_neg hu] at h
          cases h
      | cons d ds => dsimp only at h; cases h
  · rw [if_neg hlen] at h
    cases h

theorem is_jccjcg_elim {x : Str} (h : is_jccjcg x = true) :
    ∃ num suf, jccjcgSplit (norm_exch x) = some (num, suf) ∧
      split_num_suffix x = (num, suf) ∧
      num.all (fun c => c.toNat = 48) = false := by
  simp only [is_jccjcg] at h
  split at h
  · cases h
  · split at h
    · cases h
    · split at h
      · cases h
      · split at h
        · cases h
        · next ns heq =>
            refine ⟨ns.1, ns.2, heq, ?_, ?_⟩
            · unfold split_num_suffix
              rw [heq]
            · cases hall : ns.1.all (fun c => c.toNat = 48) with
              | false => rfl
              | true => rw [hall] at h; cases h

theorem is_pref2_false_of_jccjcg {x : Str} (h : is_jccjcg x = true) :
    is_pref2 x = false := by
  obtain ⟨num, suf, hsplit, -, -⟩ := is_jccjcg_elim h
  obtain ⟨-, h4, -, -, ht, -⟩ := jccjcgSplit_inv hsplit
  have hlen : (norm_exch x).length ≠ 2 := by
    rw [ht, List.length_append]
    omega
  simp [is_pref2, hlen]

/-! ### Positivity of the base key on valid full codes -/
theorem digitsToNat_aux :
    ∀ (ds : Str) (a : Nat), (∀ c ∈ ds, isDigitC c = true) →
      (0 < a ∨ ∃ c ∈ ds, c.toNat ≠ 48) →
      0 < ds.foldl (fun a c => a * 10 + (c.toNat - 48)) a := by
  intro ds
  induction ds with
  | nil =>
    intro a _ h
    rcases h with h | ⟨c, hc, _⟩
    · exact h
    · cases hc
  | cons c cs ih =>
    intro a hd h
    simp only [List.foldl_cons]
    rcases h with ha | ⟨d, hd2, hne⟩
    · exact ih _ (fun e he => hd e (by simp [he])) (Or.inl (by omega))
    · rcases List.mem_cons.mp hd2 with rfl | hd2
      · have hdig := hd d (by simp)
        simp only [isDigitC, Bool.and_eq_true, decide_eq_true_eq] at hdig
        exact ih _ (fun e he => hd e (by simp [he])) (Or.inl (by omega))
      · exact ih _ (fun e he => hd e (by simp [he])) (Or.inr ⟨d, hd2, hne⟩)

theorem list_len6 {l : Str} (h : l.length = 6) :
    ∃ a b c d e f, l = [a, b, c, d, e, f] := by
  rcases l with _ | ⟨a, _ | ⟨b, _ | ⟨c, _ | ⟨d, _ | ⟨e, _ | ⟨f, rest⟩⟩⟩⟩⟩⟩ <;>
    simp_all

theorem normalize_keeps_nonzero {num : Str} (hd : ∀ c ∈ num, isDigitC c = true)
    (hnz : num.all (fun c => c.toNat = 48) = false) :
    (∀ c ∈ normalize_base_digits num, isDigitC c = true) ∧
      (∃ c ∈ normalize_base_digits num, c.toNat ≠ 48) ∧
      normalize_base_digits num ≠ [] := by
  have hex : ∃ c ∈ num, ¬ c.toNat = 48 := by
    have := List.all_eq_false.mp hnz
    simpa using this
  obtain ⟨c0, hc0, hc0ne⟩ := hex
  unfold normalize_base_digits
  by_cases hc : num.length = 6 ∧ num.get? 2 = some '0'
  · rw [if_pos hc]
    obtain ⟨a, b, c2, d, e, f, rfl⟩ := list_len6 hc.1
    have hc2 : c2 = '0' := by
      have := hc.2
      simpa using this
    subst hc2
    refine ⟨?_, ?_, by simp⟩
    · intro c hcm
      simp only [List.take, List.drop] at hcm
      have : c ∈ [a, b, '0', d, e, f] := by
        simp at hcm ⊢
        tauto
      exact hd c this
    · simp only [List.take, List.drop]
      simp at hc0
      rcases hc0 with rfl | rfl | rfl | rfl | rfl | rfl
      · exact ⟨c0, by simp, hc0ne⟩
      · exact ⟨c0, by simp, hc0ne⟩
      · exact absurd (show ('0').toNat = 48 by decide) hc0ne
      · exact ⟨c0, by simp, hc0ne⟩
      · exact ⟨c0, by simp, hc0ne⟩
      · exact ⟨c0, by simp, hc0ne⟩
  · rw [if_neg hc]
    refine ⟨hd, ⟨c0, hc0, hc0ne⟩, ?_⟩
    intro hnil
    rw [hnil] at hc0
    cases hc0

theorem base_key_pos_of_jccjcg {x : Str} (h : is_jccjcg x = true) :
    0 < (base_key x).1 := by
  obtain ⟨num, suf, hsplit, hsn, hall⟩ := is_jccjcg_elim h
  obtain ⟨-, -, -, hdig, -, -⟩ := jccjcgSplit_inv hsplit
  obtain ⟨hd2, hex2, hne2⟩ := normalize_keeps_nonzero hdig hall
  unfold base_key
  rw [hsn]
  simp only
  rw [if_pos ⟨hne2, List.all_eq_true.mpr (by intro c hc; simp [hd2 c hc])⟩]
  exact digitsToNat_aux _ 0 hd2 (Or.inr hex2)

/-! ### Order lemmas for the detail-cleanup sort key -/
theorem strLtB_irrefl : ∀ a : Str, strLtB a a = false := by
  intro a
  induction a with
  | nil => rfl
  | cons c cs ih => simp [strLtB, ih]

theorem strLtB_trans :
    ∀ {a b c : Str}, strLtB a b = true → strLtB b c = true → strLtB a c = true := by
  intro a
  induction a with
  | nil =>
    intro b c hab hbc
    cases b with
    | nil => cases hab
    | cons y ys =>
      cases c with
      | nil => cases hbc
      | cons z zs => rfl
  | cons x xs ih =>
    intro b c hab hbc
    cases b with
    | nil => cases hab
    | cons y ys =>
      cases c with
      | nil => cases hbc
      | cons z zs =>
        simp only [strLtB] at hab hbc ⊢
        by_cases h1 : x.toNat < y.toNat
        · by_cases h2 : y.toNat < z.toNat
          · simp [show x.toNat < z.toNat by omega]
          · simp only [h2, if_false] at hbc
            by_cases h3 : z.toNat < y.toNat
            · rw [if_pos h3] at hbc
              cases hbc
            · have : y.toNat = z.toNat := by omega
              simp [show x.toNat < z.toNat by omega]
        · simp only [h1, if_false] at hab
          by_cases h4 : y.toNat < x.toNat
          · rw [if_pos h4] at hab
            cases hab
          · have hxy : x.toNat = y.toNat := by omega
            by_cases h2 : y.toNat < z.toNat
            · simp [show x.toNat < z.toNat by omega]
            · simp only [h2, if_false] at hbc
              by_cases h3 : z.toNat < y.toNat
              · rw [if_pos h3] at hbc
                cases hbc
              · have hyz : y.toNat = z.toNat := by omega
                rw [if_neg (by omega), if_neg (by omega)]
                rw [if_neg h4] at hab
                rw [if_neg h3] at hbc
                exact ih hab hbc

theorem strLtB_connex :
    ∀ {a b : Str}, a ≠ b → strLtB a b = true ∨ strLtB b a = true := by
  intro a
  induction a with
  | nil =>
    intro b hne
    cases b with
    | nil => exact absurd rfl hne
    | cons y ys => exact Or.inl rfl
  | cons x xs ih =>
    intro b hne
    cases b with
    | nil => exact Or.inr rfl
    | cons y ys =>
      simp only [strLtB]
      by_cases h1 : x.toNat < y.toNat
      · exact Or.inl (by simp [h1])
      · by_cases h2 : y.toNat < x.toNat
        · exact Or.inr (by simp [h2, show ¬ y.toNat < x.toNat → False from fun h => h h2])
        · have hxy : x = y := char_eq_of_toNat (by omega)
          subst hxy
          have hne' : xs ≠ ys := by
            intro hh
            exact hne (by rw [hh])
          rcases ih hne' with h | h
          · exact Or.inl (by simp [h])
          · exact Or.inr (by simp [h])

theorem keyLtB_iff {a b : Str} :
    keyLtB a b = true ↔
      (detail_score b < detail_score a ∨
        (detail_score a = detail_score b ∧
          (a.length < b.length ∨ (a.length = b.length ∧ strLtB a b = true)))) := by
  unfold keyLtB
  by_cases h1 : detail_score a ≠ detail_score b
  · rw [if_pos h1]
    simp [h1]
  · rw [if_neg h1]
    have h1' : detail_score a = detail_score b := by omega
    by_cases h2 : a.length ≠ b.length
    · rw [if_pos h2]
      simp [h1', h2]
    · rw [if_neg h2]
      have h2' : a.length = b.length := by omega
      simp [h1', h2']

theorem keyLtB_irrefl (a : Str) : keyLtB a a = false := by
  cases h : keyLtB a a with
  | false => rfl
  | true =>
    rcases keyLtB_iff.mp h with h1 | ⟨-, h2 | ⟨-, h3⟩⟩
    · omega
    · omega
    · rw [strLtB_irrefl a] at h3
      cases h3

theorem keyLtB_trans {a b c : Str} (hab : keyLtB a b = true) (hbc : keyLtB b c = true) :
    keyLtB a c = true := by
  rcases keyLtB_iff.mp hab with h1 | ⟨he1, h2 | ⟨hl1, hs1⟩⟩ <;>
    rcases keyLtB_iff.mp hbc with g1 | ⟨ge1, g2 | ⟨gl1, gs1⟩⟩ <;>
      rw [keyLtB_iff]
  · exact Or.inl (by omega)
  · exact Or.inl (by omega)
  · exact Or.inl (by omega)
  · exact Or.inl (by omega)
  · exact Or.inr ⟨by omega, Or.inl (by omega)⟩
  · exact Or.inr ⟨by omega, Or.inl (by omega)⟩
  · exact Or.inl (by omega)
  · exact Or.inr ⟨by omega, Or.inl (by omega)⟩
  · exact Or.inr ⟨by omega, Or.inr ⟨by omega, strLtB_trans hs1 gs1⟩⟩

theorem keyLtB_connex {a b : Str} (hne : a ≠ b) :
    keyLtB a b = true ∨ keyLtB b a = true := by
  by_cases h1 : detail_score a = detail_score b
  · by_cases h2 : a.length = b.length
    · rcases strLtB_connex hne with h | h
      · exact Or.inl (keyLtB_iff.mpr (Or.inr ⟨h1, Or.inr ⟨h2, h⟩⟩))
      · exact Or.inr (keyLtB_iff.mpr (Or.inr ⟨h1.symm, Or.inr ⟨h2.symm, h⟩⟩))
    · rcases Nat.lt_or_ge a.length b.length with h | h
      · exact Or.inl (keyLtB_iff.mpr (Or.inr ⟨h1, Or.inl h⟩))
      · exact Or.inr (keyLtB_iff.mpr (Or.inr ⟨h1.symm, Or.inl (by omega)⟩))
  · rcases Nat.lt_or_ge (detail_score a) (detail_score b) with h | h
    · exact Or.inr (keyLtB_iff.mpr (Or.inl h))
    · exact Or.inl (keyLtB_iff.mpr (Or.inl (by omega)))

theorem pickBest_aux_mem :
    ∀ (xs : List Str) (x : Str),
      xs.foldl (fun best y => if keyLtB y best then y else best) x ∈ x :: xs := by
  intro xs
  induction xs with
  | nil => intro x; simp
  | cons z zs ih =>
    intro x
    simp only [List.foldl_cons]
    by_cases h : keyLtB z x = true
    · rw [if_pos h]
      rcases List.mem_cons.mp (ih z) with h2 | h2
      · simp [h2]
      · simp [h2]
    · rw [if_neg h]
      rcases List.mem_cons.mp (ih x) with h2 | h2
      · simp [h2]
      · simp [h2]

theorem pickBest_mem {l : List Str} (h : l ≠ []) : pickBest l ∈ l := by
  cases l with
  | nil => exact absurd rfl h
  | cons x xs => exact pickBest_aux_mem xs x

theorem pickBest_aux_min :
    ∀ (xs : List Str) (x : Str) (y : Str), y ∈ x :: xs →
      keyLtB y (xs.foldl (fun best z => if keyLtB z best then z else best) x) = false := by
  intro xs
  induction xs with
  | nil =>
    intro x y hy
    rcases List.mem_cons.mp hy with rfl | hy
    · exact keyLtB_irrefl y
    · cases hy
  | cons z zs ih =>
    intro x y hy
    simp only [List.foldl_cons]
    by_cases hzx : keyLtB z x = true
    · rw [if_pos hzx]
      rcases List.mem_cons.mp hy with heq | hy2
      · rw [heq]
        cases hc : keyLtB x (zs.foldl (fun best w => if keyLtB w best then w else best) z) with
        | false => rfl
        | true =>
          exfalso
          have hz := ih z z (by simp)
          have := keyLtB_trans hzx hc
          rw [hz] at this
          cases this
      · exact ih z y (by simpa using hy2)
    · rw [if_neg hzx]
      rcases List.mem_cons.mp hy with heq | hy2
      · rw [heq]
        exact ih x x (by simp)
      · rcases List.mem_cons.mp hy2 with heq | hy3
        · rw [heq]
          cases hc : keyLtB z (zs.foldl (fun best w => if keyLtB w best then w else best) x) with
          | false => rfl
          | true =>
            exfalso
            by_cases hxz : x = z
            · rw [← hxz] at hc
              have hx := ih x x (by simp)
              rw [hx] at hc
              cases hc
            · rcases keyLtB_connex (fun hh => hxz hh.symm) with h | h
              · exact hzx h
              · have := keyLtB_trans h hc
                have hx := ih x x (by simp)
                rw [hx] at this
                cases this
        · exact ih x y (by simp [hy3])

theorem pickBest_min {l : List Str} {y : Str} (hy : y ∈ l) :
    keyLtB y (pickBest l) = false := by
  cases l with
  | nil => cases hy
  | cons x xs => exact pickBest_aux_min xs x y hy

/-! ### Base-group lemmas -/
theorem groupInsert_find {acc : List (Nat × List Str)} {b b' : Nat} {x : Str} :
    alistFind (groupInsert acc b x) b' =
      if b' = b then some ((alistFind acc b).getD [] ++ [x]) else alistFind acc b' := by
  unfold groupInsert
  by_cases hb : b' = b
  · subst hb
    cases hf : alistFind acc b' with
    | none => simp [alistFind_set_self, hf]
    | some l => simp [alistFind_set_self, hf]
  · cases hf : alistFind acc b with
    | none => simp [hb, alistFind_set_ne _ _ _ _ hb]
    | some l => simp [hb, alistFind_set_ne _ _ _ _ hb]

theorem groupBases_aux :
    ∀ (F : List Str) (acc : List (Nat × List Str)) (b : Nat),
      alistFind (F.foldl (fun acc x => groupInsert acc (base_key x).1 x) acc) b =
        match alistFind acc b, F.filter (fun x => (base_key x).1 = b) with
        | none, [] => none
        | none, g => some g
        | some l, g => some (l ++ g) := by
  intro F
  induction F with
  | nil =>
    intro acc b
    simp only [List.foldl_nil, List.filter_nil]
    cases alistFind acc b with
    | none => rfl
    | some l => simp
  | cons x F' ih =>
    intro acc b
    simp only [List.foldl_cons, List.filter_cons]
    rw [ih]
    by_cases hb : (base_key x).1 = b
    · rw [groupInsert_find, if_pos hb.symm, hb]
      cases hf : alistFind acc b with
      | none =>
        cases hg : F'.filter (fun y => (base_key y).1 = b) with
        | nil => simp
        | cons g gs => simp
      | some l =>
        cases hg : F'.filter (fun y => (base_key y).1 = b) with
        | nil => simp
        | cons g gs => simp
    · rw [groupInsert_find, if_neg (fun hh => hb hh.symm),
        if_neg (by simpa using hb)]

theorem groupBases_find {F : List Str} {b : Nat} :
    alistFind (groupBases F) b =
      if F.filter (fun x => (base_key x).1 = b) = [] then none
      else some (F.filter (fun x => (base_key x).1 = b)) := by
  unfold groupBases
  rw [groupBases_aux F [] b]
  cases hg : F.filter (fun x => (base_key x).1 = b) with
  | nil => rfl
  | cons g gs => simp [alistFind]

theorem alistKeys_set {κ α : Type} [DecidableEq κ] (m : List (κ × α)) (k : κ) (v : α) :
    alistKeys (alistSet m k v) =
      if k ∈ alistKeys m then alistKeys m else alistKeys m ++ [k] := by
  induction m with
  | nil => simp [alistSet, alistKeys]
  | cons kv rest ih =>
    by_cases hk : kv.1 = k
    · subst hk
      simp [alistSet, alistKeys]
    · have hk' : ¬ (k = kv.1) := fun hh => hk hh.symm
      simp only [alistSet, hk, if_false, alistKeys, List.map_cons]
      rw [show alistKeys (alistSet rest k v) = List.map Prod.fst (alistSet rest k v) from rfl] at ih
      rw [ih]
      by_cases hm : k ∈ List.map Prod.fst rest
      · simp [alistKeys, hm, hk']
      · simp [alistKeys, hm, hk']

theorem alistKeys_set_nodup {κ α : Type} [DecidableEq κ] {m : List (κ × α)} {k : κ}
    {v : α} (h : (alistKeys m).Nodup) : (alistKeys (alistSet m k v)).Nodup := by
  rw [alistKeys_set]
  by_cases hm : k ∈ alistKeys m
  · simpa [hm] using h
  · simp only [hm, if_false]
    rw [List.nodup_append]
    refine ⟨h, List.nodup_singleton k, ?_⟩
    intro a ha hb
    rcases List.mem_singleton.mp hb with rfl
    exact hm ha

theorem groupBases_nodup (F : List Str) : (alistKeys (groupBases F)).Nodup := by
  unfold groupBases
  have : ∀ (l : List Str) (acc : List (Nat × List Str)), (alistKeys acc).Nodup →
      (alistKeys (l.foldl (fun acc x => groupInsert acc (base_key x).1 x) acc)).Nodup := by
    intro l
    induction l with
    | nil => intro acc h; exact h
    | cons x xs ih =>
      intro acc h
      simp only [List.foldl_cons]
      refine ih _ ?_
      unfold groupInsert
      cases alistFind acc (base_key x).1 <;> exact alistKeys_set_nodup h
  exact this F [] List.nodup_nil

theorem alistFind_of_mem_nodup {κ α : Type} [DecidableEq κ] {m : List (κ × α)}
    {kv : κ × α} (hnd : (alistKeys m).Nodup) (h : kv ∈ m) :
    alistFind m kv.1 = some kv.2 := by
  induction m with
  | nil => cases h
  | cons hd rest ih =>
    rcases List.mem_cons.mp h with rfl | h2
    · simp [alistFind]
    · have hne : hd.1 ≠ kv.1 := by
        intro hh
        have : kv.1 ∈ alistKeys rest := List.mem_map.mpr ⟨kv, h2, rfl⟩
        rw [← hh] at this
        exact (List.nodup_cons.mp hnd).1 this
      simp only [alistFind, hne, if_false]
      exact ih (List.nodup_cons.mp hnd).2 h2

theorem groupBases_mem_iff {F : List Str} {b : Nat} {items : List Str} :
    (b, items) ∈ groupBases F ↔
      (items = F.filter (fun x => (base_key x).1 = b) ∧ items ≠ []) := by
  constructor
  · intro h
    have hf := alistFind_of_mem_nodup (groupBases_nodup F) h
    dsimp only at hf
    rw [groupBases_find] at hf
    by_cases hg : F.filter (fun x => (base_key x).1 = b) = []
    · rw [if_pos hg] at hf
      cases hf
    · rw [if_neg hg] at hf
      have heq := Option.some.inj hf
      refine ⟨heq.symm, ?_⟩
      rw [← heq]
      exact hg
  · rintro ⟨rfl, hne⟩
    have hf : alistFind (groupBases F) b =
        some (F.filter (fun x => (base_key x).1 = b)) := by
      rw [groupBases_find, if_neg hne]
    exact alistFind_mem hf

theorem foldl_append_mem {β : Type} (g : β → List Str) :
    ∀ (l : List β) (acc : List Str) (x : Str),
      (x ∈ l.foldl (fun acc it => acc ++ g it) acc ↔ x ∈ acc ∨ ∃ it ∈ l, x ∈ g it) := by
  intro l
  induction l with
  | nil => intro acc x; simp
  | cons it its ih =>
    intro acc x
    simp only [List.foldl_cons]
    rw [ih]
    constructor
    · rintro (h | ⟨jt, hjt, hx⟩)
      · rcases List.mem_append.mp h with h | h
        · exact Or.inl h
        · exact Or.inr ⟨it, by simp, h⟩
      · exact Or.inr ⟨jt, by simp [hjt], hx⟩
    · rintro (h | ⟨jt, hjt, hx⟩)
      · exact Or.inl (by simp [h])
      · rcases List.mem_cons.mp hjt with rfl | hjt
        · exact Or.inl (by simp [hx])
        · exact Or.inr ⟨jt, hjt, hx⟩

/-! ### Per-group membership characterizations -/
theorem any_iff_filter_ne {p : Str → Bool} {l : List Str} :
    l.any p = true ↔ l.filter p ≠ [] := by
  constructor
  · intro h hnil
    rcases List.any_eq_true.mp h with ⟨x, hx, hp⟩
    have := List.filter_eq_nil_iff.mp hnil x hx
    exact this hp
  · intro h
    cases hq : l.filter p with
    | nil => exact absurd hq h
    | cons y ys =>
      have hy : y ∈ l.filter p := by rw [hq]; simp
      exact List.any_eq_true.mpr ⟨y, List.mem_of_mem_filter hy, List.of_mem_filter hy⟩

theorem filter_not_of_none {p : Str → Bool} {l : List Str} (h : l.filter p = []) :
    l.filter (fun x => !p x) = l := by
  rw [List.filter_eq_self]
  intro a ha
  have := List.filter_eq_nil_iff.mp h a ha
  simpa using this

theorem keptOfGroup_pos {items : List Str} (hw : items.filter suffixedB ≠ []) :
    keptOfGroup items =
      (stable_unique (items.filter suffixedB), items.filter (fun x => !suffixedB x)) := by
  simp only [keptOfGroup]
  rw [if_pos hw]

theorem keptOfGroup_neg_small {items : List Str} (hw : ¬ items.filter suffixedB ≠ [])
    (hlen : (items.filter (fun x => !suffixedB x)).length ≤ 1) :
    keptOfGroup items = (items.filter (fun x => !suffixedB x), []) := by
  simp only [keptOfGroup]
  rw [if_neg hw, if_pos hlen]

theorem keptOfGroup_neg_big {items : List Str} (hw : ¬ items.filter suffixedB ≠ [])
    (hlen : ¬ (items.filter (fun x => !suffixedB x)).length ≤ 1) :
    keptOfGroup items =
      ([pickBest (items.filter (fun x => !suffixedB x))],
       (items.filter (fun x => !suffixedB x)).filter
         (fun x => x ≠ pickBest (items.filter (fun x => !suffixedB x)))) := by
  simp only [keptOfGroup]
  rw [if_neg hw, if_neg hlen]

theorem keptOfGroup_kept_mem {items : List Str} {x : Str} :
    x ∈ (keptOfGroup items).1 ↔
      (x ∈ items ∧ (if items.any suffixedB = true then suffixedB x = true
        else x = pickBest items)) := by
  by_cases hw : items.filter suffixedB ≠ []
  · rw [keptOfGroup_pos hw]
    have hany : items.any suffixedB = true := any_iff_filter_ne.mpr hw
    rw [if_pos hany]
    dsimp only
    constructor
    · intro hx
      have h2 := mem_stable_unique.mp hx
      exact ⟨List.mem_of_mem_filter h2, List.of_mem_filter h2⟩
    · rintro ⟨h1, h2⟩
      exact mem_stable_unique.mpr (List.mem_filter.mpr ⟨h1, h2⟩)
  · have hfil : items.filter suffixedB = [] := of_not_not hw
    have hany : items.any suffixedB = false := by
      cases hq : items.any suffixedB with
      | false => rfl
      | true => exact absurd hfil (any_iff_filter_ne.mp hq)
    have hno := filter_not_of_none hfil
    rw [hany]
    simp only [Bool.false_eq_true, if_false]
    by_cases hlen : (items.filter (fun x => !suffixedB x)).length ≤ 1
    · rw [keptOfGroup_neg_small hw hlen]
      dsimp only
      rw [hno] at hlen ⊢
      cases items with
      | nil => simp
      | cons y ys =>
        cases ys with
        | nil => simp [pickBest]
        | cons z zs => simp at hlen
    · rw [keptOfGroup_neg_big hw hlen]
      dsimp only
      rw [hno] at hlen ⊢
      have hne : items ≠ [] := by
        intro hh
        rw [hh] at hlen
        simp at hlen
      constructor
      · intro hx
        rcases List.mem_singleton.mp hx with rfl
        exact ⟨pickBest_mem hne, rfl⟩
      · rintro ⟨-, rfl⟩
        simp

theorem keptOfGroup_removed_mem {items : List Str} {x : Str} :
    x ∈ (keptOfGroup items).2 ↔
      (x ∈ items ∧ (if items.any suffixedB = true then suffixedB x = false
        else 2 ≤ items.length ∧ x ≠ pickBest items)) := by
  by_cases hw : items.filter suffixedB ≠ []
  · rw [keptOfGroup_pos hw]
    have hany : items.any suffixedB = true := any_iff_filter_ne.mpr hw
    rw [if_pos hany]
    dsimp only
    constructor
    · intro hx
      refine ⟨List.mem_of_mem_filter hx, ?_⟩
      have := List.of_mem_filter hx
      simpa using this
    · rintro ⟨h1, h2⟩
      exact List.mem_filter.mpr ⟨h1, by simp [h2]⟩
  · have hfil : items.filter suffixedB = [] := of_not_not hw
    have hany : items.any suffixedB = false := by
      cases hq : items.any suffixedB with
      | false => rfl
      | true => exact absurd hfil (any_iff_filter_ne.mp hq)
    have hno := filter_not_of_none hfil
    rw [hany]
    simp only [Bool.false_eq_true, if_false]
    by_cases hlen : (items.filter (fun x => !suffixedB x)).length ≤ 1
    · rw [keptOfGroup_neg_small hw hlen]
      dsimp only
      rw [hno] at hlen
      simp only [List.not_mem_nil, false_iff]
      rintro ⟨-, h2, -⟩
      omega
    · rw [keptOfGroup_neg_big hw hlen]
      dsimp only
      rw [hno] at hlen ⊢
      constructor
      · intro hx
        have h1 := List.mem_of_mem_filter hx
        have h2 := List.of_mem_filter hx
        refine ⟨h1, by omega, by simpa using h2⟩
      · rintro ⟨h1, -, h3⟩
        exact List.mem_filter.mpr ⟨h1, by simpa using h3⟩

theorem kept_fulls_mem {F : List Str} {x : Str} :
    x ∈ kept_fulls_of F ↔ x ∈ F ∧ keepFullB F x = true := by
  unfold kept_fulls_of
  rw [foldl_append_mem (fun g => (keptOfGroup g.2).1) (groupBases F) [] x]
  simp only [List.not_mem_nil, false_or]
  constructor
  · rintro ⟨⟨b, items⟩, hmem, hx⟩
    obtain ⟨hitems, -⟩ := groupBases_mem_iff.mp hmem
    obtain ⟨hxi, hcond⟩ := keptOfGroup_kept_mem.mp hx
    have hxF : x ∈ F := by
      rw [hitems] at hxi
      exact List.mem_of_mem_filter hxi
    have hbx : (base_key x).1 = b := by
      rw [hitems] at hxi
      have := List.of_mem_filter hxi
      simpa using this
    refine ⟨hxF, ?_⟩
    unfold keepFullB
    rw [hbx, ← hitems]
    exact (by
      by_cases hany : items.any suffixedB = true
      · rw [if_pos hany]
        rw [if_pos hany] at hcond
        exact hcond
      · rw [if_neg hany]
        rw [if_neg hany] at hcond
        simp [hcond])
  · rintro ⟨hxF, hkeep⟩
    set g := F.filter (fun y => (base_key y).1 = (base_key x).1) with hg
    have hxg : x ∈ g := List.mem_filter.mpr ⟨hxF, by simp⟩
    have hgne : g ≠ [] := by
      intro hh
      rw [hh] at hxg
      cases hxg
    refine ⟨((base_key x).1, g), groupBases_mem_iff.mpr ⟨rfl, hgne⟩, ?_⟩
    rw [keptOfGroup_kept_mem]
    unfold keepFullB at hkeep
    rw [← hg] at hkeep
    refine ⟨hxg, ?_⟩
    by_cases hany : g.any suffixedB = true
    · rw [if_pos hany]
      rw [if_pos hany] at hkeep
      exact hkeep
    · rw [if_neg hany]
      rw [if_neg hany] at hkeep
      simpa using hkeep

theorem removed_ld_mem {F : List Str} {x : Str} :
    x ∈ removed_ld_of F ↔ x ∈ F ∧ removedFullB F x = true := by
  unfold removed_ld_of
  rw [foldl_append_mem (fun g => (keptOfGroup g.2).2) (groupBases F) [] x]
  simp only [List.not_mem_nil, false_or]
  constructor
  · rintro ⟨⟨b, items⟩, hmem, hx⟩
    obtain ⟨hitems, -⟩ := groupBases_mem_iff.mp hmem
    obtain ⟨hxi, hcond⟩ := keptOfGroup_removed_mem.mp hx
    have hxF : x ∈ F := by
      rw [hitems] at hxi
      exact List.mem_of_mem_filter hxi
    have hbx : (base_key x).1 = b := by
      rw [hitems] at hxi
      have := List.of_mem_filter hxi
      simpa using this
    refine ⟨hxF, ?_⟩
    unfold removedFullB
    rw [hbx, ← hitems]
    by_cases hany : items.any suffixedB = true
    · rw [if_pos hany]
      rw [if_pos hany] at hcond
      simp [hcond]
    · rw [if_neg hany]
      rw [if_neg hany] at hcond
      simp [hcond.1, hcond.2]
  · rintro ⟨hxF, hrem⟩
    set g := F.filter (fun y => (base_key y).1 = (base_key x).1) with hg
    have hxg : x ∈ g := List.mem_filter.mpr ⟨hxF, by simp⟩
    have hgne : g ≠ [] := by
      intro hh
      rw [hh] at hxg
      cases hxg
    refine ⟨((base_key x).1, g), groupBases_mem_iff.mpr ⟨rfl, hgne⟩, ?_⟩
    rw [keptOfGroup_removed_mem]
    unfold removedFullB at hrem
    rw [← hg] at hrem
    refine ⟨hxg, ?_⟩
    by_cases hany : g.any suffixedB = true
    · rw [if_pos hany]
      rw [if_pos hany] at hrem
      simpa using hrem
    · rw [if_neg hany]
      rw [if_neg hany] at hrem
      simp only [Bool.and_eq_true, decide_eq_true_eq] at hrem
      exact ⟨hrem.1, hrem.2⟩

/-! ### Record-level characterization of detail cleanup -/
theorem keepSet_eq_spec {exchs : List Str} {x : Str} (hx : x ∈ exchs) :
    keepSetB (pref2sKeptOf exchs) (kept_fulls_of (exchs.filter is_jccjcg))
        (othersOf exchs) x = keepSpecB exchs x := by
  unfold keepSetB keepSpecB
  by_cases hp : is_pref2 x = true
  · rw [if_pos hp]
    have hj : is_jccjcg x = false := by
      cases hq : is_jccjcg x with
      | false => rfl
      | true =>
        rw [is_pref2_false_of_jccjcg hq] at hp
        cases hp
    have hk : memb x (kept_fulls_of (exchs.filter is_jccjcg)) = false := by
      cases hq : memb x (kept_fulls_of (exchs.filter is_jccjcg)) with
      | false => rfl
      | true =>
        exfalso
        have := (kept_fulls_mem.mp (memb_iff.mp hq)).1
        rw [List.of_mem_filter this] at hj
        cases hj
    have ho : memb x (othersOf exchs) = false := by
      cases hq : memb x (othersOf exchs) with
      | false => rfl
      | true =>
        exfalso
        have := List.of_mem_filter (memb_iff.mp hq)
        rw [hp, hj] at this
        simp at this
    rw [hk, ho]
    simp only [Bool.or_false]
    unfold pref2sKeptOf
    by_cases hF : exchs.filter is_jccjcg ≠ []
    · have hP : exchs.filter is_pref2 ≠ [] := by
        intro hh
        have hxp : x ∈ exchs.filter is_pref2 := List.mem_filter.mpr ⟨hx, hp⟩
        rw [hh] at hxp
        cases hxp
      rw [if_pos ⟨hF, hP⟩]
      have h1 : memb x ([] : List Str) = false := rfl
      have h2 : decide (exchs.filter is_jccjcg = []) = false := by
        simpa using hF
      rw [h1, h2]
    · rw [if_neg (fun hh => hF hh.1)]
      have h1 : memb x (exchs.filter is_pref2) = true :=
        memb_iff.mpr (List.mem_filter.mpr ⟨hx, hp⟩)
      have h2 : decide (exchs.filter is_jccjcg = []) = true := by
        simpa using of_not_not hF
      rw [h1, h2]
  · rw [if_neg hp]
    have hpf : is_pref2 x = false := by
      cases hq : is_pref2 x with
      | false => rfl
      | true => exact absurd hq hp
    by_cases hj : is_jccjcg x = true
    · rw [if_pos hj]
      have hp2 : memb x (pref2sKeptOf exchs) = false := by
        cases hq : memb x (pref2sKeptOf exchs) with
        | false => rfl
        | true =>
          exfalso
          have hmem := memb_iff.mp hq
          unfold pref2sKeptOf at hmem
          by_cases hc : exchs.filter is_jccjcg ≠ [] ∧ exchs.filter is_pref2 ≠ []
          · rw [if_pos hc] at hmem
            cases hmem
          · rw [if_neg hc] at hmem
            rw [List.of_mem_filter hmem] at hpf
            cases hpf
      have ho : memb x (othersOf exchs) = false := by
        cases hq : memb x (othersOf exchs) with
        | false => rfl
        | true =>
          exfalso
          have := List.of_mem_filter (memb_iff.mp hq)
          rw [hj] at this
          simp at this
      rw [hp2, ho]
      simp only [Bool.false_or, Bool.or_false]
      cases hq : memb x (kept_fulls_of (exchs.filter is_jccjcg)) with
      | true =>
        have := (kept_fulls_mem.mp (memb_iff.mp hq)).2
        rw [this]
      | false =>
        cases hr : keepFullB (exchs.filter is_jccjcg) x with
        | false => rfl
        | true =>
          exfalso
          have hxF : x ∈ exchs.filter is_jccjcg := List.mem_filter.mpr ⟨hx, hj⟩
          have := memb_iff.mpr (kept_fulls_mem.mpr ⟨hxF, hr⟩)
          rw [hq] at this
          cases this
    · rw [if_neg hj]
      have hjf : is_jccjcg x = false := by
        cases hq : is_jccjcg x with
        | false => rfl
        | true => exact absurd hq hj
      have ho : memb x (othersOf exchs) = true :=
        memb_iff.mpr (List.mem_filter.mpr ⟨hx, by simp [hjf, hpf]⟩)
      rw [ho]
      simp

theorem dcc_new_list_mem {exchs : List Str} {x : Str} :
    x ∈ (detail_cleanup_call exchs).1 ↔ (x ∈ exchs ∧ keepSpecB exchs x = true) := by
  show x ∈ skdFold _ exchs ↔ _
  rw [skdFold_mem]
  constructor
  · rintro ⟨h1, h2⟩
    rw [keepSet_eq_spec h1] at h2
    exact ⟨h1, h2⟩
  · rintro ⟨h1, h2⟩
    rw [← keepSet_eq_spec h1] at h2
    exact ⟨h1, h2⟩

theorem dcc_nodup (exchs : List Str) : (detail_cleanup_call exchs).1.Nodup :=
  skdFold_nodup _ _

theorem dcc_sublist (exchs : List Str) : (detail_cleanup_call exchs).1.Sublist exchs :=
  skdFold_sublist _ _

theorem dcc_rp (exchs : List Str) :
    (detail_cleanup_call exchs).2.1 =
      if exchs.filter is_jccjcg ≠ [] then exchs.filter is_pref2 else [] := by
  show (if exchs.filter is_jccjcg ≠ [] ∧ exchs.filter is_pref2 ≠ [] then
      exchs.filter is_pref2 else []) = _
  by_cases hF : exchs.filter is_jccjcg ≠ []
  · rw [if_pos hF]
    by_cases hP : exchs.filter is_pref2 ≠ []
    · rw [if_pos ⟨hF, hP⟩]
    · rw [if_neg (fun hh => hP hh.2), of_not_not hP]
  · rw [if_neg hF, if_neg (fun hh => hF hh.1)]

theorem dcc_rl_mem {exchs : List Str} {x : Str} :
    x ∈ (detail_cleanup_call exchs).2.2 ↔
      (x ∈ exchs.filter is_jccjcg ∧
        removedFullB (exchs.filter is_jccjcg) x = true) :=
  removed_ld_mem

/-! ### Map-level structure of detail cleanup -/
theorem alistSet_append_of_not_mem {κ α : Type} [DecidableEq κ] {m : List (κ × α)}
    {k : κ} (v : α) (h : k ∉ alistKeys m) : alistSet m k v = m ++ [(k, v)] := by
  induction m with
  | nil => rfl
  | cons kv rest ih =>
    have hne : kv.1 ≠ k := by
      intro hh
      exact h (by simp [alistKeys, hh])
    simp only [alistSet, hne, if_false, List.cons_append]
    rw [ih (fun hh => h (by simp [alistKeys] at hh ⊢; exact Or.inr hh))]

theorem mem_alistSet {κ α : Type} [DecidableEq κ] {m : List (κ × α)} {k : κ} {v : α}
    {kv : κ × α} (h : kv ∈ alistSet m k v) : kv ∈ m ∨ kv = (k, v) := by
  induction m with
  | nil => simpa [alistSet] using h
  | cons hd rest ih =>
    by_cases hk : hd.1 = k
    · simp only [alistSet, hk, if_true] at h
      rcases List.mem_cons.mp h with rfl | h2
      · exact Or.inr rfl
      · exact Or.inl (List.mem_cons_of_mem _ h2)
    · simp only [alistSet, hk, if_false] at h
      rcases List.mem_cons.mp h with rfl | h2
      · exact Or.inl (by simp)
      · rcases ih h2 with h3 | h3
        · exact Or.inl (List.mem_cons_of_mem _ h3)
        · exact Or.inr h3

theorem dcm_aux :
    ∀ (m : ExchMap) (acc : ExchMap × List (Str × (List Str × List Str))),
      (∀ kv ∈ m, kv.1 ∉ alistKeys acc.1 ∧ kv.1 ∉ alistKeys acc.2) →
      (alistKeys m).Nodup →
      m.foldl dcm_step acc =
        (acc.1 ++ m.map (fun kv => (kv.1, (detail_cleanup_call kv.2).1)),
         acc.2 ++ (m.filter (fun kv =>
             decide ((detail_cleanup_call kv.2).2.1 ≠ [] ∨
               (detail_cleanup_call kv.2).2.2 ≠ []))).map
           (fun kv => (kv.1, (detail_cleanup_call kv.2).2))) := by
  intro m
  induction m with
  | nil => intro acc _ _; simp
  | cons kv rest ih =>
    intro acc hdisj hnd
    have hd1 := (hdisj kv (by simp)).1
    have hd2 := (hdisj kv (by simp)).2
    have hnd0 : (kv.1 :: alistKeys rest).Nodup := hnd
    have hknotr : kv.1 ∉ alistKeys rest := (List.nodup_cons.mp hnd0).1
    simp only [List.foldl_cons]
    have hstep : dcm_step acc kv =
        (acc.1 ++ [(kv.1, (detail_cleanup_call kv.2).1)],
         if (detail_cleanup_call kv.2).2.1 ≠ [] ∨ (detail_cleanup_call kv.2).2.2 ≠ [] then
           acc.2 ++ [(kv.1, (detail_cleanup_call kv.2).2)]
         else acc.2) := by
      unfold dcm_step
      rw [alistSet_append_of_not_mem _ hd1]
      by_cases hc : (detail_cleanup_call kv.2).2.1 ≠ [] ∨ (detail_cleanup_call kv.2).2.2 ≠ []
      · rw [if_pos hc, if_pos hc, alistSet_append_of_not_mem _ hd2]
      · rw [if_neg hc, if_neg hc]
    rw [hstep]
    by_cases hc : (detail_cleanup_call kv.2).2.1 ≠ [] ∨ (detail_cleanup_call kv.2).2.2 ≠ []
    · rw [if_pos hc]
      rw [ih _ (by
        intro jv hjv
        constructor
        · rw [show alistKeys (acc.1 ++ [(kv.1, (detail_cleanup_call kv.2).1)]) =
              alistKeys acc.1 ++ [kv.1] by simp [alistKeys]]
          intro hmem
          rcases List.mem_append.mp hmem with h | h
          · exact (hdisj jv (by simp [hjv])).1 h
          · rcases List.mem_singleton.mp h with heq
            exact hknotr (by rw [← heq]; exact List.mem_map.mpr ⟨jv, hjv, rfl⟩)
        · rw [show alistKeys (acc.2 ++ [(kv.1, (detail_cleanup_call kv.2).2)]) =
              alistKeys acc.2 ++ [kv.1] by simp [alistKeys]]
          intro hmem
          rcases List.mem_append.mp hmem with h | h
          · exact (hdisj jv (by simp [hjv])).2 h
          · rcases List.mem_singleton.mp h with heq
            exact hknotr (by rw [← heq]; exact List.mem_map.mpr ⟨jv, hjv, rfl⟩)) (List.nodup_cons.mp hnd0).2]
      simp only [List.map_cons, List.filter_cons]
      rw [if_pos (by simpa using hc)]
      simp
    · rw [if_neg hc]
      rw [ih _ (by
        intro jv hjv
        constructor
        · rw [show alistKeys (acc.1 ++ [(kv.1, (detail_cleanup_call kv.2).1)]) =
              alistKeys acc.1 ++ [kv.1] by simp [alistKeys]]
          intro hmem
          rcases List.mem_append.mp hmem with h | h
          · exact (hdisj jv (by simp [hjv])).1 h
          · rcases List.mem_singleton.mp h with heq
            exact hknotr (by rw [← heq]; exact List.mem_map.mpr ⟨jv, hjv, rfl⟩)
        · exact (hdisj jv (by simp [hjv])).2) (List.nodup_cons.mp hnd0).2]
      simp only [List.map_cons, List.filter_cons]
      rw [if_neg (by simpa using hc)]
      simp

theorem dcm_of_nodup {m : ExchMap} (hnd : (alistKeys m).Nodup) :
    detail_cleanup_map m =
      (m.map (fun kv => (kv.1, (detail_cleanup_call kv.2).1)),
       (m.filter (fun kv =>
           decide ((detail_cleanup_call kv.2).2.1 ≠ [] ∨
             (detail_cleanup_call kv.2).2.2 ≠ []))).map
         (fun kv => (kv.1, (detail_cleanup_call kv.2).2))) := by
  unfold detail_cleanup_map
  rw [dcm_aux m ([], []) (by intro kv _; exact ⟨by simp [alistKeys], by simp [alistKeys]⟩) hnd]
  simp

theorem dcm_fst_keys_nodup (m : ExchMap) :
    (alistKeys (detail_cleanup_map m).1).Nodup := by
  unfold detail_cleanup_map
  have : ∀ (l : ExchMap) (acc : ExchMap × List (Str × (List Str × List Str))),
      (alistKeys acc.1).Nodup → (alistKeys (l.foldl dcm_step acc).1).Nodup := by
    intro l
    induction l with
    | nil => intro acc h; exact h
    | cons kv rest ih =>
      intro acc h
      simp only [List.foldl_cons]
      refine ih _ ?_
      unfold dcm_step
      exact alistKeys_set_nodup h
  exact this m ([], []) (by simp [alistKeys])

theorem dcm_fst_values (m : ExchMap) :
    ∀ kv ∈ (detail_cleanup_map m).1, ∃ w, kv.2 = (detail_cleanup_call w).1 := by
  unfold detail_cleanup_map
  have : ∀ (l : ExchMap) (acc : ExchMap × List (Str × (List Str × List Str))),
      (∀ kv ∈ acc.1, ∃ w, kv.2 = (detail_cleanup_call w).1) →
      ∀ kv ∈ (l.foldl dcm_step acc).1, ∃ w, kv.2 = (detail_cleanup_call w).1 := by
    intro l
    induction l with
    | nil => intro acc h; exact h
    | cons jv rest ih =>
      intro acc h
      simp only [List.foldl_cons]
      refine ih _ ?_
      intro kv hkv
      unfold dcm_step at hkv
      rcases mem_alistSet hkv with h2 | h2
      · exact h kv h2
      · rw [h2]
        exact ⟨jv.2, rfl⟩
  intro kv hkv
  exact this m ([], []) (by intro jv hjv; cases hjv) kv hkv

/-! ### Idempotence of detail cleanup (C9) -/
theorem nodup_all_eq {l : List Str} {x : Str} (hnd : l.Nodup) (hx : x ∈ l)
    (hall : ∀ y ∈ l, y = x) : l = [x] := by
  cases l with
  | nil => cases hx
  | cons y ys =>
    have hy : y = x := hall y (by simp)
    subst hy
    cases ys with
    | nil => rfl
    | cons z zs =>
      exfalso
      have hz : z = y := hall z (by simp)
      have hnm := (List.nodup_cons.mp hnd).1
      exact hnm (by rw [← hz]; simp)

theorem keepSpec_idem {exchs : List Str} :
    ∀ x ∈ (detail_cleanup_call exchs).1,
      keepSpecB (detail_cleanup_call exchs).1 x = true := by
  intro x hx
  obtain ⟨hxe, hks⟩ := dcc_new_list_mem.mp hx
  by_cases hp : is_pref2 x = true
  · unfold keepSpecB
    rw [if_pos hp]
    unfold keepSpecB at hks
    rw [if_pos hp] at hks
    have hF1 : exchs.filter is_jccjcg = [] := by simpa using hks
    have hF2 : (detail_cleanup_call exchs).1.filter is_jccjcg = [] := by
      rw [List.filter_eq_nil_iff]
      intro y hy hj
      have hye := (dcc_new_list_mem.mp hy).1
      have hmem : y ∈ exchs.filter is_jccjcg := List.mem_filter.mpr ⟨hye, hj⟩
      rw [hF1] at hmem
      cases hmem
    simpa using hF2
  · by_cases hj : is_jccjcg x = true
    · unfold keepSpecB
      rw [if_neg hp, if_pos hj]
      unfold keepSpecB at hks
      rw [if_neg hp, if_pos hj] at hks
      have hxF1 : x ∈ exchs.filter is_jccjcg := List.mem_filter.mpr ⟨hxe, hj⟩
      have hF2mem : ∀ y, y ∈ (detail_cleanup_call exchs).1.filter is_jccjcg ↔
          (y ∈ exchs.filter is_jccjcg ∧
            keepFullB (exchs.filter is_jccjcg) y = true) := by
        intro y
        constructor
        · intro hy
          have h1 := List.mem_of_mem_filter hy
          have h2 := List.of_mem_filter hy
          obtain ⟨hye, hk⟩ := dcc_new_list_mem.mp h1
          unfold keepSpecB at hk
          rw [if_neg (by simp [is_pref2_false_of_jccjcg h2]), if_pos h2] at hk
          exact ⟨List.mem_filter.mpr ⟨hye, h2⟩, hk⟩
        · rintro ⟨hy1, hk⟩
          have hye := List.mem_of_mem_filter hy1
          have hyj := List.of_mem_filter hy1
          refine List.mem_filter.mpr ⟨?_, hyj⟩
          refine dcc_new_list_mem.mpr ⟨hye, ?_⟩
          unfold keepSpecB
          rw [if_neg (by simp [is_pref2_false_of_jccjcg hyj]), if_pos hyj]
          exact hk
      have hsame : ∀ y : Str, (base_key y).1 = (base_key x).1 →
          (exchs.filter is_jccjcg).filter
              (fun z => (base_key z).1 = (base_key y).1) =
            (exchs.filter is_jccjcg).filter
              (fun z => (base_key z).1 = (base_key x).1) := by
        intro y hy
        have : (fun z => decide ((base_key z).1 = (base_key y).1)) =
            (fun z => decide ((base_key z).1 = (base_key x).1)) := by
          funext z
          rw [hy]
        rw [this]
      have hg2mem : ∀ y, y ∈ ((detail_cleanup_call exchs).1.filter is_jccjcg).filter
            (fun z => (base_key z).1 = (base_key x).1) ↔
          (y ∈ (exchs.filter is_jccjcg).filter
              (fun z => (base_key z).1 = (base_key x).1) ∧
            keepFullB (exchs.filter is_jccjcg) y = true) := by
        intro y
        constructor
        · intro hy
          have h1 := List.mem_of_mem_filter hy
          have h2 := List.of_mem_filter hy
          obtain ⟨h3, h4⟩ := (hF2mem y).mp h1
          exact ⟨List.mem_filter.mpr ⟨h3, h2⟩, h4⟩
        · rintro ⟨hy1, hk⟩
          have h3 := List.mem_of_mem_filter hy1
          have h2 := List.of_mem_filter hy1
          exact List.mem_filter.mpr ⟨(hF2mem y).mpr ⟨h3, hk⟩, h2⟩
      have hxg1 : x ∈ (exchs.filter is_jccjcg).filter
          (fun z => (base_key z).1 = (base_key x).1) :=
        List.mem_filter.mpr ⟨hxF1, by simp⟩
      by_cases hany : ((exchs.filter is_jccjcg).filter
          (fun z => (base_key z).1 = (base_key x).1)).any suffixedB = true
      · have hsx : suffixedB x = true := by
          unfold keepFullB at hks
          rw [if_pos hany] at hks
          exact hks
        have hxg2 : x ∈ ((detail_cleanup_call exchs).1.filter is_jccjcg).filter
            (fun z => (base_key z).1 = (base_key x).1) :=
          (hg2mem x).mpr ⟨hxg1, hks⟩
        have hany2 : (((detail_cleanup_call exchs).1.filter is_jccjcg).filter
            (fun z => (base_key z).1 = (base_key x).1)).any suffixedB = true :=
          List.any_eq_true.mpr ⟨x, hxg2, hsx⟩
        unfold keepFullB
        rw [if_pos hany2]
        exact hsx
      · have hbx : x = pickBest ((exchs.filter is_jccjcg).filter
            (fun z => (base_key z).1 = (base_key x).1)) := by
          unfold keepFullB at hks
          rw [if_neg hany] at hks
          simpa using hks
        have hall : ∀ y ∈ ((detail_cleanup_call exchs).1.filter is_jccjcg).filter
            (fun z => (base_key z).1 = (base_key x).1), y = x := by
          intro y hy
          obtain ⟨hyg1, hk⟩ := (hg2mem y).mp hy
          have hbase : (base_key y).1 = (base_key x).1 := by
            have := List.of_mem_filter hyg1
            simpa using this
          unfold keepFullB at hk
          rw [hsame y hbase, if_neg hany] at hk
          have hy2 : y = pickBest ((exchs.filter is_jccjcg).filter
              (fun z => (base_key z).1 = (base_key x).1)) := by simpa using hk
          rw [hy2, ← hbx]
        have hxg2 : x ∈ ((detail_cleanup_call exchs).1.filter is_jccjcg).filter
            (fun z => (base_key z).1 = (base_key x).1) :=
          (hg2mem x).mpr ⟨hxg1, hks⟩
        have hnd2 : (((detail_cleanup_call exchs).1.filter is_jccjcg).filter
            (fun z => (base_key z).1 = (base_key x).1)).Nodup :=
          ((dcc_nodup exchs).filter _).filter _
        have hg2eq := nodup_all_eq hnd2 hxg2 hall
        have hsx : suffixedB x = false := by
          cases hq : suffixedB x with
          | false => rfl
          | true => exact absurd (List.any_eq_true.mpr ⟨x, hxg1, hq⟩) hany
        unfold keepFullB
        rw [hg2eq]
        have hone : ([x].any suffixedB) = false := by simp [hsx]
        rw [if_neg (by rw [hone]; exact Bool.noConfusion)]
        simp [pickBest]
    · unfold keepSpecB
      rw [if_neg hp, if_neg hj]

theorem detail_cleanup_call_idem (exchs : List Str) :
    (detail_cleanup_call (detail_cleanup_call exchs).1).1 =
      (detail_cleanup_call exchs).1 := by
  show skdFold _ (detail_cleanup_call exchs).1 = _
  refine skdFold_eq_self (dcc_nodup exchs) ?_
  intro x hx
  rw [keepSet_eq_spec hx]
  exact keepSpec_idem x hx

theorem map_entry_eq_self {l : ExchMap}
    (h : ∀ kv ∈ l, (detail_cleanup_call kv.2).1 = kv.2) :
    l.map (fun kv => (kv.1, (detail_cleanup_call kv.2).1)) = l := by
  induction l with
  | nil => rfl
  | cons kv rest ih =>
    simp only [List.map_cons]
    rw [h kv (by simp), ih (fun jv hjv => h jv (by simp [hjv]))]

/-- **C9**: detail-priority cleanup is idempotent — applying
`detail_cleanup_map` to the cleaned map it produced yields that same cleaned
map. -/
theorem C9_detail_cleanup_idempotent (m : ExchMap) :
    (detail_cleanup_map (detail_cleanup_map m).1).1 = (detail_cleanup_map m).1 := by
  have hnd := dcm_fst_keys_nodup m
  have hclosed := dcm_of_nodup hnd
  rw [hclosed]
  dsimp only
  apply map_entry_eq_self
  intro kv hkv
  obtain ⟨w, hw⟩ := dcm_fst_values m kv hkv
  rw [hw, detail_cleanup_call_idem]

/-! ### Map-level find characterizations and the C5 claim -/
theorem dcm_cleaned_find {m : ExchMap} {c : Str} :
    alistFind (m.map (fun kv => (kv.1, (detail_cleanup_call kv.2).1))) c =
      (alistFind m c).map (fun e => (detail_cleanup_call e).1) := by
  induction m with
  | nil => rfl
  | cons kv rest ih =>
    by_cases h : kv.1 = c
    · simp [alistFind, h]
    · simp [alistFind, h, ih]

theorem dcm_changes_find_none {m : ExchMap} {c : Str} (h : c ∉ alistKeys m) :
    alistFind ((m.filter (fun kv =>
        decide ((detail_cleanup_call kv.2).2.1 ≠ [] ∨
          (detail_cleanup_call kv.2).2.2 ≠ []))).map
      (fun kv => (kv.1, (detail_cleanup_call kv.2).2))) c = none := by
  induction m with
  | nil => rfl
  | cons kv rest ih =>
    have hne : kv.1 ≠ c := fun hh => h (by simp [alistKeys, hh])
    have hrest : c ∉ alistKeys rest := by
      intro hh
      apply h
      simp [alistKeys] at hh ⊢
      exact Or.inr hh
    simp only [List.filter_cons]
    by_cases hq : (detail_cleanup_call kv.2).2.1 ≠ [] ∨
        (detail_cleanup_call kv.2).2.2 ≠ []
    · rw [if_pos (decide_eq_true hq)]
      simp only [List.map_cons]
      rw [show alistFind ((kv.1, (detail_cleanup_call kv.2).2) ::
          (rest.filter (fun jv =>
            decide ((detail_cleanup_call jv.2).2.1 ≠ [] ∨
              (detail_cleanup_call jv.2).2.2 ≠ []))).map
          (fun jv => (jv.1, (detail_cleanup_call jv.2).2))) c =
        if kv.1 = c then some (detail_cleanup_call kv.2).2
        else alistFind ((rest.filter (fun jv =>
            decide ((detail_cleanup_call jv.2).2.1 ≠ [] ∨
              (detail_cleanup_call jv.2).2.2 ≠ []))).map
          (fun jv => (jv.1, (detail_cleanup_call jv.2).2))) c from rfl]
      rw [if_neg hne]
      exact ih hrest
    · rw [if_neg (by simpa using hq)]
      exact ih hrest

theorem dcm_changes_find_aux :
    ∀ (m : ExchMap) (c : Str) (exchs : List Str),
      (alistKeys m).Nodup → alistFind m c = some exchs →
      alistFind ((m.filter (fun kv =>
          decide ((detail_cleanup_call kv.2).2.1 ≠ [] ∨
            (detail_cleanup_call kv.2).2.2 ≠ []))).map
        (fun kv => (kv.1, (detail_cleanup_call kv.2).2))) c =
        (if (detail_cleanup_call exchs).2.1 ≠ [] ∨
            (detail_cleanup_call exchs).2.2 ≠ []
         then some (detail_cleanup_call exchs).2 else none) := by
  intro m
  induction m with
  | nil =>
    intro c exchs _ hfind
    cases hfind
  | cons kv rest ih =>
    intro c exchs hnd hfind
    have hnd2 : (kv.1 :: alistKeys rest).Nodup := hnd
    obtain ⟨hkn, hndr⟩ := List.nodup_cons.mp hnd2
    by_cases h : kv.1 = c
    · have hex : exchs = kv.2 := by
        have hh : (if kv.1 = c then some kv.2 else alistFind rest c) = some exchs :=
          hfind
        rw [if_pos h] at hh
        exact (Option.some.inj hh).symm
      subst hex
      simp only [List.filter_cons]
      by_cases hq : (detail_cleanup_call kv.2).2.1 ≠ [] ∨
          (detail_cleanup_call kv.2).2.2 ≠ []
      · rw [if_pos (decide_eq_true hq), if_pos hq]
        simp only [List.map_cons]
        simp [alistFind, h]
      · rw [if_neg (by simpa using hq), if_neg hq]
        apply dcm_changes_find_none
        rw [← h]
        exact hkn
    · have hfind2 : alistFind rest c = some exchs := by
        have hh : (if kv.1 = c then some kv.2 else alistFind rest c) = some exchs :=
          hfind
        rwa [if_neg h] at hh
      simp only [List.filter_cons]
      by_cases hq : (detail_cleanup_call kv.2).2.1 ≠ [] ∨
          (detail_cleanup_call kv.2).2.2 ≠ []
      · rw [if_pos (decide_eq_true hq)]
        simp only [List.map_cons]
        rw [show alistFind ((kv.1, (detail_cleanup_call kv.2).2) ::
            (rest.filter (fun jv =>
              decide ((detail_cleanup_call jv.2).2.1 ≠ [] ∨
                (detail_cleanup_call jv.2).2.2 ≠ []))).map
            (fun jv => (jv.1, (detail_cleanup_call jv.2).2))) c =
          if kv.1 = c then some (detail_cleanup_call kv.2).2
          else alistFind ((rest.filter (fun jv =>
              decide ((detail_cleanup_call jv.2).2.1 ≠ [] ∨
                (detail_cleanup_call jv.2).2.2 ≠ []))).map
            (fun jv => (jv.1, (detail_cleanup_call jv.2).2))) c from rfl]
        rw [if_neg h]
        exact ih c exchs hndr hfind2
      · rw [if_neg (by simpa using hq)]
        exact ih c exchs hndr hfind2

theorem pickBest_opt {g : List Str} {y : Str} (hy : y ∈ g)
    (hne : y ≠ pickBest g) : keyLtB (pickBest g) y = true := by
  have hg : g ≠ [] := by
    intro hh
    rw [hh] at hy
    cases hy
  have h1 := pickBest_min hy
  rcases keyLtB_connex hne with h | h
  · rw [h1] at h
    cases h
  · exact h

/-- **C5** (counterexample to the claim as stated): the codes `"5001"` and
`"05001"` have distinct normalized bases as strings, both classify as full
suffix-less codes, yet `detail_cleanup_map` puts them in one duplicate group
(it groups by the `int` of the normalized base) and drops `"5001"` as a
less-detailed duplicate. -/
theorem C5_counterexample :
    normalize_base_digits (split_num_suffix (strL "5001")).1 ≠
      normalize_base_digits (split_num_suffix (strL "05001")).1 ∧
    is_jccjcg (strL "5001") = true ∧
    is_jccjcg (strL "05001") = true ∧
    suffixedB (strL "5001") = false ∧
    suffixedB (strL "05001") = false ∧
    (detail_cleanup_map [(strL "JA1AA", [strL "5001", strL "05001"])]).1 =
      [(strL "JA1AA", [strL "05001"])] ∧
    (detail_cleanup_map [(strL "JA1AA", [strL "5001", strL "05001"])]).2 =
      [(strL "JA1AA", ([], [strL "5001"]))] := by
  refine ⟨by decide, by decide, by decide, by decide, by decide, ?_, ?_⟩ <;> decide

/-- **C5** (amended): for every record store with distinct keys and every
callsign `c` bound to `exchs`, detail cleanup rebinds `c` to the cleaned
list, whose members are exactly the codes surviving the rules — a partial
survives iff no full code exists; a full code survives iff, within its group
of fulls sharing the SAME INTEGER VALUE of the normalized base (not the same
normalized-base string), either some code is suffixed and it is suffixed, or
none is and it is the selected best; other codes always survive — preserving
the original relative order (sublist) without duplicates.  The removed
partials are all partials when a full exists (else none), the removed
less-detailed duplicates are characterized by `removedFullB`, and the change
report binds `c` iff something was removed.  The selected best of a group is
a member beating every other member: higher specificity score, or equal
score and shorter, or equal length and lexicographically smaller. -/
theorem C5_detail_cleanup (m : ExchMap) (hnd : (alistKeys m).Nodup)
    (c : Str) (exchs : List Str) (hfind : alistFind m c = some exchs) :
    alistFind (detail_cleanup_map m).1 c = some (detail_cleanup_call exchs).1 ∧
    (∀ x, x ∈ (detail_cleanup_call exchs).1 ↔
      (x ∈ exchs ∧ keepSpecB exchs x = true)) ∧
    (detail_cleanup_call exchs).1.Sublist exchs ∧
    (detail_cleanup_call exchs).1.Nodup ∧
    (detail_cleanup_call exchs).2.1 =
      (if exchs.filter is_jccjcg ≠ [] then exchs.filter is_pref2 else []) ∧
    (∀ x, x ∈ (detail_cleanup_call exchs).2.2 ↔
      (x ∈ exchs.filter is_jccjcg ∧
        removedFullB (exchs.filter is_jccjcg) x = true)) ∧
    alistFind (detail_cleanup_map m).2 c =
      (if (detail_cleanup_call exchs).2.1 ≠ [] ∨
          (detail_cleanup_call exchs).2.2 ≠ []
       then some (detail_cleanup_call exchs).2 else none) ∧
    (∀ g : List Str, g ≠ [] →
      pickBest g ∈ g ∧
        ∀ y ∈ g, y ≠ pickBest g →
          (detail_score y < detail_score (pickBest g) ∨
            (detail_score (pickBest g) = detail_score y ∧
              ((pickBest g).length < y.length ∨
                ((pickBest g).length = y.length ∧
                  strLtB (pickBest g) y = true))))) := by
  refine ⟨?_, ?_, dcc_sublist exchs, dcc_nodup exchs, dcc_rp exchs, ?_, ?_, ?_⟩
  · rw [dcm_of_nodup hnd]
    dsimp only
    rw [dcm_cleaned_find, hfind]
    rfl
  · intro x
    exact dcc_new_list_mem
  · intro x
    exact dcc_rl_mem
  · rw [dcm_of_nodup hnd]
    dsimp only
    exact dcm_changes_find_aux m c exchs hnd hfind
  · intro g hg
    refine ⟨pickBest_mem hg, ?_⟩
    intro y hy hne
    exact keyLtB_iff.mp (pickBest_opt hy hne)

/-- Concrete run of `C5_detail_cleanup` on the one-callsign store
`{JA1AA ↦ ["5001", "05001"]}`. -/
theorem C5_witness :
    (alistKeys [(strL "JA1AA", [strL "5001", strL "05001"])]).Nodup ∧
    alistFind (detail_cleanup_map
        [(strL "JA1AA", [strL "5001", strL "05001"])]).1 (strL "JA1AA") =
      some (detail_cleanup_call [strL "5001", strL "05001"]).1 :=
  ⟨by decide,
   (C5_detail_cleanup [(strL "JA1AA", [strL "5001", strL "05001"])] (by decide)
     (strL "JA1AA") [strL "5001", strL "05001"] (by decide)).1⟩

theorem choose_eq_owOut {E C : List Str} (h1 : C.filter is_jccjcg ≠ []) :
    choose_overwrite_call E C true =
      owOut (owStore (C.filter is_jccjcg) (E.filter is_jccjcg))
        (C.filter is_jccjcg) := by
  unfold choose_overwrite_call owOut owStore
  rw [if_neg h1, if_neg (by simp)]

theorem considerStep_cases (st : List (Nat × (Str × Bool))) (x : Str) (fl : Bool) :
    considerStep st x fl = st ∨
    ((base_key x).1 ≠ 0 ∧
      considerStep st x fl = alistSet st (base_key x).1 (x, fl)) := by
  simp only [considerStep]
  split
  · exact Or.inl rfl
  next h0 =>
    split
    · exact Or.inr ⟨h0, rfl⟩
    · split
      · exact Or.inr ⟨h0, rfl⟩
      · split
        · exact Or.inr ⟨h0, rfl⟩
        · exact Or.inl rfl

theorem considerStep_flags {st : List (Nat × (Str × Bool))} {x : Str}
    (hfl : ∀ kv ∈ st, kv.2.2 = true) :
    ∀ kv ∈ considerStep st x true, kv.2.2 = true := by
  intro kv hkv
  rcases considerStep_cases st x true with heq | ⟨-, heq⟩
  · rw [heq] at hkv
    exact hfl kv hkv
  · rw [heq] at hkv
    rcases mem_alistSet hkv with h2 | h2
    · exact hfl kv h2
    · rw [h2]

theorem considerStep_find_true {st : List (Nat × (Str × Bool))} {x : Str} {b : Nat}
    (hb : b ≠ 0) (hfl : ∀ kv ∈ st, kv.2.2 = true) :
    alistFind (considerStep st x true) b =
      if (base_key x).1 = b then pairStep true (alistFind st b) x
      else alistFind st b := by
  by_cases h0 : (base_key x).1 = 0
  · have hstep : considerStep st x true = st := by
      simp [considerStep, h0]
    have hne : ¬ ((base_key x).1 = b) := by
      intro hh
      rw [hh] at h0
      exact hb h0
    rw [hstep, if_neg hne]
  · cases hm : alistFind st (base_key x).1 with
    | none =>
      have hstep : considerStep st x true = alistSet st (base_key x).1 (x, true) := by
        simp [considerStep, h0, hm]
      rw [hstep]
      by_cases hbx : (base_key x).1 = b
      · subst hbx
        rw [if_pos rfl, alistFind_set_self, hm]
        rfl
      · rw [if_neg hbx, alistFind_set_ne]
        exact fun hh => hbx hh.symm
    | some cur =>
      have hcur2 : cur.2 = true := hfl _ (alistFind_mem hm)
      by_cases hlt : detail_score cur.1 < detail_score x
      · have hstep : considerStep st x true =
            alistSet st (base_key x).1 (x, true) := by
          simp [considerStep, h0, hm, hlt]
        rw [hstep]
        by_cases hbx : (base_key x).1 = b
        · subst hbx
          rw [if_pos rfl, alistFind_set_self, hm]
          simp [pairStep, hlt]
        · rw [if_neg hbx, alistFind_set_ne]
          exact fun hh => hbx hh.symm
      · have hstep : considerStep st x true = st := by
          simp [considerStep, h0, hm, hlt, hcur2]
        rw [hstep]
        by_cases hbx : (base_key x).1 = b
        · subst hbx
          rw [if_pos rfl, hm]
          simp [pairStep, hlt]
        · rw [if_neg hbx]

theorem considerStep_find_false {st : List (Nat × (Str × Bool))} {x : Str} {b : Nat}
    (hb : b ≠ 0) :
    alistFind (considerStep st x false) b =
      if (base_key x).1 = b then
        (match alistFind st b with
          | none => some (x, false)
          | some c => if detail_score c.1 < detail_score x then some (x, false)
              else some c)
      else alistFind st b := by
  by_cases h0 : (base_key x).1 = 0
  · have hstep : considerStep st x false = st := by
      simp [considerStep, h0]
    have hne : ¬ ((base_key x).1 = b) := by
      intro hh
      rw [hh] at h0
      exact hb h0
    rw [hstep, if_neg hne]
  · cases hm : alistFind st (base_key x).1 with
    | none =>
      have hstep : considerStep st x false =
          alistSet st (base_key x).1 (x, false) := by
        simp [considerStep, h0, hm]
      rw [hstep]
      by_cases hbx : (base_key x).1 = b
      · subst hbx
        rw [if_pos rfl, alistFind_set_self, hm]
      · rw [if_neg hbx, alistFind_set_ne]
        exact fun hh => hbx hh.symm
    | some cur =>
      by_cases hlt : detail_score cur.1 < detail_score x
      · have hstep : considerStep st x false =
            alistSet st (base_key x).1 (x, false) := by
          simp [considerStep, h0, hm, hlt]
        rw [hstep]
        by_cases hbx : (base_key x).1 = b
        · subst hbx
          rw [if_pos rfl, alistFind_set_self, hm]
          simp [hlt]
        · rw [if_neg hbx, alistFind_set_ne]
          exact fun hh => hbx hh.symm
      · have hstep : considerStep st x false = st := by
          simp [considerStep, h0, hm, hlt]
        rw [hstep]
        by_cases hbx : (base_key x).1 = b
        · subst hbx
          rw [if_pos rfl, hm]
          simp [hlt]
        · rw [if_neg hbx]

theorem consider_fold_find_true :
    ∀ (l : List Str) (st : List (Nat × (Str × Bool))) (b : Nat), b ≠ 0 →
      (∀ kv ∈ st, kv.2.2 = true) →
      alistFind (l.foldl (fun st x => considerStep st x true) st) b =
        (l.filter (fun x => (base_key x).1 = b)).foldl (pairStep true)
          (alistFind st b) := by
  intro l
  induction l with
  | nil =>
    intro st b hb hfl
    rfl
  | cons x xs ih =>
    intro st b hb hfl
    rw [List.foldl_cons, List.filter_cons]
    have hflags : ∀ kv ∈ considerStep st x true, kv.2.2 = true :=
      considerStep_flags hfl
    by_cases hbx : (base_key x).1 = b
    · rw [if_pos (decide_eq_true hbx), List.foldl_cons,
        ih (considerStep st x true) b hb hflags,
        considerStep_find_true hb hfl, if_pos hbx]
    · rw [if_neg (by simpa using hbx),
        ih (considerStep st x true) b hb hflags,
        considerStep_find_true hb hfl, if_neg hbx]

theorem consider_fold_find_false :
    ∀ (l : List Str) (st : List (Nat × (Str × Bool))) (b : Nat), b ≠ 0 →
      alistFind (l.foldl (fun st x => considerStep st x false) st) b =
        (l.filter (fun x => (base_key x).1 = b)).foldl (pairStep false)
          (alistFind st b) := by
  intro l
  induction l with
  | nil =>
    intro st b hb
    rfl
  | cons x xs ih =>
    intro st b hb
    rw [List.foldl_cons, List.filter_cons]
    by_cases hbx : (base_key x).1 = b
    · rw [if_pos (decide_eq_true hbx), List.foldl_cons,
        ih (considerStep st x false) b hb,
        considerStep_find_false hb, if_pos hbx]
      cases alistFind st b <;> rfl
    · rw [if_neg (by simpa using hbx),
        ih (considerStep st x false) b hb,
        considerStep_find_false hb, if_neg hbx]

theorem pairfold_fst (fl : Bool) :
    ∀ (l : List Str) (acc : Option (Str × Bool)),
      (l.foldl (pairStep fl) acc).map Prod.fst = famFrom (acc.map Prod.fst) l := by
  intro l
  induction l with
  | nil =>
    intro acc
    rfl
  | cons y ys ih =>
    intro acc
    have hacc : (pairStep fl acc y).map Prod.fst = famStep (acc.map Prod.fst) y := by
      cases acc with
      | none => rfl
      | some c =>
        by_cases hlt : detail_score c.1 < detail_score y
        · simp [pairStep, famStep, hlt]
        · simp [pairStep, famStep, hlt]
    rw [List.foldl_cons, ih (pairStep fl acc y), hacc]
    rfl

theorem famFrom_append (acc : Option Str) (l1 l2 : List Str) :
    famFrom (famFrom acc l1) l2 = famFrom acc (l1 ++ l2) :=
  (List.foldl_append _ _ _ _).symm

theorem owStore_find (cf ef : List Str) (b : Nat) (hb : b ≠ 0) :
    (alistFind (owStore cf ef) b).map Prod.fst =
      firstArgmax ((cf ++ ef).filter (fun y => (base_key y).1 = b)) := by
  unfold owStore
  rw [consider_fold_find_false ef _ b hb,
    consider_fold_find_true cf [] b hb (by intro kv hkv; cases hkv)]
  rw [show alistFind ([] : List (Nat × (Str × Bool))) b = none from rfl]
  rw [pairfold_fst false, pairfold_fst true]
  rw [show ((none : Option (Str × Bool)).map Prod.fst) = none from rfl]
  rw [List.filter_append]
  exact famFrom_append none _ _

set_option maxHeartbeats 1000000 in
theorem famFrom_some_char :
    ∀ (l : List Str) (c x : Str), famFrom (some c) l = some x →
      (x = c ∧ ∀ y ∈ l, detail_score y ≤ detail_score c) ∨
      (∃ pre post, l = pre ++ x :: post ∧ detail_score c < detail_score x ∧
        (∀ y ∈ pre, detail_score y < detail_score x) ∧
        (∀ y ∈ post, detail_score y ≤ detail_score x)) := by
  intro l
  induction l with
  | nil =>
    intro c x h
    have hx : x = c := (Option.some.inj h).symm
    exact Or.inl ⟨hx, by intro y hy; cases hy⟩
  | cons y ys ih =>
    intro c x h
    have hstep : famFrom (some c) (y :: ys) =
        famFrom (if detail_score c < detail_score y then some y else some c) ys := by
      unfold famFrom
      rw [List.foldl_cons]
      by_cases hlt : detail_score c < detail_score y
      · rw [show famStep (some c) y = some y from by simp [famStep, hlt], if_pos hlt]
      · rw [show famStep (some c) y = some c from by simp [famStep, hlt], if_neg hlt]
    rw [hstep] at h
    by_cases hlt : detail_score c < detail_score y
    · rw [if_pos hlt] at h
      rcases ih y x h with ⟨hx, hall⟩ | ⟨pre, post, heq, hcx, hpre, hpost⟩
      · refine Or.inr ⟨[], ys, by simp [hx], by rw [hx]; exact hlt, ?_, ?_⟩
        · intro z hz
          cases hz
        · intro z hz
          rw [hx]
          exact hall z hz
      · refine Or.inr ⟨y :: pre, post, by rw [heq, List.cons_append], by omega, ?_, hpost⟩
        intro z hz
        rcases List.mem_cons.mp hz with rfl | hz2
        · omega
        · exact hpre z hz2
    · rw [if_neg hlt] at h
      rcases ih c x h with ⟨hx, hall⟩ | ⟨pre, post, heq, hcx, hpre, hpost⟩
      · refine Or.inl ⟨hx, ?_⟩
        intro z hz
        rcases List.mem_cons.mp hz with rfl | hz2
        · omega
        · exact hall z hz2
      · refine Or.inr ⟨y :: pre, post, by rw [heq, List.cons_append], hcx, ?_, hpost⟩
        intro z hz
        rcases List.mem_cons.mp hz with rfl | hz2
        · omega
        · exact hpre z hz2

theorem firstArgmax_char {l : List Str} {x : Str} (h : firstArgmax l = some x) :
    ∃ pre post, l = pre ++ x :: post ∧
      (∀ y ∈ pre, detail_score y < detail_score x) ∧
      (∀ y ∈ post, detail_score y ≤ detail_score x) := by
  cases l with
  | nil => cases h
  | cons y ys =>
    have h2 : famFrom (some y) ys = some x := h
    rcases famFrom_some_char ys y x h2 with ⟨hx, hall⟩ | ⟨pre, post, heq, hcx, hpre, hpost⟩
    · refine ⟨[], ys, by simp [hx], ?_, ?_⟩
      · intro z hz
        cases hz
      · intro z hz
        rw [hx]
        exact hall z hz
    · refine ⟨y :: pre, post, by rw [heq, List.cons_append], ?_, hpost⟩
      intro z hz
      rcases List.mem_cons.mp hz with rfl | hz2
      · exact hcx
      · exact hpre z hz2

theorem firstArgmax_mem {l : List Str} {x : Str} (h : firstArgmax l = some x) :
    x ∈ l := by
  obtain ⟨pre, post, heq, -, -⟩ := firstArgmax_char h
  rw [heq]
  exact List.mem_append.mpr (Or.inr (List.mem_cons_self _ _))

theorem considerStep_keys {st : List (Nat × (Str × Bool))} {x : Str} {fl : Bool}
    (h0 : ∀ kv ∈ st, kv.1 ≠ 0) (hnd : (alistKeys st).Nodup) :
    (∀ kv ∈ considerStep st x fl, kv.1 ≠ 0) ∧
      (alistKeys (considerStep st x fl)).Nodup := by
  rcases considerStep_cases st x fl with heq | ⟨hb, heq⟩
  · rw [heq]
    exact ⟨h0, hnd⟩
  · rw [heq]
    refine ⟨?_, alistKeys_set_nodup hnd⟩
    intro kv hkv
    rcases mem_alistSet hkv with h2 | h2
    · exact h0 kv h2
    · have hf : kv.1 = (base_key x).1 := by rw [h2]
      rw [hf]
      exact hb

theorem consider_fold_keys (fl : Bool) :
    ∀ (l : List Str) (st : List (Nat × (Str × Bool))),
      (∀ kv ∈ st, kv.1 ≠ 0) → (alistKeys st).Nodup →
      (∀ kv ∈ l.foldl (fun st x => considerStep st x fl) st, kv.1 ≠ 0) ∧
        (alistKeys (l.foldl (fun st x => considerStep st x fl) st)).Nodup := by
  intro l
  induction l with
  | nil =>
    intro st h0 hnd
    exact ⟨h0, hnd⟩
  | cons x xs ih =>
    intro st h0 hnd
    rw [List.foldl_cons]
    exact ih (considerStep st x fl) (considerStep_keys h0 hnd).1
      (considerStep_keys h0 hnd).2

theorem owStore_keys (cf ef : List Str) :
    (∀ kv ∈ owStore cf ef, kv.1 ≠ 0) ∧ (alistKeys (owStore cf ef)).Nodup := by
  unfold owStore
  have h1 := consider_fold_keys true cf [] (by intro kv hkv; cases hkv)
    (by simp [alistKeys])
  exact consider_fold_keys false ef _ h1.1 h1.2

theorem owOut_eq (st : List (Nat × (Str × Bool))) (cf : List Str) :
    owOut st cf = (st.foldl owStep2 (cf.foldl (owStep1 st) ([], []))).1 := rfl

theorem out2_props :
    ∀ (l : List (Nat × (Str × Bool))) (ou : List Str × List Str), ou.1 = ou.2 →
      (l.foldl owStep2 ou).1 = (l.foldl owStep2 ou).2 ∧
      (∀ x ∈ ou.2, x ∈ (l.foldl owStep2 ou).2) ∧
      (∀ kv ∈ l, kv.2.1 ∈ (l.foldl owStep2 ou).2) ∧
      (∀ x ∈ (l.foldl owStep2 ou).2, x ∈ ou.2 ∨ ∃ kv ∈ l, x = kv.2.1) := by
  intro l
  induction l with
  | nil =>
    intro ou h
    exact ⟨h, fun x hx => hx, fun kv hkv => absurd hkv (List.not_mem_nil kv),
      fun x hx => Or.inl hx⟩
  | cons kv rest ih =>
    intro ou h
    rw [List.foldl_cons]
    have hstep : (owStep2 ou kv).1 = (owStep2 ou kv).2 := by
      unfold owStep2
      by_cases hm : memb kv.2.1 ou.2 = false
      · rw [if_pos hm]
        show ou.1 ++ [kv.2.1] = ou.2 ++ [kv.2.1]
        rw [h]
      · rw [if_neg hm]
        exact h
    obtain ⟨i1, i2, i3, i4⟩ := ih _ hstep
    have hsub : ∀ x ∈ ou.2, x ∈ (owStep2 ou kv).2 := by
      intro x hx
      unfold owStep2
      by_cases hm : memb kv.2.1 ou.2 = false
      · rw [if_pos hm]
        exact List.mem_append.mpr (Or.inl hx)
      · rw [if_neg hm]
        exact hx
    have hin : kv.2.1 ∈ (owStep2 ou kv).2 := by
      unfold owStep2
      by_cases hm : memb kv.2.1 ou.2 = false
      · rw [if_pos hm]
        exact List.mem_append.mpr (Or.inr (List.mem_singleton.mpr rfl))
      · rw [if_neg hm]
        have hmt : memb kv.2.1 ou.2 = true := by
          cases hq : memb kv.2.1 ou.2 with
          | false => exact absurd hq hm
          | true => rfl
        exact memb_iff.mp hmt
    have hback : ∀ x ∈ (owStep2 ou kv).2, x ∈ ou.2 ∨ x = kv.2.1 := by
      intro x hx
      unfold owStep2 at hx
      by_cases hm : memb kv.2.1 ou.2 = false
      · rw [if_pos hm] at hx
        rcases List.mem_append.mp hx with h3 | h3
        · exact Or.inl h3
        · exact Or.inr (List.mem_singleton.mp h3)
      · rw [if_neg hm] at hx
        exact Or.inl hx
    refine ⟨i1, ?_, ?_, ?_⟩
    · intro x hx
      exact i2 x (hsub x hx)
    · intro jv hjv
      rcases List.mem_cons.mp hjv with heq | h2
      · rw [heq]
        exact i2 _ hin
      · exact i3 jv h2
    · intro x hx
      rcases i4 x hx with h2 | ⟨jv, hjv, hx2⟩
      · rcases hback x h2 with h3 | h3
        · exact Or.inl h3
        · exact Or.inr ⟨kv, List.mem_cons_self _ _, h3⟩
      · exact Or.inr ⟨jv, List.mem_cons_of_mem _ hjv, hx2⟩

theorem out1_props (st : List (Nat × (Str × Bool))) :
    ∀ (l : List Str) (ou : List Str × List Str), ou.1 = ou.2 →
      (l.foldl (owStep1 st) ou).1 = (l.foldl (owStep1 st) ou).2 ∧
      (∀ x ∈ (l.foldl (owStep1 st) ou).2,
        x ∈ ou.2 ∨ ∃ b cur, alistFind st b = some cur ∧ x = cur.1) := by
  intro l
  induction l with
  | nil =>
    intro ou h
    exact ⟨h, fun x hx => Or.inl hx⟩
  | cons y ys ih =>
    intro ou h
    rw [List.foldl_cons]
    cases hm : alistFind st (base_key y).1 with
    | none =>
      have hsou : owStep1 st ou y = ou := by
        unfold owStep1
        rw [hm]
      rw [hsou]
      exact ih ou h
    | some cur =>
      by_cases hc : cur.1 ≠ [] ∧ memb cur.1 ou.2 = false
      · have hsou : owStep1 st ou y = (ou.1 ++ [cur.1], ou.2 ++ [cur.1]) := by
          unfold owStep1
          rw [hm]
          exact if_pos hc
        rw [hsou]
        obtain ⟨i1, i2⟩ := ih (ou.1 ++ [cur.1], ou.2 ++ [cur.1]) (by rw [h])
        refine ⟨i1, ?_⟩
        intro x hx
        rcases i2 x hx with h2 | h2
        · rcases List.mem_append.mp h2 with h3 | h3
          · exact Or.inl h3
          · exact Or.inr ⟨(base_key y).1, cur, hm, List.mem_singleton.mp h3⟩
        · exact Or.inr h2
      · have hsou : owStep1 st ou y = ou := by
          unfold owStep1
          rw [hm]
          exact if_neg hc
        rw [hsou]
        exact ih ou h

theorem owOut_mem {cf ef : List Str} {x : Str} :
    x ∈ owOut (owStore cf ef) cf ↔
      ∃ b, b ≠ 0 ∧
        firstArgmax ((cf ++ ef).filter (fun y => (base_key y).1 = b)) = some x := by
  obtain ⟨hz, hnd⟩ := owStore_keys cf ef
  rw [owOut_eq]
  constructor
  · intro hx
    obtain ⟨o1eq, o1mem⟩ := out1_props (owStore cf ef) cf ([], []) rfl
    obtain ⟨t1, t2, t3, t4⟩ :=
      out2_props (owStore cf ef) (cf.foldl (owStep1 (owStore cf ef)) ([], [])) o1eq
    rw [t1] at hx
    rcases t4 x hx with h2 | ⟨kv, hkv, hx2⟩
    · rcases o1mem x h2 with h3 | ⟨b, cur, hfind, hxc⟩
      · cases h3
      · have hb : b ≠ 0 := hz (b, cur) (alistFind_mem hfind)
        refine ⟨b, hb, ?_⟩
        have hchar := owStore_find cf ef b hb
        rw [hfind] at hchar
        rw [← hchar, hxc]
        rfl
    · have hb : kv.1 ≠ 0 := hz kv hkv
      refine ⟨kv.1, hb, ?_⟩
      have hfind : alistFind (owStore cf ef) kv.1 = some kv.2 :=
        alistFind_of_mem_nodup hnd hkv
      have hchar := owStore_find cf ef kv.1 hb
      rw [hfind] at hchar
      rw [← hchar, hx2]
      rfl
  · rintro ⟨b, hb, hfa⟩
    have hchar := owStore_find cf ef b hb
    rw [hfa] at hchar
    cases hfind : alistFind (owStore cf ef) b with
    | none =>
      rw [hfind] at hchar
      cases hchar
    | some cur =>
      rw [hfind] at hchar
      have hxc : cur.1 = x := by simpa using hchar
      have hkv : (b, cur) ∈ owStore cf ef := alistFind_mem hfind
      obtain ⟨o1eq, -⟩ := out1_props (owStore cf ef) cf ([], []) rfl
      obtain ⟨t1, -, t3, -⟩ :=
        out2_props (owStore cf ef) (cf.foldl (owStep1 (owStore cf ef)) ([], [])) o1eq
      rw [t1, ← hxc]
      exact t3 (b, cur) hkv

theorem merge_overwrite_absent (existing incoming : ExchMap) (p : Bool) (c : Str)
    (h : alistFind incoming c = none) :
    alistFind (merge_overwrite existing incoming p) c = alistFind existing c := by
  unfold merge_overwrite
  have key : ∀ (l : ExchMap) (m : ExchMap), alistFind l c = none →
      alistFind (l.foldl (fun merged kv =>
        alistSet merged kv.1
          (choose_overwrite_call ((alistFind merged kv.1).getD []) kv.2 p)) m) c =
        alistFind m c := by
    intro l
    induction l with
    | nil =>
      intro m _
      rfl
    | cons kv rest ih =>
      intro m hl
      have hne : kv.1 ≠ c := by
        intro hh
        simp [alistFind, hh] at hl
      have hrest : alistFind rest c = none := by
        simpa [alistFind, hne] using hl
      rw [List.foldl_cons, ih _ hrest, alistFind_set_ne]
      exact fun hh => hne hh.symm
  exact key incoming existing h

/-- **C1** (counterexample to the claim as stated): `"5001"` (incoming) and
`"05001"` (existing) have distinct normalized bases as strings, yet the
resolver groups them by the `int` of the normalized base, so the existing
`"05001"` (higher specificity score) wins and the incoming `"5001"` is not
retained — under per-normalized-base(-string) grouping both would be kept. -/
theorem C1_counterexample :
    normalize_base_digits (split_num_suffix (strL "5001")).1 ≠
      normalize_base_digits (split_num_suffix (strL "05001")).1 ∧
    is_jccjcg (strL "5001") = true ∧
    is_jccjcg (strL "05001") = true ∧
    choose_overwrite_call [strL "05001"] [strL "5001"] true = [strL "05001"] ∧
    strL "5001" ∉ choose_overwrite_call [strL "05001"] [strL "5001"] true := by
  exact ⟨by decide, by decide, by decide, by decide, by decide⟩

/-- **C1** (amended): the overwrite resolver keeps the existing list when the
incoming side has no full codes; with the protect flag off it returns the
distinct incoming full codes in first-seen order; with the flag on, a code is
kept iff it is, for some nonzero base, the first candidate attaining the
maximal specificity score among incoming-then-existing full codes whose
normalized base has that INTEGER VALUE (so ties go to the incoming side);
`firstArgmax` indeed selects the first maximal-score element; callsigns
absent from the incoming store keep their existing record; and the scenario
existing `["29012A"]`, incoming `["290120"]`, flag on retains `"29012A"`. -/
theorem C1_overwrite_resolution (E C : List Str) (protect : Bool) :
    (C.filter is_jccjcg = [] → choose_overwrite_call E C protect = E) ∧
    (choose_overwrite_call E C false =
      (if C.filter is_jccjcg = [] then E else stable_unique (C.filter is_jccjcg))) ∧
    (∀ x, x ∈ stable_unique (C.filter is_jccjcg) ↔ x ∈ C.filter is_jccjcg) ∧
    (stable_unique (C.filter is_jccjcg)).Nodup ∧
    (C.filter is_jccjcg ≠ [] → ∀ x,
      x ∈ choose_overwrite_call E C true ↔
        ∃ b, b ≠ 0 ∧
          firstArgmax ((C.filter is_jccjcg ++ E.filter is_jccjcg).filter
            (fun y => (base_key y).1 = b)) = some x) ∧
    (∀ l : List Str, ∀ x, firstArgmax l = some x →
      ∃ pre post, l = pre ++ x :: post ∧
        (∀ y ∈ pre, detail_score y < detail_score x) ∧
        (∀ y ∈ post, detail_score y ≤ detail_score x)) ∧
    (∀ existing incoming : ExchMap, ∀ c : Str,
      alistFind incoming c = none →
      alistFind (merge_overwrite existing incoming protect) c =
        alistFind existing c) ∧
    strL "29012A" ∈ choose_overwrite_call [strL "29012A"] [strL "290120"] true := by
  refine ⟨?_, ?_, fun x => mem_stable_unique, stable_unique_nodup _, ?_, ?_, ?_, ?_⟩
  · intro h
    unfold choose_overwrite_call
    rw [if_pos h]
  · by_cases h : C.filter is_jccjcg = []
    · rw [if_pos h]
      unfold choose_overwrite_call
      rw [if_pos h]
    · rw [if_neg h]
      unfold choose_overwrite_call
      rw [if_neg h, if_pos rfl]
  · intro h x
    rw [choose_eq_owOut h]
    exact owOut_mem
  · intro l x hfa
    exact firstArgmax_char hfa
  · intro ex inc c h
    exact merge_overwrite_absent ex inc protect c h
  · decide

/-- Concrete run of `C1_overwrite_resolution`: existing `["29012A"]`,
incoming `["290120"]`, protect on — both codes survive (distinct integer
bases 29012 and 29120). -/
theorem C1_witness :
    ([strL "290120"].filter is_jccjcg ≠ []) ∧
    strL "29012A" ∈ choose_overwrite_call [strL "29012A"] [strL "290120"] true ∧
    strL "290120" ∈ choose_overwrite_call [strL "29012A"] [strL "290120"] true :=
  ⟨by decide,
   (C1_overwrite_resolution [strL "29012A"] [strL "290120"] true).2.2.2.2.2.2.2,
   ((C1_overwrite_resolution [strL "29012A"] [strL "290120"] true).2.2.2.2.1
       (by decide) (strL "290120")).mpr ⟨29120, by decide, by decide⟩⟩

/-! ### Round trip of write and read (C7) -/
theorem dropWhile_eq_self_of_length {α : Type} {p : α → Bool} {s : List α}
    (h : (s.dropWhile p).length = s.length) : s.dropWhile p = s :=
  List.IsSuffix.eq_of_length (List.dropWhile_suffix p) h

theorem length_stripChars_le (p : Char → Bool) (s : Str) :
    (stripChars p s).length ≤ s.length := by
  unfold stripChars
  calc ((s.dropWhile p).reverse.dropWhile p).reverse.length
      = ((s.dropWhile p).reverse.dropWhile p).length := List.length_reverse _
    _ ≤ (s.dropWhile p).reverse.length := length_dropWhile_le _ _
    _ = (s.dropWhile p).length := List.length_reverse _
    _ ≤ s.length := length_dropWhile_le _ _

theorem stripChars_eq_self_of_length {p : Char → Bool} {s : Str}
    (h : (stripChars p s).length = s.length) : stripChars p s = s := by
  have h1 : (s.dropWhile p).length = s.length := by
    have ha := length_dropWhile_le p s
    have hb : (stripChars p s).length ≤ (s.dropWhile p).length := by
      unfold stripChars
      rw [List.length_reverse]
      calc ((s.dropWhile p).reverse.dropWhile p).length
          ≤ (s.dropWhile p).reverse.length := length_dropWhile_le _ _
        _ = (s.dropWhile p).length := List.length_reverse _
    omega
  have h2 : s.dropWhile p = s := dropWhile_eq_self_of_length h1
  unfold stripChars
  rw [h2]
  have h3 : (s.reverse.dropWhile p).length = s.reverse.length := by
    have : (stripChars p s).length = (s.reverse.dropWhile p).length := by
      unfold stripChars
      rw [h2, List.length_reverse]
    rw [List.length_reverse]
    omega
  rw [dropWhile_eq_self_of_length h3, List.reverse_reverse]

theorem norm_exch_fixed_parts {t : Str} (h : norm_exch t = t) :
    stripChars isWsC t = t ∧ stripChars isQuoteC t = t ∧
      t.map toUpperChar = t ∧ stripChars isSepC t = t ∧ strip_cell t = t := by
  have hlen : (norm_exch t).length = t.length := by rw [h]
  have l1 : (stripChars isWsC t).length ≤ t.length := length_stripChars_le _ _
  have l2 : (stripChars isQuoteC (stripChars isWsC t)).length ≤
      (stripChars isWsC t).length := length_stripChars_le _ _
  have l3 : (strip_cell t).length ≤
      (stripChars isQuoteC (stripChars isWsC t)).length := by
    unfold strip_cell
    exact length_stripChars_le _ _
  have l4 : ((strip_cell t).map toUpperChar).length = (strip_cell t).length :=
    List.length_map _ _
  have l5 : (norm_exch t).length ≤ ((strip_cell t).map toUpperChar).length := by
    show (stripChars isSepC _).length ≤ _
    exact length_stripChars_le _ _
  have e1 : stripChars isWsC t = t :=
    stripChars_eq_self_of_length (by omega)
  have e2 : stripChars isQuoteC t = t := by
    have : stripChars isQuoteC (stripChars isWsC t) = stripChars isQuoteC t := by
      rw [e1]
    rw [this] at l2 l3
    exact stripChars_eq_self_of_length (by omega)
  have e3 : strip_cell t = t := by
    unfold strip_cell
    rw [e1, e2]
    have : (strip_cell t).length = t.length := by
      unfold strip_cell
      rw [e1, e2]
      omega
    unfold strip_cell at this
    rw [e1, e2] at this
    exact stripChars_eq_self_of_length this
  have e4 : t.map toUpperChar = t := by
    have hu : norm_exch t = stripChars isSepC (t.map toUpperChar) := by
      unfold norm_exch
      rw [e3]
    have hlen2 : (t.map toUpperChar).length = t.length := List.length_map _ _
    have hstr : (stripChars isSepC (t.map toUpperChar)).length =
        (t.map toUpperChar).length := by
      rw [← hu, h]
      omega
    have := stripChars_eq_self_of_length hstr
    rw [this] at hu
    rw [← hu, h]
  have e5 : stripChars isSepC t = t := by
    have hu : norm_exch t = stripChars isSepC t := by
      unfold norm_exch
      rw [e3, e4]
    rw [← hu, h]
  exact ⟨e1, e2, e4, e5, e3⟩

theorem stripChars_id_ends {p : Char → Bool} {t : Str} (hne : t ≠ [])
    (h : stripChars p t = t) :
    (∃ a as, t = a :: as ∧ p a = false) ∧
      (∃ init z, t = init ++ [z] ∧ p z = false) := by
  have hdrop : t.dropWhile p = t := by
    have hl : (t.dropWhile p).length = t.length := by
      have h1 := length_dropWhile_le p t
      have h2 : (stripChars p t).length ≤ (t.dropWhile p).length := by
        unfold stripChars
        rw [List.length_reverse]
        calc ((t.dropWhile p).reverse.dropWhile p).length
            ≤ (t.dropWhile p).reverse.length := length_dropWhile_le _ _
          _ = (t.dropWhile p).length := List.length_reverse _
      rw [h] at h2
      omega
    exact dropWhile_eq_self_of_length hl
  have hrev : t.reverse.dropWhile p = t.reverse := by
    have : stripChars p t = (t.reverse.dropWhile p).reverse := by
      unfold stripChars
      rw [hdrop]
    rw [h] at this
    rw [← List.reverse_reverse (t.reverse.dropWhile p), ← this]
  constructor
  · cases ht : t with
    | nil => exact absurd ht hne
    | cons a as =>
      refine ⟨a, as, rfl, ?_⟩
      rw [ht] at hdrop
      cases hp : p a with
      | false => rfl
      | true =>
        rw [List.dropWhile_cons, hp] at hdrop
        have := congrArg List.length hdrop
        have hle := length_dropWhile_le p as
        simp at this
        omega
  · cases ht : t.reverse with
    | nil =>
      exfalso
      apply hne
      rw [← List.reverse_reverse t, ht]
      rfl
    | cons z zs =>
      refine ⟨zs.reverse, z, ?_, ?_⟩
      · rw [← List.reverse_reverse t, ht]
        simp
      · rw [ht] at hrev
        cases hp : p z with
        | false => rfl
        | true =>
          rw [List.dropWhile_cons, hp] at hrev
          have := congrArg List.length hrev
          have hle := length_dropWhile_le p zs
          simp at this
          omega

theorem stripChars_append_id {p : Char → Bool} {a z : Char} {mid : Str}
    (ha : p a = false) (hz : p z = false) :
    stripChars p (a :: (mid ++ [z])) = a :: (mid ++ [z]) := by
  unfold stripChars
  have h1 : (a :: (mid ++ [z])).dropWhile p = a :: (mid ++ [z]) := by
    rw [List.dropWhile_cons, ha]
    rfl
  rw [h1]
  have h2 : (a :: (mid ++ [z])).reverse = z :: (mid.reverse ++ [a]) := by
    simp
  rw [h2]
  have h3 : (z :: (mid.reverse ++ [a])).dropWhile p = z :: (mid.reverse ++ [a]) := by
    rw [List.dropWhile_cons, hz]
    rfl
  rw [h3, ← h2, List.reverse_reverse]

theorem is_callsign_facts {c : Str} (h : is_callsign c = true) :
    c ≠ [] ∧ 2 ≤ c.length ∧ norm_call c = c ∧
      (∀ ch ∈ c, isWsC ch = false ∧ isQuoteC ch = false ∧ isLowerC ch = false ∧
        ch.toNat ≠ 35 ∧ ch.toNat ≠ 59) := by
  simp only [is_callsign, Bool.and_eq_true] at h
  obtain ⟨⟨⟨hne, hall⟩, hup⟩, hdig⟩ := h
  have hne2 : c ≠ [] := by
    intro hh
    rw [hh] at hne
    cases hne
  have hclass : ∀ ch ∈ c, isUpperC ch = true ∨ isDigitC ch = true ∨ ch.toNat = 47 := by
    intro ch hch
    have := List.all_eq_true.mp hall ch hch
    simp only [Bool.or_eq_true, decide_eq_true_eq] at this
    rcases this with (hu | hd) | h47
    · exact Or.inl hu
    · exact Or.inr (Or.inl hd)
    · exact Or.inr (Or.inr h47)
  have hchar : ∀ ch ∈ c, isWsC ch = false ∧ isQuoteC ch = false ∧
      isLowerC ch = false ∧ ch.toNat ≠ 35 ∧ ch.toNat ≠ 59 := by
    intro ch hch
    rcases hclass ch hch with hu | hd | h47
    · simp only [isUpperC, Bool.and_eq_true, decide_eq_true_eq] at hu
      simp only [isWsC, isQuoteC, isLowerC, Bool.or_eq_false_iff,
        Bool.and_eq_false_iff, decide_eq_false_iff_not]
      omega
    · simp only [isDigitC, Bool.and_eq_true, decide_eq_true_eq] at hd
      simp only [isWsC, isQuoteC, isLowerC, Bool.or_eq_false_iff,
        Bool.and_eq_false_iff, decide_eq_false_iff_not]
      omega
    · simp only [isWsC, isQuoteC, isLowerC, Bool.or_eq_false_iff,
        Bool.and_eq_false_iff, decide_eq_false_iff_not]
      omega
  have hlen : 2 ≤ c.length := by
    obtain ⟨u, hu, hu2⟩ := List.any_eq_true.mp hup
    obtain ⟨d, hd, hd2⟩ := List.any_eq_true.mp hdig
    have hud : u ≠ d := by
      intro hh
      rw [hh] at hu2
      have h1 := (upper_props hu2).2.2.2.2
      rw [h1] at hd2
      cases hd2
    cases hc : c with
    | nil => exact absurd hc hne2
    | cons x xs =>
      cases hxs : xs with
      | nil =>
        exfalso
        rw [hc, hxs] at hu hd
        have h1 := List.mem_singleton.mp hu
        have h2 := List.mem_singleton.mp hd
        rw [h1, h2] at hud
        exact hud rfl
      | cons y ys =>
        simp [hc, hxs]
  have hnorm : norm_call c = c := by
    unfold norm_call strip_cell
    rw [stripChars_of_forall (fun ch hch => (hchar ch hch).1),
      stripChars_of_forall (fun ch hch => (hchar ch hch).2.1),
      stripChars_of_forall (fun ch hch => (hchar ch hch).1),
      map_toUpper_id (fun ch hch => (hchar ch hch).2.2.1)]
  exact ⟨hne2, hlen, hnorm, hchar⟩

theorem good_code_chars {e : Str} (hcls : (is_jccjcg e || is_pref2 e) = true)
    (hfix : norm_exch e = e) :
    e ≠ [] ∧ ∀ ch ∈ e, isDigitC ch = true ∨ isUpperC ch = true := by
  rcases (by simpa using hcls : is_jccjcg e = true ∨ is_pref2 e = true) with hj | hp
  · obtain ⟨num, suf, hsplit, -, -⟩ := is_jccjcg_elim hj
    rw [hfix] at hsplit
    obtain ⟨-, h4, -, hdig, heq, hsuf⟩ := jccjcgSplit_inv hsplit
    constructor
    · intro hh
      rw [hh] at heq
      have := congrArg List.length heq
      simp at this
      omega
    · intro ch hch
      rw [heq] at hch
      rcases List.mem_append.mp hch with h2 | h2
      · exact Or.inl (hdig ch h2)
      · rcases hsuf with rfl | ⟨u, rfl, hu⟩
        · cases h2
        · rw [List.mem_singleton.mp h2]
          exact Or.inr hu
  · simp only [is_pref2, hfix, Bool.and_eq_true, decide_eq_true_eq] at hp
    obtain ⟨hlen, hall⟩ := hp
    constructor
    · intro hh
      rw [hh] at hlen
      cases hlen
    · intro ch hch
      exact Or.inl (List.all_eq_true.mp hall ch hch)

theorem splitOnP_all_neg {p : Char → Bool} {s : Str} (hne : s ≠ [])
    (h : ∀ ch ∈ s, p ch = false) : splitOnP p s = [s] := by
  cases s with
  | nil => exact absurd rfl hne
  | cons a as =>
    rw [splitOnP_cons_neg p a as (h a (by simp))]
    have ht : as.takeWhile (fun d => !p d) = as := by
      rw [show as = as ++ [] from (List.append_nil as).symm,
        takeWhile_append_all (fun x hx => by
          simp [h x (List.mem_cons_of_mem _ (by simpa using hx))])]
      rfl
    have hd : as.dropWhile (fun d => !p d) = [] := by
      rw [show as = as ++ [] from (List.append_nil as).symm,
        dropWhile_append_all (fun x hx => by
          simp [h x (List.mem_cons_of_mem _ (by simpa using hx))])]
      rfl
    rw [ht, hd, splitOnP_nil]

theorem splitOnP_chunk {p : Char → Bool} {c : Str} (sep : Char) (rest : Str)
    (hc : c ≠ []) (hall : ∀ ch ∈ c, p ch = false) (hsep : p sep = true) :
    splitOnP p (c ++ sep :: rest) = c :: splitOnP p rest := by
  cases c with
  | nil => exact absurd rfl hc
  | cons a as =>
    rw [List.cons_append, splitOnP_cons_neg p a _ (hall a (by simp))]
    have ht : (as ++ sep :: rest).takeWhile (fun d => !p d) = as := by
      rw [takeWhile_append_all (fun x hx => by
        simp [hall x (List.mem_cons_of_mem _ hx)])]
      rw [List.takeWhile_cons, hsep]
      simp
    have hd : (as ++ sep :: rest).dropWhile (fun d => !p d) = sep :: rest := by
      rw [dropWhile_append_all (fun x hx => by
        simp [hall x (List.mem_cons_of_mem _ hx)])]
      rw [List.dropWhile_cons, hsep]
      simp
    rw [ht, hd, splitOnP_cons_pos p sep rest hsep]

theorem prefix2_append {a b : Char} {c r : Str} (h : 2 ≤ c.length) :
    ([a, b]).isPrefixOf (c ++ r) = ([a, b]).isPrefixOf c := by
  cases c with
  | nil => simp at h
  | cons x xs =>
    cases xs with
    | nil => simp at h
    | cons y ys => simp [List.isPrefixOf]

theorem isCommentLine_call_line {c : Str} (hc : is_callsign c = true)
    (hnc : (strL "//").isPrefixOf c = false) (r : Str) :
    isCommentLine (c ++ r) = false := by
  obtain ⟨hne, hlen, -, hchar⟩ := is_callsign_facts hc
  obtain ⟨x, xs, hcc⟩ : ∃ x xs, c = x :: xs := by
    cases c with
    | nil => exact absurd rfl hne
    | cons a b => exact ⟨a, b, rfl⟩
  subst hcc
  unfold isCommentLine
  have hs2 : strL "//" = ['/', '/'] := rfl
  have hs3 : strL "#" = ['#'] := rfl
  have hs4 : strL ";" = [';'] := rfl
  rw [hs2, hs3, hs4]
  rw [hs2] at hnc
  have hx := hchar x (by simp)
  have h1 : (['/', '/']).isPrefixOf (x :: xs ++ r) = false := by
    rw [show x :: xs ++ r = (x :: xs) ++ r from rfl, prefix2_append hlen]
    exact hnc
  have h2 : (['#']).isPrefixOf (x :: xs ++ r) = false := by
    simp only [List.cons_append, List.isPrefixOf, Bool.and_eq_false_iff]
    left
    have hx35 : x.toNat ≠ 35 := hx.2.2.2.1
    simp only [beq_eq_false_iff_ne, ne_eq]
    intro hh
    apply hx35
    rw [← hh]
    rfl
  have h3 : ([';']).isPrefixOf (x :: xs ++ r) = false := by
    simp only [List.cons_append, List.isPrefixOf, Bool.and_eq_false_iff]
    left
    have hx59 : x.toNat ≠ 59 := hx.2.2.2.2
    simp only [beq_eq_false_iff_ne, ne_eq]
    intro hh
    apply hx59
    rw [← hh]
    rfl
  rw [h1, h2, h3]
  rfl

theorem setdefaultE_find_self {m : ExchMap} {c : Str} :
    alistFind (setdefaultE m c) c = some ((alistFind m c).getD []) := by
  unfold setdefaultE
  cases h : alistFind m c with
  | some v => simp [h]
  | none => simp [alistFind_set_self]

theorem setdefaultE_find_ne {m : ExchMap} {c c' : Str} (h : c' ≠ c) :
    alistFind (setdefaultE m c) c' = alistFind m c' := by
  unfold setdefaultE
  cases hf : alistFind m c with
  | some v => rfl
  | none => exact alistFind_set_ne _ _ _ _ h

theorem parse_line_bare {m : ExchMap} {c : Str} (hc : is_callsign c = true)
    (hnc : (strL "//").isPrefixOf c = false) :
    parse_line m c = setdefaultE m c := by
  obtain ⟨hne, hlen, hncall, hchar⟩ := is_callsign_facts hc
  have hstrip : stripChars isWsC c = c :=
    stripChars_of_forall (fun ch hch => (hchar ch hch).1)
  have hcomment : isCommentLine c = false := by
    have := isCommentLine_call_line hc hnc []
    rwa [List.append_nil] at this
  have hcn : ¬ (isCommentLine c = true) := by
    rw [hcomment]
    exact Bool.false_ne_true
  have hsplit : splitWsL c = [c] :=
    splitOnP_all_neg hne (fun ch hch => (hchar ch hch).1)
  unfold parse_line
  rw [hstrip, if_neg hne, if_neg hcn]
  simp only [hsplit]
  rw [hncall]
  rw [if_neg (by rw [hc]; exact fun hh => Bool.noConfusion hh)]
  rw [if_pos (show stripChars isWsC (joinSpace []) = [] from rfl)]

theorem parse_line_code {m : ExchMap} {c e : Str} (hc : is_callsign c = true)
    (hnc : (strL "//").isPrefixOf c = false)
    (hcls : (is_jccjcg e || is_pref2 e) = true) (hfix : norm_exch e = e) :
    parse_line m (c ++ ' ' :: e) = add_exch m c e := by
  obtain ⟨hne, hlen, hncall, hchar⟩ := is_callsign_facts hc
  obtain ⟨hene, hechar⟩ := good_code_chars hcls hfix
  have hews : ∀ ch ∈ e, isWsC ch = false := by
    intro ch hch
    rcases hechar ch hch with hd | hu
    · exact (digit_props hd).1
    · exact (upper_props hu).1
  have heseps : ∀ ch ∈ e, (isWsC ch || isSepC ch) = false := by
    intro ch hch
    rcases hechar ch hch with hd | hu
    · rw [(digit_props hd).1, (digit_props hd).2.2.1]
      rfl
    · rw [(upper_props hu).1, (upper_props hu).2.2.1]
      rfl
  obtain ⟨x, xs, hcc⟩ : ∃ x xs, c = x :: xs := by
    cases c with
    | nil => exact absurd rfl hne
    | cons a b => exact ⟨a, b, rfl⟩
  obtain ⟨init, z, hze⟩ : ∃ init z, e = init ++ [z] := by
    rcases List.eq_nil_or_concat e with h | ⟨L, b, h⟩
    · exact absurd h hene
    · exact ⟨L, b, by rw [h, List.concat_eq_append]⟩
  have hzmem : z ∈ e := by
    rw [hze]
    exact List.mem_append.mpr (Or.inr (List.mem_singleton.mpr rfl))
  have hstrip : stripChars isWsC (c ++ ' ' :: e) = c ++ ' ' :: e := by
    have hform : c ++ ' ' :: e = x :: ((xs ++ ' ' :: init) ++ [z]) := by
      rw [hcc, hze]
      simp
    rw [hform]
    exact stripChars_append_id (hchar x (by rw [hcc]; simp)).1 (hews z hzmem)
  have hline_ne : c ++ ' ' :: e ≠ [] := by
    rw [hcc]
    simp
  have hcomment := isCommentLine_call_line hc hnc (' ' :: e)
  have hcn : ¬ (isCommentLine (c ++ ' ' :: e) = true) := by
    rw [hcomment]
    exact Bool.noConfusion
  have hsplit : splitWsL (c ++ ' ' :: e) = c :: splitWsL e :=
    splitOnP_chunk ' ' e hne (fun ch hch => (hchar ch hch).1) (by rfl)
  have hse : splitWsL e = [e] := splitOnP_all_neg hene hews
  have hsteps : splitSepsL e = [e] := splitOnP_all_neg hene heseps
  unfold parse_line
  rw [hstrip, if_neg hline_ne, if_neg hcn]
  simp only [hsplit, hse]
  rw [hncall]
  rw [if_neg (by rw [hc]; exact fun hh => Bool.noConfusion hh)]
  have hstripe : stripChars isWsC (joinSpace [e]) = e := by
    show stripChars isWsC e = e
    exact stripChars_of_forall hews
  rw [hstripe, if_neg (fun hh => hene hh)]
  rw [hsteps]
  have hpicked : (([e].map norm_exch).filter (fun nt => is_jccjcg nt || is_pref2 nt)) =
      [e] := by
    simp [hfix, hcls]
  rw [hpicked]
  rw [if_pos (by simp)]
  rfl

theorem parse_line_single_token {m : ExchMap} {c t : Str} (hc : is_callsign c = true)
    (hnc : (strL "//").isPrefixOf c = false) (htne : t ≠ [])
    (hfix : norm_exch t = t) (hjoin : joinSpace (splitWsL t) = t)
    (htok : ∀ tok ∈ splitSepsL t, is_jccjcg (norm_exch tok) = false ∧
      is_pref2 (norm_exch tok) = false) :
    parse_line m (c ++ ' ' :: t) = add_exch m c t := by
  obtain ⟨hne, hlen, hncall, hchar⟩ := is_callsign_facts hc
  have e1 : stripChars isWsC t = t := (norm_exch_fixed_parts hfix).1
  obtain ⟨-, ⟨init, z, htz, hpz⟩⟩ := stripChars_id_ends htne e1
  obtain ⟨x, xs, hcc⟩ : ∃ x xs, c = x :: xs := by
    cases c with
    | nil => exact absurd rfl hne
    | cons a b => exact ⟨a, b, rfl⟩
  have hstrip : stripChars isWsC (c ++ ' ' :: t) = c ++ ' ' :: t := by
    have hform : c ++ ' ' :: t = x :: ((xs ++ ' ' :: init) ++ [z]) := by
      rw [hcc, htz]
      simp
    rw [hform]
    exact stripChars_append_id (hchar x (by rw [hcc]; simp)).1 hpz
  have hline_ne : c ++ ' ' :: t ≠ [] := by
    rw [hcc]
    simp
  have hcomment := isCommentLine_call_line hc hnc (' ' :: t)
  have hcn : ¬ (isCommentLine (c ++ ' ' :: t) = true) := by
    rw [hcomment]
    exact Bool.noConfusion
  have hsplit : splitWsL (c ++ ' ' :: t) = c :: splitWsL t :=
    splitOnP_chunk ' ' t hne (fun ch hch => (hchar ch hch).1) (by rfl)
  unfold parse_line
  rw [hstrip, if_neg hline_ne, if_neg hcn]
  simp only [hsplit]
  rw [hncall]
  rw [if_neg (by rw [hc]; exact fun hh => Bool.noConfusion hh)]
  have hrest : stripChars isWsC (joinSpace (splitWsL t)) = t := by
    rw [hjoin]
    exact e1
  rw [hrest, if_neg (fun hh => htne hh)]
  have hpicked : ((splitSepsL t).map norm_exch).filter
      (fun nt => is_jccjcg nt || is_pref2 nt) = [] := by
    rw [List.filter_eq_nil_iff]
    intro nt hnt
    obtain ⟨tok, htokmem, hrfl⟩ := List.mem_map.mp hnt
    rw [← hrfl]
    simp [(htok tok htokmem).1, (htok tok htokmem).2]
  rw [hpicked]
  rw [if_neg (by simp)]

theorem group_parse_empty {acc : ExchMap} {c : Str} (hc : is_callsign c = true)
    (hnc : (strL "//").isPrefixOf c = false) :
    (write_call_lines c []).foldl parse_line acc = setdefaultE acc c := by
  unfold write_call_lines
  rw [if_pos rfl, List.foldl_cons, List.foldl_nil]
  exact parse_line_bare hc hnc

theorem group_parse_codes {acc : ExchMap} {c : Str} {exchs : List Str}
    (hc : is_callsign c = true) (hnc : (strL "//").isPrefixOf c = false)
    (hne : exchs ≠ [])
    (hcodes : ∀ e ∈ exchs, (is_jccjcg e || is_pref2 e) = true ∧ norm_exch e = e) :
    (write_call_lines c exchs).foldl parse_line acc =
      exchs.foldl (fun a e => add_exch a c e) acc := by
  unfold write_call_lines
  rw [if_neg hne]
  have key : ∀ (l : List Str) (a : ExchMap),
      (∀ e ∈ l, (is_jccjcg e || is_pref2 e) = true ∧ norm_exch e = e) →
      (l.map (fun e =>
        if stripChars isWsC e ≠ [] then c ++ ' ' :: stripChars isWsC e else c)).foldl
          parse_line a =
        l.foldl (fun a e => add_exch a c e) a := by
    intro l
    induction l with
    | nil =>
      intro a _
      rfl
    | cons e es ih =>
      intro a hl
      obtain ⟨hecls, hefix⟩ := hl e (by simp)
      obtain ⟨hene, hechar⟩ := good_code_chars hecls hefix
      have hstripe : stripChars isWsC e = e := by
        apply stripChars_of_forall
        intro ch hch
        rcases hechar ch hch with hd | hu
        · exact (digit_props hd).1
        · exact (upper_props hu).1
      rw [List.map_cons, List.foldl_cons, List.foldl_cons]
      rw [show (if stripChars isWsC e ≠ [] then c ++ ' ' :: stripChars isWsC e else c) =
          c ++ ' ' :: e from by rw [hstripe, if_pos hene]]
      rw [parse_line_code hc hnc hecls hefix]
      exact ih _ (fun y hy => hl y (by simp [hy]))
  exact key exchs acc hcodes

theorem group_parse_single_token {acc : ExchMap} {c t : Str} (hc : is_callsign c = true)
    (hnc : (strL "//").isPrefixOf c = false) (htne : t ≠ [])
    (hfix : norm_exch t = t) (hjoin : joinSpace (splitWsL t) = t)
    (htok : ∀ tok ∈ splitSepsL t, is_jccjcg (norm_exch tok) = false ∧
      is_pref2 (norm_exch tok) = false) :
    (write_call_lines c [t]).foldl parse_line acc = add_exch acc c t := by
  unfold write_call_lines
  rw [if_neg (by simp)]
  have hstript : stripChars isWsC t = t := (norm_exch_fixed_parts hfix).1
  rw [List.map_cons, List.map_nil, List.foldl_cons, List.foldl_nil]
  rw [show (if stripChars isWsC t ≠ [] then c ++ ' ' :: stripChars isWsC t else c) =
      c ++ ' ' :: t from by rw [hstript, if_pos htne]]
  exact parse_line_single_token hc hnc htne hfix hjoin htok

theorem add_exch_find_none {m : ExchMap} {call exch : Str}
    (hcall : norm_call call = call) (hexch : norm_exch exch = exch)
    (hne : exch ≠ []) (hv : alistFind m call = none) :
    alistFind (add_exch m call exch) call = some [exch] := by
  simp only [add_exch]
  rw [hcall, hexch, hv]
  simp [hne, alistFind_set_self]

theorem addAll_find_none {exchs : List Str} {m : ExchMap} {call : Str}
    (hne : exchs ≠ []) (hcall : norm_call call = call)
    (hx : ∀ x ∈ exchs, norm_exch x = x ∧ x ≠ [])
    (h0 : alistFind m call = none) :
    alistFind (exchs.foldl (fun mm x => add_exch mm call x) m) call =
      some (stable_unique exchs) := by
  cases exchs with
  | nil => exact absurd rfl hne
  | cons e es =>
    rw [List.foldl_cons]
    have he := hx e (by simp)
    have h1 : alistFind (add_exch m call e) call = some [e] :=
      add_exch_find_none hcall he.1 he.2 h0
    have h2 := addAll_find_self (l := es) hcall
      (fun y hy => hx y (by simp [hy])) h1
    rw [h2]
    rfl

theorem stable_unique_singleton (t : Str) : stable_unique [t] = [t] := rfl

theorem insertSorted_perm (x : Str) (l : List Str) :
    (insertSorted x l).Perm (x :: l) := by
  induction l with
  | nil => exact List.Perm.refl _
  | cons y ys ih =>
    unfold insertSorted
    by_cases h : strLeB x y = true
    · rw [if_pos h]
    · rw [if_neg h]
      exact List.Perm.trans (List.Perm.cons y ih) (List.Perm.swap x y ys)

theorem sortStrs_perm (l : List Str) : (sortStrs l).Perm l := by
  induction l with
  | nil => exact List.Perm.refl _
  | cons x xs ih =>
    unfold sortStrs
    exact List.Perm.trans (insertSorted_perm x (sortStrs xs)) (List.Perm.cons x ih)

theorem foldl_parse_flatten :
    ∀ (gs : List (List Str)) (acc : ExchMap),
      gs.flatten.foldl parse_line acc =
        gs.foldl (fun a g => g.foldl parse_line a) acc := by
  intro gs
  induction gs with
  | nil =>
    intro acc
    rfl
  | cons g rest ih =>
    intro acc
    rw [List.flatten_cons, List.foldl_append, List.foldl_cons]
    exact ih _

theorem group_step_self {m acc : ExchMap} {c : Str} {exchs : List Str}
    (hc : is_callsign c = true) (hnc : (strL "//").isPrefixOf c = false)
    (hrec : goodRecord exchs) (hfind : alistFind m c = some exchs)
    (h0 : alistFind acc c = none) :
    alistFind ((write_call_lines c ((alistFind m c).getD [])).foldl parse_line acc)
        c = some (stable_unique exchs) := by
  rw [hfind]
  simp only [Option.getD_some]
  rcases hrec with hcodes | ⟨t, rfl, htne, hfix, hjoin, htok⟩
  · by_cases hne : exchs = []
    · subst hne
      rw [group_parse_empty hc hnc, setdefaultE_find_self, h0]
      rfl
    · rw [group_parse_codes hc hnc hne hcodes]
      have hx : ∀ x ∈ exchs, norm_exch x = x ∧ x ≠ [] := by
        intro x hxm
        obtain ⟨h1, h2⟩ := hcodes x hxm
        exact ⟨h2, (good_code_chars h1 h2).1⟩
      exact addAll_find_none hne (is_callsign_facts hc).2.2.1 hx h0
  · rw [group_parse_single_token hc hnc htne hfix hjoin htok]
    rw [add_exch_find_none (is_callsign_facts hc).2.2.1 hfix htne h0]
    rw [stable_unique_singleton]

theorem group_step_ne {m acc : ExchMap} {k c' : Str} {exchs : List Str}
    (hc : is_callsign k = true) (hnc : (strL "//").isPrefixOf k = false)
    (hrec : goodRecord exchs) (hfind : alistFind m k = some exchs)
    (hne : c' ≠ k) :
    alistFind ((write_call_lines k ((alistFind m k).getD [])).foldl parse_line acc)
        c' = alistFind acc c' := by
  rw [hfind]
  simp only [Option.getD_some]
  have hncl := (is_callsign_facts hc).2.2.1
  rcases hrec with hcodes | ⟨t, rfl, htne, hfix, hjoin, htok⟩
  · by_cases hemp : exchs = []
    · subst hemp
      rw [group_parse_empty hc hnc]
      exact setdefaultE_find_ne hne
    · rw [group_parse_codes hc hnc hemp hcodes]
      exact addAll_find_ne (by rw [hncl]; exact hne)
  · rw [group_parse_single_token hc hnc htne hfix hjoin htok]
    exact add_exch_find_ne (by rw [hncl]; exact hne)

theorem groups_skip {m : ExchMap} (hnd : (alistKeys m).Nodup)
    (hgood : ∀ kv ∈ m, is_callsign kv.1 = true ∧
      (strL "//").isPrefixOf kv.1 = false ∧ goodRecord kv.2) :
    ∀ (l : List Str) (a : ExchMap) (c' : Str), (∀ k ∈ l, k ∈ alistKeys m) →
      c' ∉ l →
      alistFind (l.foldl (fun a k =>
          (write_call_lines k ((alistFind m k).getD [])).foldl parse_line a) a) c' =
        alistFind a c' := by
  intro l
  induction l with
  | nil =>
    intro a c' _ _
    rfl
  | cons k rest ih =>
    intro a c' hkeys hcn
    have hkm : k ∈ alistKeys m := hkeys k (by simp)
    obtain ⟨v, hv⟩ : ∃ v, (k, v) ∈ m := by
      obtain ⟨kv, hkv, hfst⟩ := List.mem_map.mp hkm
      exact ⟨kv.2, by rw [← hfst]; simpa using hkv⟩
    have hfind : alistFind m k = some v := alistFind_of_mem_nodup hnd hv
    obtain ⟨hck, hnck, hrec⟩ := hgood (k, v) hv
    have hcne : c' ≠ k := fun hh => hcn (by rw [hh]; simp)
    rw [List.foldl_cons,
      ih _ c' (fun y hy => hkeys y (by simp [hy])) (fun hh => hcn (by simp [hh]))]
    exact group_step_ne hck hnck hrec hfind hcne

/-- **C7** (counterexample to the claim as stated): `"//1A"` is a valid
callsign for the writer, but its written line starts with `//` and is
consumed as a comment by the reader, so the record is dropped entirely —
not an equivalent store. -/
theorem C7_counterexample :
    is_callsign (strL "//1A") = true ∧
    alistFind [(strL "//1A", ([] : List Str))] (strL "//1A") = some [] ∧
    write_supercheck_lines [(strL "//1A", [])] = [strL "//1A"] ∧
    read_existing_supercheck (write_supercheck_lines [(strL "//1A", [])]) = [] := by
  exact ⟨by decide, by decide, by decide, by decide⟩

/-- **C7** (amended): for a store whose callsigns are valid, not
comment-like (no leading `//`), and pairwise distinct, and whose records are
well formed (`goodRecord`: all codes classify and are normalization-fixed,
or a single whitespace-stable opaque token), writing with `write_supercheck`
and re-parsing with `read_existing_supercheck` rebinds every callsign to the
stable dedup of its codes — the same code set in first-occurrence order —
and introduces no new callsigns; in particular a single-entry record (such
as one opaque token) round-trips as exactly that entry. -/
theorem C7_round_trip (m : ExchMap) (hnd : (alistKeys m).Nodup)
    (hgood : ∀ kv ∈ m, is_callsign kv.1 = true ∧
      (strL "//").isPrefixOf kv.1 = false ∧ goodRecord kv.2) :
    (∀ c exchs, alistFind m c = some exchs →
      alistFind (read_existing_supercheck (write_supercheck_lines m)) c =
        some (stable_unique exchs)) ∧
    (∀ c, alistFind m c = none →
      alistFind (read_existing_supercheck (write_supercheck_lines m)) c = none) ∧
    (∀ (l : List Str) (x : Str), x ∈ stable_unique l ↔ x ∈ l) ∧
    (∀ t : Str, stable_unique [t] = [t]) := by
  have hread : read_existing_supercheck (write_supercheck_lines m) =
      (sortStrs (alistKeys m)).foldl (fun a k =>
        (write_call_lines k ((alistFind m k).getD [])).foldl parse_line a) [] := by
    unfold read_existing_supercheck write_supercheck_lines
    rw [foldl_parse_flatten, List.foldl_map]
  have hperm := sortStrs_perm (alistKeys m)
  have hkeys : ∀ k ∈ sortStrs (alistKeys m), k ∈ alistKeys m :=
    fun k hk => (hperm.mem_iff).mp hk
  refine ⟨?_, ?_, fun l x => mem_stable_unique, fun t => stable_unique_singleton t⟩
  · intro c exchs hfind
    rw [hread]
    have hmem : (c, exchs) ∈ m := alistFind_mem hfind
    have hcm : c ∈ alistKeys m := List.mem_map.mpr ⟨(c, exchs), hmem, rfl⟩
    have hcks : c ∈ sortStrs (alistKeys m) := (hperm.mem_iff).mpr hcm
    obtain ⟨l1, l2, hks⟩ := List.append_of_mem hcks
    have hksnd : (l1 ++ c :: l2).Nodup := by
      rw [← hks]
      exact (hperm.nodup_iff).mpr hnd
    obtain ⟨nd1, nd2, disj⟩ := List.nodup_append.mp hksnd
    have hc1 : c ∉ l1 := fun hh => disj hh (List.mem_cons_self c l2)
    have hc2 : c ∉ l2 := (List.nodup_cons.mp nd2).1
    have hkeys1 : ∀ k ∈ l1, k ∈ alistKeys m := by
      intro k hk
      apply hkeys
      rw [hks]
      exact List.mem_append.mpr (Or.inl hk)
    have hkeys2 : ∀ k ∈ l2, k ∈ alistKeys m := by
      intro k hk
      apply hkeys
      rw [hks]
      exact List.mem_append.mpr (Or.inr (List.mem_cons_of_mem _ hk))
    rw [hks, List.foldl_append, List.foldl_cons]
    have hf1 : alistFind (l1.foldl (fun a k =>
        (write_call_lines k ((alistFind m k).getD [])).foldl parse_line a) []) c =
        none := by
      rw [groups_skip hnd hgood l1 [] c hkeys1 hc1]
      rfl
    obtain ⟨hcc, hncc, hrec⟩ := hgood (c, exchs) hmem
    rw [groups_skip hnd hgood l2 _ c hkeys2 hc2]
    exact group_step_self hcc hncc hrec hfind hf1
  · intro c hnone
    rw [hread]
    have hcm : c ∉ alistKeys m := alistFind_eq_none.mp hnone
    have hcks : c ∉ sortStrs (alistKeys m) := fun hh => hcm ((hperm.mem_iff).mp hh)
    rw [groups_skip hnd hgood _ [] c hkeys hcks]
    rfl

/-- Concrete run of `C7_round_trip` on
`{JA1ABC ↦ ["100110", "10"]}`. -/
theorem C7_witness :
    alistFind (read_existing_supercheck (write_supercheck_lines
        [(strL "JA1ABC", [strL "100110", strL "10"])])) (strL "JA1ABC") =
      some (stable_unique [strL "100110", strL "10"]) :=
  (C7_round_trip [(strL "JA1ABC", [strL "100110", strL "10"])] (by decide)
      (by
        intro kv hkv
        have hkv2 : kv = (strL "JA1ABC", [strL "100110", strL "10"]) :=
          List.mem_singleton.mp hkv
        subst hkv2
        refine ⟨by decide, by decide, Or.inl ?_⟩
        intro e he
        rcases List.mem_cons.mp he with rfl | he2
        · exact ⟨by decide, by decide⟩
        · rcases List.mem_singleton.mp he2 with rfl
          exact ⟨by decide, by decide⟩)).1
    (strL "JA1ABC") [strL "100110", strL "10"] (by decide)
